import Mathlib

/-!
# Recursive-doubling all-gather (`src/ctran/algos/AllGather/AllGatherRecDbl.cc`)

A shallow embedding of the host orchestration function `impl` and the facts the
specification states about it.

Conventions of the embedding

* `rank`, `nRanks`, `nSteps`, and the loop indices are C `int` / `size_t` values that stay
  far below the word size in every expression of `impl` (they are bounded by `nRanks`);
  they are natural numbers here.  The `int` shifts `1 << i` and `2 << i` are `2 ^ i` and
  `2 ^ (i + 1)`; `rank - dists[i]` is only evaluated when `rank / dists[i]` is odd, hence
  when `rank >= dists[i]`, so truncated subtraction is exact.  Division by a zero
  `dists[i]` (undefined in C) yields 0; `partnersDefined` tells whether a run meets one.
* `size_t` products that involve the byte count `sendSize` wrap modulo `2 ^ 64`
  (`sizeMul`).  Pointers are natural-number addresses; pointer arithmetic is addition.
* `impl` drives the mapper through calls whose results it checks with `NCCLCHECKGOTO`.
  A run of `impl` is recorded as the list of events it produced, in issue order.
* Declarations that live in headers outside the translation unit (`log2i`,
  `ncclTypeSize`, the configuration variable `NCCL_CTRAN_AG_RD_RTR`, the failure test of
  `NCCLCHECKGOTO`) are fields of `Externs`; what the mapper returns is the `CtranMapper`
  record.
* For `src/misc/param.cc`, files, names and values are lists of bytes and a C string is
  the bytes before the first NUL.  The C library functions `getline`, `strncpy`, `setenv`
  and `strlen` follow their standard behaviour; `strtoll`, the file system, the tuner
  plugin and `ncclCvarInit` are fields of `Host`.  A run to which C gives no meaning (a
  write outside an array, an `int` that passes `INT_MAX`) has the result `none`.
-/

namespace Ctran

/-! ## Machine arithmetic -/

/-- Number of values of a `size_t`. -/
def SIZE_MOD : Nat := 2 ^ 64

/-- Product of two `size_t` values. -/
def sizeMul (a b : Nat) : Nat := (a * b) % SIZE_MOD

/-! ## Per-step distance, partner and segment index (lines 45-50 and 94) -/

/-- Line 47: `dists[i] = nRanks / (2 << i)`. -/
def dists (nRanks i : Nat) : Nat := nRanks / (2 <<< i)

/-- Lines 48-49: `pos = (rank / dists[i]) % 2`,
`peers[i] = pos == 0 ? rank + dists[i] : rank - dists[i]`. -/
def peers (rank nRanks i : Nat) : Nat :=
  let pos := (rank / dists nRanks i) % 2
  if pos = 0 then rank + dists nRanks i else rank - dists nRanks i

/-- Line 94: `putOffset = j * (nRanks / (1 << i)) + rank % (nRanks / (1 << i))`. -/
def putOffset (rank nRanks i j : Nat) : Nat :=
  j * (nRanks / (1 <<< i)) + rank % (nRanks / (1 <<< i))

/-! ## Results, calls and events -/

/-- Modelled from the spec: `ncclResult_t` is declared in a header that is not part of the
sources; a result is a numeric code and `ncclSuccess` is the code of success. -/
abbrev ncclResult_t := Nat

/-- Modelled from the spec: the success code of `ncclResult_t`. -/
def ncclSuccess : ncclResult_t := 0

/-- The three request arrays of `impl` (lines 36-38); a value names one slot. -/
inductive Req where
  | irecvReq (i : Nat)
  | isendReq (i : Nat)
  | iputReq (i : Nat)
  deriving DecidableEq, Repr

/-- Arguments of one `mapper->iput` call (lines 110-118).  `slot` is the loop index `i`
whose `remoteRecvBuffs[i]` and `remoteAccessKeys[i]` entries the call reads. -/
structure PutArgs where
  slot : Nat
  putFrom : Nat
  remoteDst : Nat
  len : Nat
  peer : Nat
  putFromHdl : Nat
  remoteAccessKey : Nat
  notify : Bool
  putReqPtr : Option Req
  deriving DecidableEq, Repr

/-- The primitives whose result `impl` checks with `NCCLCHECKGOTO`. -/
inductive Call where
  /-- `mapper->searchRegHandle(buf, len, &hdl, &localReg)` -/
  | searchRegHandle (buf len : Nat)
  /-- `mapper->irecvCtrl(&remoteRecvBuffs[i], &remoteAccessKeys[i], peer, &irecvReq[i])` -/
  | irecvCtrl (i peer : Nat)
  /-- `mapper->isendCtrl(buf, hdl, peer, &isendReq[i])` -/
  | isendCtrl (buf hdl peer i : Nat)
  /-- `req->wait()` on one slot of a request array -/
  | wait (req : Req)
  /-- `mapper->iput(...)` -/
  | iput (a : PutArgs)
  /-- `mapper->waitNotify(peer)` -/
  | waitNotify (peer : Nat)
  /-- `mapper->deregMem(hdl)` -/
  | deregMem (hdl : Nat)
  deriving DecidableEq, Repr

/-- What `impl` does besides checked calls: appends to its timestamp record, hands the
record to the mapper, asks for the profiling report. -/
inductive Note where
  /-- line 91 -/
  | recvCtrl (peer : Nat)
  /-- line 123 -/
  | putIssued (peer : Nat)
  /-- line 129 -/
  | putComplete (peer : Nat)
  /-- line 144: `mapper->timestamps.push_back(std::move(timestamp))` -/
  | pushTimestamp
  /-- line 145 -/
  | reportProfiling
  deriving DecidableEq, Repr

/-- One entry of a run: a checked call with the result it returned, or a note. -/
inductive Event where
  | call (c : Call) (r : ncclResult_t)
  | note (n : Note)
  deriving DecidableEq, Repr

/-! ## Environment -/

/-- Declarations used by `impl` that are defined outside the sources. -/
structure Externs where
  /-- `log2i` of line 27 -/
  log2i : Nat → Nat
  /-- `ncclTypeSize(datatype)` of line 23 -/
  ncclTypeSize : Nat → Nat
  /-- the configuration variable of lines 7-17 -/
  NCCL_CTRAN_AG_RD_RTR : Bool
  /-- the test `NCCLCHECKGOTO` applies to a result to decide to jump to `exit` -/
  checkFails : ncclResult_t → Bool

/-- What the mapper hands back to one invocation of `impl`. -/
structure CtranMapper where
  /-- result of a checked call, given the events of the run so far -/
  result : List Event → Call → ncclResult_t
  /-- out-parameters of the first `searchRegHandle` (lines 53-54) -/
  sendHdl : Nat
  localRegSend : Bool
  /-- out-parameters of the second `searchRegHandle` (lines 58-59) -/
  recvHdl : Nat
  localRegRecv : Bool
  /-- what the `irecvCtrl` of step `i` stores in `remoteRecvBuffs[i]` -/
  remoteRecvBuffs : Nat → Nat
  /-- what the `irecvCtrl` of step `i` stores in `remoteAccessKeys[i]` -/
  remoteAccessKeys : Nat → Nat

/-- The communicator fields `impl` reads. -/
structure ncclComm where
  rank : Nat
  nRanks : Nat
  deriving DecidableEq, Repr

/-- The all-gather operation descriptor (`op->allgather` and `op->comm`). -/
structure OpElem where
  sendbuff : Nat
  recvbuff : Nat
  sendcount : Nat
  datatype : Nat
  comm : ncclComm
  deriving DecidableEq, Repr

/-! ## The state of a run and the control monad -/

/-- State of a run of `impl`: the events so far and the local variable `res`. -/
structure ImplState where
  trace : List Event
  res : ncclResult_t
  deriving DecidableEq, Repr

/-- A block of `impl`: it either falls through with a value (`some`) or has jumped to the
label `exit` (`none`). -/
def ImplM (α : Type) : Type := ImplState → Option α × ImplState

instance : Monad ImplM where
  pure a := fun s => (some a, s)
  bind m f := fun s =>
    match m s with
    | (some a, s1) => f a s1
    | (none, s1) => (none, s1)

/-- `NCCLCHECKGOTO(call, res, exit)`: perform the call, store its result in `res`, jump
to `exit` when the result fails the check. -/
def NCCLCHECKGOTO (x : Externs) (m : CtranMapper) (c : Call) : ImplM Unit := fun s =>
  let r := m.result s.trace c
  let s1 : ImplState := { trace := s.trace ++ [Event.call c r], res := r }
  if x.checkFails r then (none, s1) else (some (), s1)

/-- An unchecked action. -/
def emit (n : Note) : ImplM Unit := fun s =>
  (some (), { s with trace := s.trace ++ [Event.note n] })

/-- Loop `for (i = start; i < start + n; i++) body(i)`. -/
def forLoopFrom (body : Nat → ImplM Unit) : Nat → Nat → ImplM Unit
  | _, 0 => pure ()
  | start, n + 1 => do
    body start
    forLoopFrom body (start + 1) n

/-- Loop `for (size_t i = 0; i < n; i++) body(i)`. -/
def forLoop (n : Nat) (body : Nat → ImplM Unit) : ImplM Unit :=
  forLoopFrom body 0 n

/-! ## `impl` -/

/-- Lines 22-23: `sendSize = sendcount * ncclTypeSize(datatype)`. -/
def sendSize (x : Externs) (op : OpElem) : Nat :=
  sizeMul op.sendcount (x.ncclTypeSize op.datatype)

/-- Line 27: `nSteps = log2i(nRanks)`. -/
def nSteps (x : Externs) (op : OpElem) : Nat := x.log2i op.comm.nRanks

/-- Lines 94-118: the arguments of the `j`-th put of step `i`. -/
def putArgs (x : Externs) (m : CtranMapper) (op : OpElem) (i j : Nat) : PutArgs :=
  let rank := op.comm.rank
  let off := putOffset rank op.comm.nRanks i j
  let notify : Bool := j == (1 <<< i) - 1
  { slot := i
    putFrom := if off = rank then op.sendbuff else op.recvbuff + sizeMul off (sendSize x op)
    remoteDst := m.remoteRecvBuffs i + sizeMul off (sendSize x op)
    len := sendSize x op
    peer := peers rank op.comm.nRanks i
    putFromHdl := if off = rank then m.sendHdl else m.recvHdl
    remoteAccessKey := m.remoteAccessKeys i
    notify := notify
    putReqPtr := if notify then some (Req.iputReq i) else none }

/-- The body of `impl` up to the label `exit` (lines 45-145). -/
def implBody (x : Externs) (m : CtranMapper) (op : OpElem) : ImplM Unit := do
  let rank := op.comm.rank
  let nRanks := op.comm.nRanks
  let nSteps := nSteps x op
  -- lines 52-61
  NCCLCHECKGOTO x m (Call.searchRegHandle op.sendbuff (sendSize x op))
  NCCLCHECKGOTO x m (Call.searchRegHandle op.recvbuff (sizeMul nRanks (sendSize x op)))
  -- lines 63-77
  forLoop nSteps fun i => do
    NCCLCHECKGOTO x m (Call.irecvCtrl i (peers rank nRanks i))
    if !x.NCCL_CTRAN_AG_RD_RTR then
      NCCLCHECKGOTO x m (Call.isendCtrl op.recvbuff m.recvHdl (peers rank nRanks i) i)
  -- lines 79-131
  forLoop nSteps fun i => do
    let peer := peers rank nRanks i
    if x.NCCL_CTRAN_AG_RD_RTR then
      NCCLCHECKGOTO x m (Call.isendCtrl op.recvbuff m.recvHdl peer i)
    NCCLCHECKGOTO x m (Call.wait (Req.irecvReq i))
    emit (Note.recvCtrl peer)
    forLoop (1 <<< i) fun j => do
      NCCLCHECKGOTO x m (Call.iput (putArgs x m op i j))
      if j = 0 then
        emit (Note.putIssued peer)
    NCCLCHECKGOTO x m (Call.wait (Req.iputReq i))
    emit (Note.putComplete peer)
    NCCLCHECKGOTO x m (Call.waitNotify peer)
  -- lines 133-135
  forLoop nSteps fun i =>
    NCCLCHECKGOTO x m (Call.wait (Req.isendReq i))
  -- lines 137-142
  if m.localRegSend = true then
    NCCLCHECKGOTO x m (Call.deregMem m.sendHdl)
  if m.localRegRecv = true then
    NCCLCHECKGOTO x m (Call.deregMem m.recvHdl)
  -- lines 144-145
  emit Note.pushTimestamp
  emit Note.reportProfiling

/-- Run of `impl`: `res` starts as `ncclSuccess` (line 20), the body runs, and the value
of `res` at the label `exit` is returned (line 148).  The second component is the list
of events of the run. -/
def impl (x : Externs) (m : CtranMapper) (op : OpElem) : ncclResult_t × List Event :=
  let s := (implBody x m op { trace := [], res := ncclSuccess }).2
  (s.res, s.trace)

/-! ## Straight-line view of `impl` -/

/-- An instruction of the unrolled body: a checked call or a note. -/
inductive Instr where
  | checked (c : Call)
  | note (n : Note)
  deriving DecidableEq, Repr

/-- The instruction an event is the execution of. -/
def Event.instr : Event → Instr
  | Event.call c _ => Instr.checked c
  | Event.note n => Instr.note n

/-- Run one instruction. -/
def step (x : Externs) (m : CtranMapper) : Instr → ImplM Unit
  | Instr.checked c => NCCLCHECKGOTO x m c
  | Instr.note n => emit n

/-- Run a list of instructions in order, stopping at the first jump to `exit`. -/
def exec (x : Externs) (m : CtranMapper) : List Instr → ImplM Unit
  | [] => pure ()
  | a :: as => do
    step x m a
    exec x m as

/-- Events produced by `exec` after the history `h`. -/
def runEvents (x : Externs) (m : CtranMapper) : List Instr → List Event → List Event
  | [], _ => []
  | Instr.note n :: is, h => Event.note n :: runEvents x m is (h ++ [Event.note n])
  | Instr.checked c :: is, h =>
    let ev := Event.call c (m.result h c)
    if x.checkFails (m.result h c) then [ev] else ev :: runEvents x m is (h ++ [ev])

/-- Lines 93-125 unrolled: the puts of step `i`. -/
def putScript (x : Externs) (m : CtranMapper) (op : OpElem) (i : Nat) : List Instr :=
  (List.range (1 <<< i)).flatMap fun j =>
    Instr.checked (Call.iput (putArgs x m op i j)) ::
      (if j = 0 then [Instr.note (Note.putIssued (peers op.comm.rank op.comm.nRanks i))] else [])

/-- Lines 64-77 unrolled: one iteration of the handle-exchange loop. -/
def ctrlScript (x : Externs) (m : CtranMapper) (op : OpElem) (i : Nat) : List Instr :=
  Instr.checked (Call.irecvCtrl i (peers op.comm.rank op.comm.nRanks i)) ::
    (if !x.NCCL_CTRAN_AG_RD_RTR then
      [Instr.checked (Call.isendCtrl op.recvbuff m.recvHdl (peers op.comm.rank op.comm.nRanks i) i)]
    else [])

/-- Lines 79-131 unrolled: one iteration of the main loop. -/
def stepScript (x : Externs) (m : CtranMapper) (op : OpElem) (i : Nat) : List Instr :=
  (if x.NCCL_CTRAN_AG_RD_RTR then
      [Instr.checked (Call.isendCtrl op.recvbuff m.recvHdl (peers op.comm.rank op.comm.nRanks i) i)]
    else []) ++
  [Instr.checked (Call.wait (Req.irecvReq i)),
   Instr.note (Note.recvCtrl (peers op.comm.rank op.comm.nRanks i))] ++
  putScript x m op i ++
  [Instr.checked (Call.wait (Req.iputReq i)),
   Instr.note (Note.putComplete (peers op.comm.rank op.comm.nRanks i)),
   Instr.checked (Call.waitNotify (peers op.comm.rank op.comm.nRanks i))]

/-- Lines 133-145 unrolled. -/
def tailScript (x : Externs) (m : CtranMapper) (op : OpElem) : List Instr :=
  (List.range (nSteps x op)).flatMap (fun i => [Instr.checked (Call.wait (Req.isendReq i))]) ++
  (if m.localRegSend = true then [Instr.checked (Call.deregMem m.sendHdl)] else []) ++
  (if m.localRegRecv = true then [Instr.checked (Call.deregMem m.recvHdl)] else []) ++
  [Instr.note Note.pushTimestamp, Instr.note Note.reportProfiling]

/-- The body of `impl` unrolled into a list of instructions. -/
def implScript (x : Externs) (m : CtranMapper) (op : OpElem) : List Instr :=
  [Instr.checked (Call.searchRegHandle op.sendbuff (sendSize x op)),
   Instr.checked (Call.searchRegHandle op.recvbuff (sizeMul op.comm.nRanks (sendSize x op)))] ++
  (List.range (nSteps x op)).flatMap (ctrlScript x m op) ++
  (List.range (nSteps x op)).flatMap (stepScript x m op) ++
  tailScript x m op

/-! ## Reading a run -/

/-- The put a script instruction issues, if it is one. -/
def Instr.put? : Instr → Option PutArgs
  | Instr.checked (Call.iput a) => some a
  | _ => none

/-- The checked call of a script instruction, if it is one. -/
def Instr.call? : Instr → Option Call
  | Instr.checked c => some c
  | Instr.note _ => none

/-- The puts issued in a run, in issue order. -/
def putsOf (tr : List Event) : List PutArgs :=
  tr.filterMap fun e => e.instr.put?

/-- The puts of a run that belong to step `i`. -/
def stepPuts (tr : List Event) (i : Nat) : List PutArgs :=
  (putsOf tr).filter fun a => a.slot = i

/-- The checked calls of a run, in issue order. -/
def callsOf (tr : List Event) : List Call :=
  tr.filterMap fun e => e.instr.call?

/-- In the list `l`, every element satisfying `q` comes after some element satisfying `p`. -/
def Precedes {α : Type} (l : List α) (p q : α → Prop) : Prop :=
  ∀ pre e post, l = pre ++ e :: post → q e → ∃ e1, e1 ∈ pre ∧ p e1

/-- The event is the call `c` and its result passed the check of `NCCLCHECKGOTO`. -/
def Event.passed (x : Externs) (c : Call) (e : Event) : Prop :=
  ∃ r, e = Event.call c r ∧ x.checkFails r = false

/-- The event is a put of step `i`. -/
def Event.isPutOf (i : Nat) (e : Event) : Prop :=
  ∃ a r, e = Event.call (Call.iput a) r ∧ a.slot = i

/-- The event is a put. -/
def Event.isPut (e : Event) : Prop :=
  ∃ a r, e = Event.call (Call.iput a) r

/-- No checked call of the run failed the check of `NCCLCHECKGOTO`. -/
def NoFailure (x : Externs) (m : CtranMapper) : Prop :=
  ∀ h c, x.checkFails (m.result h c) = false

/-! ## A concrete environment -/

/-- Halving loop with fuel: the number of times `n` can be halved before reaching 0 or 1. -/
def halvings : Nat → Nat → Nat
  | 0, _ => 0
  | fuel + 1, n => if n / 2 = 0 then 0 else halvings fuel (n / 2) + 1

/-- An instance of the external declarations: floor logarithm, 4-byte elements, the
default `NCCL_CTRAN_AG_RD_RTR = true`, and a check that fails on every non-zero code. -/
def demoExterns : Externs :=
  { log2i := fun n => halvings n n
    ncclTypeSize := fun _ => 4
    NCCL_CTRAN_AG_RD_RTR := true
    checkFails := fun r => r != ncclSuccess }

/-- A mapper whose calls all succeed. -/
def demoMapper : CtranMapper :=
  { result := fun _ _ => ncclSuccess
    sendHdl := 11
    localRegSend := true
    recvHdl := 22
    localRegRecv := false
    remoteRecvBuffs := fun i => 5000 + 1000 * i
    remoteAccessKeys := fun i => 70 + i }

/-- Rank 1 of a group of 4, sending 2 elements. -/
def demoOp : OpElem :=
  { sendbuff := 100, recvbuff := 1000, sendcount := 2, datatype := 0,
    comm := { rank := 1, nRanks := 4 } }

/-- The handle a script instruction deregisters, if it is a `deregMem` call. -/
def Instr.dereg? : Instr → Option Nat
  | Instr.checked (Call.deregMem h) => some h
  | _ => none

/-- The handles passed to `deregMem` in a run, in issue order. -/
def deregsOf (tr : List Event) : List Nat :=
  tr.filterMap fun e => e.instr.dereg?

/-- The checked calls of one iteration of the main loop (lines 79-131), in program order:
the control send when `NCCL_CTRAN_AG_RD_RTR` is set, the wait on the control receive, the
`2 ^ i` puts, the wait on the notified put's request, `waitNotify`. -/
def stepCalls (x : Externs) (m : CtranMapper) (op : OpElem) (i : Nat) : List Call :=
  (if x.NCCL_CTRAN_AG_RD_RTR then
      [Call.isendCtrl op.recvbuff m.recvHdl (peers op.comm.rank op.comm.nRanks i) i]
    else []) ++
  [Call.wait (Req.irecvReq i)] ++
  (List.range (2 ^ i)).map (fun j => Call.iput (putArgs x m op i j)) ++
  [Call.wait (Req.iputReq i), Call.waitNotify (peers op.comm.rank op.comm.nRanks i)]

/-- The checked calls before the main loop (lines 52-77), in program order: the two
registration lookups, then for each step the control receive and, when
`NCCL_CTRAN_AG_RD_RTR` is not set, the control send. -/
def setupCalls (x : Externs) (m : CtranMapper) (op : OpElem) : List Call :=
  [Call.searchRegHandle op.sendbuff (sendSize x op),
   Call.searchRegHandle op.recvbuff (sizeMul op.comm.nRanks (sendSize x op))] ++
  (List.range (nSteps x op)).flatMap fun i =>
    Call.irecvCtrl i (peers op.comm.rank op.comm.nRanks i) ::
      (if !x.NCCL_CTRAN_AG_RD_RTR then
        [Call.isendCtrl op.recvbuff m.recvHdl (peers op.comm.rank op.comm.nRanks i) i]
      else [])

/-- The checked calls after the main loop (lines 133-142), in program order: the waits on
the control-send requests, then the deregistrations. -/
def wrapUpCalls (x : Externs) (m : CtranMapper) (op : OpElem) : List Call :=
  (List.range (nSteps x op)).map (fun i => Call.wait (Req.isendReq i)) ++
  (if m.localRegSend = true then [Call.deregMem m.sendHdl] else []) ++
  (if m.localRegRecv = true then [Call.deregMem m.recvHdl] else [])

/-- The claim "the control-message exchange (both the `irecvCtrl` and the `isendCtrl` call)
for every step is issued before the first put", for a run `tr` of `n` steps: whenever a
put occurs in the run, both control calls of every step occur before it. -/
def ControlUpFront (tr : List Event) (n : Nat) : Prop :=
  ∀ i, i < n →
    Precedes tr (fun e => ∃ p r, e = Event.call (Call.irecvCtrl i p) r) Event.isPut ∧
    Precedes tr (fun e => ∃ b h p r, e = Event.call (Call.isendCtrl b h p i) r) Event.isPut

/-! ## A group of ranks running the all-gather in lock-step -/

/-- The memories of the ranks of a group: `w r a` is the content of the cell at address `a`
of rank `r`. -/
abbrev World := Nat → Nat → Nat

/-- Modelled from the spec: the mapper's `iput` is not part of the sources; by section 4.1
a put is a one-sided write of `len` bytes from `putFrom` in the memory of the issuing rank
`src` to `remoteDst` in the memory of `peer`. -/
def applyPut (src : Nat) (a : PutArgs) (w : World) : World := fun q addr =>
  if q = a.peer ∧ a.remoteDst ≤ addr ∧ addr < a.remoteDst + a.len then
    w src (a.putFrom + (addr - a.remoteDst))
  else w q addr

/-- Apply a sequence of puts, each tagged with the rank that issues it, in order. -/
def runPuts (l : List (Nat × PutArgs)) (w : World) : World :=
  l.foldl (fun w1 ra => applyPut ra.1 ra.2 w1) w

/-- Lock-step execution of `n` steps: the puts of step `i`, in the order `sched i`, all
land before step `i + 1` starts. -/
def lockStep (sched : Nat → List (Nat × PutArgs)) (n : Nat) (w : World) : World :=
  (List.range n).foldl (fun w1 i => runPuts (sched i) w1) w

/-- The ranks of one communicator, all calling the all-gather with the same count and
datatype, each with its own buffers and its own mapper. -/
structure Group where
  x : Externs
  nRanks : Nat
  sendcount : Nat
  datatype : Nat
  sendbuff : Nat → Nat
  recvbuff : Nat → Nat
  mapper : Nat → CtranMapper

/-- The operation descriptor rank `r` passes to `impl`. -/
def Group.op (g : Group) (r : Nat) : OpElem :=
  { sendbuff := g.sendbuff r, recvbuff := g.recvbuff r, sendcount := g.sendcount,
    datatype := g.datatype, comm := { rank := r, nRanks := g.nRanks } }

/-- The events of rank `r`'s run of `impl`. -/
def Group.run (g : Group) (r : Nat) : List Event :=
  (impl g.x (g.mapper r) (g.op r)).2

/-- The byte count of one segment, `sendSize` (the same on every rank). -/
def Group.segSize (g : Group) : Nat :=
  sizeMul g.sendcount (g.x.ncclTypeSize g.datatype)

/-- The puts of step `i` of all ranks, rank by rank, each tagged with its issuer. -/
def Group.roundPuts (g : Group) (i : Nat) : List (Nat × PutArgs) :=
  (List.range g.nRanks).flatMap fun r => (stepPuts (g.run r) i).map fun a => (r, a)

/-- A group of four ranks; rank `r` has its send buffer at `100 + 10 * r` and its receive
buffer at `1000 * (r + 1)`; two elements of four bytes per rank; every call succeeds and
the control receive of a step delivers the partner's receive-buffer address. -/
def demoGroup : Group :=
  { x := demoExterns
    nRanks := 4
    sendcount := 2
    datatype := 0
    sendbuff := fun r => 100 + 10 * r
    recvbuff := fun r => 1000 * (r + 1)
    mapper := fun r =>
      { result := fun _ _ => ncclSuccess
        sendHdl := 11
        localRegSend := true
        recvHdl := 22
        localRegRecv := false
        remoteRecvBuffs := fun i => 1000 * (peers r 4 i + 1)
        remoteAccessKeys := fun i => 70 + i } }

/-- Initial memories of `demoGroup`: rank `r`'s send buffer and segment `r` of its receive
buffer are filled with `100 * r + 1`, every other cell holds 0. -/
def demoWorld : World := fun r a =>
  if (100 + 10 * r ≤ a ∧ a < 100 + 10 * r + 8) ∨
      (1000 * (r + 1) + r * 8 ≤ a ∧ a < 1000 * (r + 1) + r * 8 + 8) then 100 * r + 1
  else 0

/-- Every rank's send buffer holds its own data `S r`, and segment `s` of rank `r`'s
receive buffer holds `S s` for all pairs `(r, s)` in the relation `K`. -/
def Holds (g : Group) (S : Nat → Nat → Nat) (K : Nat → Nat → Prop) (w : World) : Prop :=
  ∀ r, r < g.nRanks →
    (∀ b, b < g.segSize → w r (g.sendbuff r + b) = S r b) ∧
    (∀ s, s < g.nRanks → K r s →
      ∀ b, b < g.segSize → w r (g.recvbuff r + s * g.segSize + b) = S s b)

/-- The send buffer of every rank is either segment `r` of its receive buffer (in-place
all-gather) or does not overlap the receive buffer. -/
def Group.BuffersApart (g : Group) : Prop :=
  ∀ r, r < g.nRanks →
    g.sendbuff r = g.recvbuff r + r * g.segSize ∨
    g.sendbuff r + g.segSize ≤ g.recvbuff r ∨
    g.recvbuff r + g.nRanks * g.segSize ≤ g.sendbuff r

/-- Before step `i`, rank `r` holds the segments `s` congruent to `r` modulo
`nRanks / 2 ^ i`. -/
def knownBefore (n i r s : Nat) : Prop :=
  s % (n / 2 ^ i) = r % (n / 2 ^ i)

/-! ## The value `impl` returns -/

/-- The value of the variable `res` after the events `tr` when it held `r0` before them: the
result of the last checked call (every `NCCLCHECKGOTO` assigns `res`). -/
def lastResult (r0 : ncclResult_t) : List Event → ncclResult_t
  | [] => r0
  | Event.call _ r :: tr => lastResult r tr
  | Event.note _ :: tr => lastResult r0 tr

/-- A mapper that reports both registrations as locally created and whose `waitNotify`
fails with code 5; every other call succeeds. -/
def leakMapper : CtranMapper :=
  { result := fun _ c =>
      match c with
      | Call.waitNotify _ => 5
      | _ => ncclSuccess
    sendHdl := 11
    localRegSend := true
    recvHdl := 22
    localRegRecv := true
    remoteRecvBuffs := fun i => 5000 + 1000 * i
    remoteAccessKeys := fun i => 70 + i }

/-! ## The collective entry point `ctranAllGatherRd` (lines 151-207) -/

/-- Number of values of a `uintptr_t`. -/
def UINTPTR_MOD : Nat := 2 ^ 64

/-- Modelled from the spec: the kinds of operation descriptor of section 3; the enumeration
`OpElem::opType` is declared in a header outside the sources. -/
inductive opType where
  | ALLGATHER
  | ALLREDUCE
  | ALLTOALL
  | SEND
  | RECV
  deriving DecidableEq, Repr

/-- An operation descriptor as built at lines 183-188: the kind given to the constructor
and the all-gather fields. -/
structure OpDesc where
  type : opType
  op : OpElem
  deriving DecidableEq, Repr

/-- The kernel configuration built at lines 191-198: the kernel type, the stream, and the
arguments stored by `ctranKernelSetAllGatherArgs`. -/
structure KernelConfig where
  type : opType
  stream : Nat
  sendbuff : Nat
  recvbuff : Nat
  nbytes : Nat
  devState_d : Nat
  deriving DecidableEq, Repr

/-- The calls `ctranAllGatherRd` makes on the mapper and on the engine. -/
inductive EntryCall where
  /-- `mapper->icopy(dst, src, len, stream, &req)` -/
  | icopy (dst src len stream : Nat)
  /-- `gpe->submit(opGroup, impl, config, ncclKernelAllGatherCtranRecDbl)` -/
  | submit (opGroup : List OpDesc) (config : KernelConfig)
  deriving DecidableEq, Repr

/-- What the mapper and the engine return to one call of `ctranAllGatherRd`. -/
structure EntryEnv where
  /-- result of `mapper->icopy` -/
  icopyResult : ncclResult_t
  /-- result of `gpe->submit` -/
  submitResult : ncclResult_t
  /-- `comm->ctran->algo->devState_d` -/
  devState_d : Nat

/-- Lines 172-173: `(uintptr_t)recvbuff + comm->rank * sendcount * ncclTypeSize(datatype)`. -/
def ownSegment (x : Externs) (recvbuff sendcount datatype : Nat) (comm : ncclComm) : Nat :=
  (recvbuff + sizeMul (sizeMul comm.rank sendcount) (x.ncclTypeSize datatype)) % UINTPTR_MOD

/-- Lines 168-206 of `ctranAllGatherRd`: the value returned and the calls made, in order.
The result of `icopy` is not looked at (line 175); the result of `submit` goes through
`NCCLCHECK`, which applies the same test as `NCCLCHECKGOTO`. -/
def ctranAllGatherRd (x : Externs) (env : EntryEnv) (sendbuff recvbuff sendcount datatype : Nat)
    (comm : ncclComm) (stream : Nat) : ncclResult_t × List EntryCall :=
  -- lines 171-181
  let copies :=
    if ownSegment x recvbuff sendcount datatype comm ≠ sendbuff then
      [EntryCall.icopy (ownSegment x recvbuff sendcount datatype comm) sendbuff
        (sizeMul sendcount (x.ncclTypeSize datatype)) stream]
    else []
  -- lines 183-189
  let op : OpDesc :=
    { type := opType.ALLGATHER
      op := { sendbuff := sendbuff, recvbuff := recvbuff, sendcount := sendcount,
              datatype := datatype, comm := comm } }
  -- lines 191-198
  let config : KernelConfig :=
    { type := opType.ALLGATHER, stream := stream, sendbuff := sendbuff, recvbuff := recvbuff,
      nbytes := sizeMul sendcount (x.ncclTypeSize datatype), devState_d := env.devState_d }
  -- lines 200-206
  let calls := copies ++ [EntryCall.submit [op] config]
  if x.checkFails env.submitResult then (env.submitResult, calls) else (ncclSuccess, calls)

/-- The `icopy` calls among the calls of the entry point. -/
def copiesOf (l : List EntryCall) : List EntryCall :=
  l.filter fun c =>
    match c with
    | EntryCall.icopy _ _ _ _ => true
    | _ => false

/-- The operation groups submitted among the calls of the entry point. -/
def submittedOf (l : List EntryCall) : List (List OpDesc) :=
  l.filterMap fun c =>
    match c with
    | EntryCall.submit g _ => some g
    | _ => none

/-- Every call of the entry point succeeds. -/
def entryOk : EntryEnv :=
  { icopyResult := ncclSuccess, submitResult := ncclSuccess, devState_d := 0 }

/-- The local copy fails with code 5, the submission succeeds. -/
def entryCopyFails : EntryEnv :=
  { icopyResult := 5, submitResult := ncclSuccess, devState_d := 0 }

/-- The local copy succeeds, the submission fails with code 7. -/
def entrySubmitFails : EntryEnv :=
  { icopyResult := ncclSuccess, submitResult := 7, devState_d := 0 }

/-! ## The number of steps -/

/-- Modelled from the spec: `log2i` is defined in a header that is not part of the sources;
section 4.3 gives the number of steps as `nSteps = ceil(log2(peerCount))`. -/
def log2iSpec (n : Nat) : Nat := Nat.clog 2 n

/-- The external declarations with `log2i` as the spec describes it. -/
def specExterns : Externs :=
  { log2i := log2iSpec
    ncclTypeSize := fun _ => 4
    NCCL_CTRAN_AG_RD_RTR := true
    checkFails := fun r => r != ncclSuccess }

/-- The call is a `waitNotify`. -/
def Call.isWaitNotify : Call → Bool
  | Call.waitNotify _ => true
  | _ => false

/-- The number of exchange steps a run completed: one `waitNotify` ends each step
(line 130). -/
def stepsPerformed (tr : List Event) : Nat :=
  (callsOf tr).countP Call.isWaitNotify

/-- Whether the divisions of the loop of lines 46-50 have a meaning: `impl` runs that loop
before any call, and line 48 divides `rank` by `dists[i]` for every `i < nSteps`. -/
def partnersDefined (x : Externs) (op : OpElem) : Bool :=
  (List.range (nSteps x op)).all fun i => decide (dists op.comm.nRanks i ≠ 0)

/-- The claim "the number of exchange steps `impl` performs is
`nSteps = ceil(log2(nRanks))`", for one operation: `nSteps` is that number, the loop that
computes the partners has a meaning, and a run in which no primitive fails completes that
many steps. -/
def StepsAreCeilLog2 (x : Externs) (m : CtranMapper) (op : OpElem) : Prop :=
  nSteps x op = Nat.clog 2 op.comm.nRanks ∧ partnersDefined x op = true ∧
    (NoFailure x m → stepsPerformed (impl x m op).2 = Nat.clog 2 op.comm.nRanks)

/-- Rank 2 of a group of 3, sending 2 elements. -/
def threeOp : OpElem :=
  { sendbuff := 100, recvbuff := 1000, sendcount := 2, datatype := 0,
    comm := { rank := 2, nRanks := 3 } }

/-! ## The control calls of a run -/

/-- The `irecvCtrl` call of a script instruction, if it is one. -/
def Instr.irecv? : Instr → Option Call
  | Instr.checked (Call.irecvCtrl i p) => some (Call.irecvCtrl i p)
  | _ => none

/-- The `isendCtrl` call of a script instruction, if it is one. -/
def Instr.isend? : Instr → Option Call
  | Instr.checked (Call.isendCtrl b h p i) => some (Call.isendCtrl b h p i)
  | _ => none

/-- The `irecvCtrl` calls of a run, in issue order. -/
def irecvCtrlsOf (tr : List Event) : List Call :=
  tr.filterMap fun e => e.instr.irecv?

/-- The `isendCtrl` calls of a run, in issue order. -/
def isendCtrlsOf (tr : List Event) : List Call :=
  tr.filterMap fun e => e.instr.isend?

/-- The event is the control send of step `i`. -/
def Event.isSendCtrlOf (i : Nat) (e : Event) : Prop :=
  ∃ b h p r, e = Event.call (Call.isendCtrl b h p i) r

/-- The external declarations with the configuration variable set to `b`. -/
def Externs.withRTR (x : Externs) (b : Bool) : Externs :=
  { x with NCCL_CTRAN_AG_RD_RTR := b }

/-! ## The execution engine (`src/ctran/gpe/CtranGpe.cc`) -/

/-- Modelled from the spec: the kinds of command of the engine's queue
(`CtranGpeCmd::TypeEnum`, declared outside the sources): a unit of work, or the termination
signal of section 4.2. -/
inductive CmdType where
  | GRAPH_ENQUEUE
  | TERMINATE
  deriving DecidableEq, Repr

/-- A queued command.  `unit` names the submitted unit of work (operation batch, host
orchestration function, kernel configuration and kernel reference). -/
structure CtranGpeCmd where
  type : CmdType
  unit : Nat
  deriving DecidableEq, Repr

/-- The queue command of a unit of work. -/
def unitCmd (u : Nat) : CtranGpeCmd :=
  { type := CmdType.GRAPH_ENQUEUE, unit := u }

/-- The termination signal. -/
def terminateCmd : CtranGpeCmd :=
  { type := CmdType.TERMINATE, unit := 0 }

/-- Modelled from the spec: the state of `CtranGpe::Impl` (not part of the sources) as
section 4.2 describes it: a strictly ordered queue drained by one worker.  `accepted` and
`ran` record the units `submit` accepted and the units whose host orchestration function
the worker ran, both in order. -/
structure GpeState where
  queue : List CtranGpeCmd
  terminating : Bool
  stopped : Bool
  accepted : List Nat
  ran : List Nat
  deriving DecidableEq, Repr

/-- Modelled from the spec: the result `EngineShutdown` of section 7, as a code. -/
def ncclEngineShutdown : ncclResult_t := 9

/-- Modelled from the spec: `CtranGpe::Impl::submit` (not part of the sources).  By section
4.2 it enqueues one unit at the back of the queue and returns once the unit is accepted; it
fails with `EngineShutdown` if the worker has been asked to terminate. -/
def GpeState.implSubmit (s : GpeState) (type : CmdType) (unit : Nat) :
    ncclResult_t × GpeState :=
  if s.terminating then (ncclEngineShutdown, s)
  else (ncclSuccess,
    { s with queue := s.queue ++ [{ type := type, unit := unit }],
             accepted := s.accepted ++ [unit] })

/-- Lines 27-38: `CtranGpe::submit` forwards to the implementation with the command type
`GRAPH_ENQUEUE`. -/
def GpeState.submit (s : GpeState) (unit : Nat) : ncclResult_t × GpeState :=
  s.implSubmit CmdType.GRAPH_ENQUEUE unit

/-- Modelled from the spec: `CtranGpe::Impl::terminate` (called by the destructor, line 23):
the termination signal is enqueued. -/
def GpeState.terminate (s : GpeState) : GpeState :=
  { s with queue := s.queue ++ [terminateCmd],
           terminating := true }

/-- Modelled from the spec: one iteration of the worker (`gpeThreadFn`): it takes the
command at the front of the queue; for a unit of work it launches the kernel and runs the
host orchestration function; on the termination signal it stops. -/
def GpeState.workerStep (s : GpeState) : GpeState :=
  if s.stopped then s
  else
    match s.queue with
    | [] => s
    | cmd :: rest =>
      match cmd.type with
      | CmdType.GRAPH_ENQUEUE => { s with queue := rest, ran := s.ran ++ [cmd.unit] }
      | CmdType.TERMINATE => { s with queue := rest, stopped := true }

/-- One atomic step of the engine: a `submit` by some caller thread, an iteration of the
worker, or the termination request. -/
inductive GpeAction where
  | submit (thread : Nat) (unit : Nat)
  | worker
  | terminate
  deriving DecidableEq, Repr

/-- Effect of one step. -/
def GpeState.act (s : GpeState) : GpeAction → GpeState
  | GpeAction.submit _ u => (s.submit u).2
  | GpeAction.worker => s.workerStep
  | GpeAction.terminate => s.terminate

/-- Effect of an interleaving of steps. -/
def GpeState.run (s : GpeState) (acts : List GpeAction) : GpeState :=
  acts.foldl GpeState.act s

/-- The engine as constructed (lines 16-20): empty queue, worker running. -/
def GpeState.init : GpeState :=
  { queue := [], terminating := false, stopped := false, accepted := [], ran := [] }

/-- The units of work among the commands `q`, in order. -/
def pendingOf (q : List CtranGpeCmd) : List Nat :=
  (q.filter fun c => c.type = CmdType.GRAPH_ENQUEUE).map fun c => c.unit

/-- The units of work waiting in the queue, in order. -/
def GpeState.pending (s : GpeState) : List Nat :=
  pendingOf s.queue

/-- What holds of every reachable state of the engine: the units run followed by the units
waiting are the units accepted; a stopped worker leaves no unit waiting; units wait in front
of termination signals; a termination signal is only present once termination was
requested. -/
def GpeState.Sound (s : GpeState) : Prop :=
  s.ran ++ s.pending = s.accepted ∧
  (s.stopped = true → s.pending = [] ∧ s.terminating = true) ∧
  (∃ k, s.queue = s.pending.map unitCmd ++ List.replicate k terminateCmd ∧
    (s.terminating = false → k = 0))

/-! ## `ncclAllToAll` and its test (`src/tests/AllToAllTest.cc`) -/

/-- Modelled from the spec: the code of the result `InvalidArgument` of section 7
(`ncclInvalidArgument` in the test). -/
def ncclInvalidArgument : ncclResult_t := 4

/-- Modelled from the spec: the datatype the test passes (`ncclInt`), as a code. -/
def ncclInt : Nat := 2

/-- Device memories of the ranks, in units of one element: `mem g a` is the element at
address `a` of rank `g`. -/
abbrev ElemMem := Nat → Nat → Int

/-- Modelled from the spec: the argument validation of `ncclAllToAll` (the function is not
part of the sources, only its test is).  By section 7 a malformed operation descriptor, such
as a null buffer, gives `InvalidArgument`; the tests `InvalidSendbuf`, `InvalidRecvbuf` and
`InvalidInPlace` demand that result for a null send buffer, a null receive buffer and for
equal buffers. -/
def allToAllArgCheck (sendbuff recvbuff : Nat) : ncclResult_t :=
  if sendbuff = 0 ∨ recvbuff = 0 ∨ sendbuff = recvbuff then ncclInvalidArgument
  else ncclSuccess

/-- Modelled from the spec: the data movement of an all-to-all among `n` ranks with `count`
elements per peer, as the test `AllToAllTest::run` checks it: chunk `r` of the receive
buffer of rank `g` receives chunk `g` of the send buffer of rank `r`; nothing else
changes. -/
def allToAllExchange (n count : Nat) (sendbuff recvbuff : Nat → Nat) (mem : ElemMem) :
    ElemMem := fun g a =>
  if recvbuff g ≤ a ∧ a < recvbuff g + n * count then
    mem ((a - recvbuff g) / count)
      (sendbuff ((a - recvbuff g) / count) + g * count + (a - recvbuff g) % count)
  else mem g a

/-- Modelled from the spec: one call of `ncclAllToAll(sendbuff, recvbuff, count, datatype,
comm, stream)` by every rank `g < n` of the communicator, rank `g` passing `sendbuff g` and
`recvbuff g`; `ctran` tells whether `NCCL_ALLTOALL_ALGO=ctran` is selected.  Every rank gets
the result of the argument validation; the data moves when all ranks passed it. -/
def ncclAllToAll (n : Nat) (sendbuff recvbuff : Nat → Nat) (count datatype : Nat)
    (ctran : Bool) (mem : ElemMem) : (Nat → ncclResult_t) × ElemMem :=
  (fun g => allToAllArgCheck (sendbuff g) (recvbuff g),
   if (List.range n).all fun g => allToAllArgCheck (sendbuff g) (recvbuff g) = ncclSuccess
   then allToAllExchange n count sendbuff recvbuff mem
   else mem)

/-- The memory after `k` successive calls on the same buffers. -/
def allToAllRepeat (n : Nat) (sendbuff recvbuff : Nat → Nat) (count datatype : Nat)
    (ctran : Bool) : Nat → ElemMem → ElemMem
  | 0, mem => mem
  | k + 1, mem =>
    allToAllRepeat n sendbuff recvbuff count datatype ctran k
      (ncclAllToAll n sendbuff recvbuff count datatype ctran mem).2

/-- Lines 45-50: `assignChunkValue(buf, count, val)` on the memory of one rank. -/
def assignChunkValue (m : Nat → Int) (buf count : Nat) (val : Int) : Nat → Int := fun a =>
  if buf ≤ a ∧ a < buf + count then val else m a

/-- Lines 52-73: `checkChunkValue(buf, count, val)`, the number of elements that differ
from `val`. -/
def checkChunkValue (m : Nat → Int) (buf count : Nat) (val : Int) : Nat :=
  ((List.range count).filter fun i => m (buf + i) ≠ val).length

/-- Lines 86-90 on rank `g`: chunk `r` of the send buffer is filled with
`g * 100 + r + 1`, chunk `r` of the receive buffer with `-1`. -/
def fillBuffers (n count g sendBuf recvBuf : Nat) (m : Nat → Int) : Nat → Int :=
  (List.range n).foldl
    (fun m1 r =>
      assignChunkValue
        (assignChunkValue m1 (sendBuf + r * count) count ((g : Int) * 100 + r + 1))
        (recvBuf + r * count) count (-1))
    m

/-- Lines 108-114 on rank `g`: every chunk `r` of the receive buffer is checked against
`r * 100 + g + 1`; the value tells whether all checks found no error. -/
def checkBuffers (n count g recvBuf : Nat) (m : Nat → Int) : Bool :=
  (List.range n).all fun r =>
    checkChunkValue m (recvBuf + r * count) count ((r : Int) * 100 + g + 1) == 0

/-- The test `AllToAllTest::run` (lines 75-126) on all `n` ranks: every rank fills its
buffers, the five calls of lines 102-105 are made, and rank `g` checks its receive buffer.
The value tells whether rank `g` saw `ncclSuccess` (line 104) and no error (line 111). -/
def allToAllTestRun (n count : Nat) (ctran : Bool) (sendBuf recvBuf : Nat → Nat)
    (mem : ElemMem) (g : Nat) : Bool :=
  let filled : ElemMem := fun g1 => fillBuffers n count g1 (sendBuf g1) (recvBuf g1) (mem g1)
  let final := allToAllRepeat n sendBuf recvBuf count ncclInt ctran 5 filled
  ((ncclAllToAll n sendBuf recvBuf count ncclInt ctran filled).1 g == ncclSuccess) &&
    checkBuffers n count g (recvBuf g) (final g)

/-! ## A group of one rank -/

/-- The only rank of a group of 1, sending 2 elements. -/
def soloOp : OpElem :=
  { sendbuff := 100, recvbuff := 1000, sendcount := 2, datatype := 0,
    comm := { rank := 0, nRanks := 1 } }

/-! ## Configuration files (`src/misc/param.cc`, `setEnvFile`) -/

/-- The process environment: the value of each variable that is set.  Names and values
are byte strings (`'\0'` is 0, `'\n'` is 10, `'='` is 61). -/
abbrev Environ := List Nat → Option (List Nat)

/-- Largest value of an `int`. -/
def INT_MAX : Nat := 2 ^ 31 - 1

/-- The C string held at the start of a byte sequence: the bytes before the first NUL. -/
def cstr (buf : List Nat) : List Nat := buf.takeWhile (fun b => b ≠ 0)

/-- `setenv(name, value, overwrite)` of the C library: an empty name or a name with `'='`
is refused; a variable that is set is kept unless `overwrite`; otherwise the variable is
set.  `setEnvFile` ignores the result code. -/
def setenv (name value : List Nat) (overwrite : Bool) (env : Environ) : Environ :=
  if name = [] ∨ 61 ∈ name then env
  else if (env name).isSome ∧ overwrite = false then env
  else fun n => if n = name then some value else env n

/-- `strncpy(dst, src, n)` of the C library, for `n` within `dst`: the first `n` bytes of
`dst` become the C string at `src`, cut at `n` bytes and padded with NUL. -/
def strncpy (dst src : List Nat) (n : Nat) : List Nat :=
  (cstr src).take n ++ List.replicate (n - ((cstr src).take n).length) 0 ++ dst.drop n

/-- The lines that successive calls of `getline` return for a file content (line 36): each
ends with its newline, except a last line that has none. -/
def fileLines : List Nat → List (List Nat)
  | [] => []
  | b :: rest =>
    if b = 10 then [10] :: fileLines rest
    else
      match fileLines rest with
      | [] => [[b]]
      | l :: ls => (b :: l) :: ls

/-- Line 37: `if (line[read-1] == '\n') line[read-1] = '\0'`; the result lists the bytes
of the line buffer before the NUL that now ends it. -/
def chomp (line : List Nat) : List Nat :=
  if line.getLast? = some 10 then line.dropLast else line

/-- Lines 38-39: `int s = 0; while (line[s] != '\0' && line[s] != '=') s++;`, on the bytes
of the line buffer (a NUL follows them). -/
def scanName : List Nat → Nat
  | [] => 0
  | b :: rest => if b ≠ 0 ∧ b ≠ 61 then scanName rest + 1 else 0

/-- The two arrays of `setEnvFile` (lines 32-33) and the environment. -/
structure EnvFileState where
  envVar : List Nat
  envValue : List Nat
  env : Environ

/-- One iteration of the loop of `setEnvFile` (lines 37-46) on the line `getline`
returned.  The result is `none` where C gives the iteration no meaning: `s` passes
`INT_MAX`, or `envVar[s]` lies outside the 1024 bytes of `envVar`. -/
def setEnvLine (rawLine : List Nat) (st : EnvFileState) : Option EnvFileState :=
  let line := chomp rawLine
  let s := scanName line
  if INT_MAX < s then none
  else if line.getD s 0 = 0 then some st
  else
    let envVar := strncpy st.envVar line (min 1023 s)
    if 1024 ≤ s then none
    else
      let envVar := envVar.set s 0
      let s := s + 1
      let envValue := (strncpy st.envValue (line.drop s) 1023).set 1023 0
      some { envVar := envVar
             envValue := envValue
             env := setenv (cstr envVar) (cstr envValue) false st.env }

/-- The loop of `setEnvFile` over the lines of the file (lines 36-48). -/
def setEnvLines : List (List Nat) → EnvFileState → Option EnvFileState
  | [], st => some st
  | l :: ls, st => (setEnvLine l st).bind (setEnvLines ls)

/-- `setEnvFile` (lines 27-51).  `file` is the content `fopen` gives access to, `none`
when it fails; `junk` is what the two arrays hold before they are written. -/
def setEnvFile (junk : Nat → Nat) (file : Option (List Nat)) (env : Environ) :
    Option Environ :=
  match file with
  | none => some env
  | some content =>
    (setEnvLines (fileLines content)
      { envVar := (List.range 1024).map junk
        envValue := (List.range 1024).map (fun i => junk (1024 + i))
        env := env }).map EnvFileState.env

/-- Line 42: the index `s` of the write `envVar[s] = '\0'`, for a line that reaches it. -/
def nameEnd (rawLine : List Nat) : Option Nat :=
  if (chomp rawLine).getD (scanName (chomp rawLine)) 0 = 0 then none
  else some (scanName (chomp rawLine))

/-- The text of a line before its first `'='`. -/
def lineName (l : List Nat) : List Nat := l.takeWhile (fun b => b ≠ 61)

/-- Whether a line contains `'='` and its text before the first `'='` is `N`. -/
def definesName (N l : List Nat) : Bool := decide (61 ∈ l ∧ lineName l = N)

/-- The text of a line after its first `'='`, one trailing newline removed, cut at 1023
bytes. -/
def lineValue (l : List Nat) : List Nat :=
  ((chomp l).drop ((lineName l).length + 1)).take 1023

/-- The text of a line after its first `'='` up to the first NUL byte, one trailing
newline removed, cut at 1023 bytes. -/
def lineValueC (l : List Nat) : List Nat :=
  (cstr ((chomp l).drop ((lineName l).length + 1))).take 1023

/-- A line on which the loop body has a meaning: `s` stays an `int`, and a line whose scan
stops at `'='` has at most 1023 bytes before it. -/
def LineOk (l : List Nat) : Prop :=
  scanName (chomp l) ≤ INT_MAX ∧
    ((chomp l).getD (scanName (chomp l)) 0 ≠ 0 → scanName (chomp l) ≤ 1023)

/-- The claim "never overrides an existing setting and takes the first definition", for
one file content and initial environment: `setEnvFile` ends; every variable set before
keeps its value; every non-empty name of at most 1023 bytes that was not set is bound to
the text after the first `'='` of the first line that has the name before its first
`'='`; a line of the file without `'='` changes nothing. -/
def FirstDefinitionWins (junk : Nat → Nat) (content : List Nat) (env : Environ) : Prop :=
  ∃ env1, setEnvFile junk (some content) env = some env1 ∧
    (∀ N v, env N = some v → env1 N = some v) ∧
    (∀ N l, N ≠ [] → N.length ≤ 1023 → env N = none →
      (fileLines content).find? (definesName N) = some l → env1 N = some (lineValue l)) ∧
    (∀ l st, l ∈ fileLines content → 61 ∉ l → setEnvLine l st = some st)

/-- An environment with no variable set. -/
def noEnv : Environ := fun _ => none

/-- Arrays that hold zeros before they are written. -/
def zeroJunk : Nat → Nat := fun _ => 0

/-- The file `N=a\0b\n`. -/
def nulFile : List Nat := [78, 61, 97, 0, 98, 10]

/-- The file `A=1\nB=x=y\nA=2\n`. -/
def demoFile : List Nat := [65, 61, 49, 10, 66, 61, 120, 61, 121, 10, 65, 61, 50, 10]

/-- A line of 1024 bytes `A` followed by `=1\n`. -/
def longNameLine : List Nat := List.replicate 1024 65 ++ [61, 49] ++ [10]

/-- What the loop body hands to `setenv` for a line (lines 41-46): the bytes before the
`'='` its scan stops at, and the C string after it cut at 1023 bytes; `none` for a line
it skips (line 40). -/
def lineSetting (rawLine : List Nat) : Option (List Nat × List Nat) :=
  if (chomp rawLine).getD (scanName (chomp rawLine)) 0 = 0 then none
  else some ((chomp rawLine).take (scanName (chomp rawLine)),
    (cstr ((chomp rawLine).drop (scanName (chomp rawLine) + 1))).take 1023)

/-! ## Parameters (`src/misc/param.cc`, `initEnv`, `ncclLoadParam`, `ncclGetEnv`) -/

/-- What `param.cc` takes from outside the file. -/
structure Host where
  /-- `userHomeDir()`: the home directory, `none` for `NULL` -/
  userHomeDir : Option (List Nat)
  /-- `fopen(fileName, "r")`: the content of the file of that name, `none` when it fails -/
  fopen : List Nat → Option (List Nat)
  /-- what the arrays of `setEnvFile` hold before they are written -/
  junk : Nat → Nat
  /-- `ncclLoadTunerPlugin` with the plugin's `init` and `destroy` (lines 77-84), as far as
  they change the environment -/
  tunerPlugin : Environ → Environ
  /-- `ncclCvarInit` (line 90), as far as it changes the environment -/
  ncclCvarInit : Environ → Environ
  /-- `strtoll(str, nullptr, 0)` called with `errno = 0`: the value, and `errno` after -/
  strtoll : List Nat → Int × Nat

/-- The state of the process that `param.cc` reads and writes. -/
structure ProcState where
  env : Environ
  /-- the static flag of `initEnv` (line 55) -/
  isInitialized : Bool
  /-- whether the `pthread_once` of `ncclGetEnv` (lines 118-119) has run -/
  once : Bool
  ncclDebugLevel : Int

/-- The bytes of `"/.nccl.conf"`. -/
def homeConf : List Nat := "/.nccl.conf".toList.map Char.toNat

/-- The bytes of `"/etc/nccl.conf"`. -/
def etcConf : List Nat := "/etc/nccl.conf".toList.map Char.toNat

/-- `initEnv` (lines 57-94), one thread at a time.  The result is `none` where C gives the
run no meaning: the home directory does not fit `confFilePath` with `"/.nccl.conf"` and
the final NUL, or a run of `setEnvFile` has none. -/
def initEnv (h : Host) (st : ProcState) : Option ProcState :=
  if st.isInitialized = true then some st
  else do
    let env1 ←
      match h.userHomeDir with
      | some userDir =>
        if 1024 < userDir.length + homeConf.length + 1 then none
        else setEnvFile h.junk (h.fopen (userDir ++ homeConf)) st.env
      | none => some st.env
    let env2 ← setEnvFile h.junk (h.fopen etcConf) env1
    let env3 := h.tunerPlugin env2
    some { env := h.ncclCvarInit env3, isInitialized := true, once := st.once,
           ncclDebugLevel := -1 }

/-- `ncclGetEnv` (lines 117-121): `initEnv` on the first call, then `getenv(name)`. -/
def ncclGetEnv (h : Host) (name : List Nat) (st : ProcState) :
    Option (Option (List Nat) × ProcState) :=
  if st.once = true then some (st.env name, st)
  else
    (initEnv h st).map fun st1 =>
      (st1.env name, { env := st1.env, isInitialized := st1.isInitialized, once := true,
                       ncclDebugLevel := st1.ncclDebugLevel })

/-- `strlen` of the C library. -/
def strlen (s : List Nat) : Nat := (cstr s).length

/-- Lines 100-111 of `ncclLoadParam`: the value for the string `ncclGetEnv` returned
(`none` for `NULL`). -/
def paramValue (h : Host) (deftVal : Int) : Option (List Nat) → Int
  | some str =>
    if 0 < strlen str then
      if (h.strtoll str).2 ≠ 0 then deftVal else (h.strtoll str).1
    else deftVal
  | none => deftVal

/-- `ncclLoadParam` (lines 96-115), one thread at a time: the value left in `*cache`, and
the state of the process. -/
def ncclLoadParam (h : Host) (env : List Nat) (deftVal uninitialized cache : Int)
    (st : ProcState) : Option (Int × ProcState) :=
  if cache = uninitialized then
    (ncclGetEnv h env st).map fun r => (paramValue h deftVal r.1, r.2)
  else some (cache, st)

/-- A stand-in for `strtoll`, right on strings of decimal digits without sign and without
a leading 0 only: the number, or `LLONG_MAX` with `errno = ERANGE` (34) when it does not
fit. -/
def demoStrtoll (s : List Nat) : Int × Nat :=
  let v : Nat := (s.takeWhile (fun b => decide (48 ≤ b ∧ b ≤ 57))).foldl
    (fun acc b => 10 * acc + (b - 48)) 0
  if v ≤ 2 ^ 63 - 1 then (Int.ofNat v, 0) else (2 ^ 63 - 1, 34)

/-- A host with no home directory, `demoFile` as `/etc/nccl.conf`, and a tuner plugin and
`ncclCvarInit` that leave the environment alone. -/
def demoHost : Host :=
  { userHomeDir := none
    fopen := fun name => if name = etcConf then some demoFile else none
    junk := zeroJunk
    tunerPlugin := fun e => e
    ncclCvarInit := fun e => e
    strtoll := demoStrtoll }

/-- A process past its first `ncclGetEnv`, with the variable `P` set to `42`. -/
def readyState : ProcState :=
  { env := fun n => if n = [80] then some [52, 50] else none
    isInitialized := true
    once := true
    ncclDebugLevel := -1 }

/-- A process that has not called `ncclGetEnv` yet, with no variable set. -/
def freshState : ProcState :=
  { env := noEnv, isInitialized := false, once := false, ncclDebugLevel := 0 }

/-! # Theorems -/

/-! ## The control monad -/

theorem ImplM.pure_apply {α : Type} (a : α) (s : ImplState) :
    (pure a : ImplM α) s = (some a, s) := rfl

theorem ImplM.bind_apply {α β : Type} (mm : ImplM α) (f : α → ImplM β) (s : ImplState) :
    (mm >>= f) s = match mm s with
      | (some a, s1) => f a s1
      | (none, s1) => (none, s1) := rfl

theorem ImplM.pure_bind {α β : Type} (a : α) (f : α → ImplM β) :
    (pure a >>= f) = f a := rfl

theorem ImplM.bind_pure_unit (mm : ImplM Unit) :
    (mm >>= fun _ => (pure () : ImplM Unit)) = mm := by
  funext s
  rw [ImplM.bind_apply]
  rcases h : mm s with ⟨o, s1⟩
  cases o <;> rfl

theorem ImplM.bind_assoc {α β γ : Type} (mm : ImplM α) (f : α → ImplM β) (g : β → ImplM γ) :
    (mm >>= f >>= g) = (mm >>= fun a => f a >>= g) := by
  funext s
  simp only [ImplM.bind_apply]
  rcases h : mm s with ⟨o, s1⟩
  cases o <;> rfl

/-! ## `impl` is its unrolled script -/

theorem exec_nil (x : Externs) (m : CtranMapper) : exec x m [] = pure () := rfl

theorem exec_cons (x : Externs) (m : CtranMapper) (a : Instr) (as : List Instr) :
    exec x m (a :: as) = (step x m a >>= fun _ => exec x m as) := rfl

theorem exec_append (x : Externs) (m : CtranMapper) (as bs : List Instr) :
    exec x m (as ++ bs) = (exec x m as >>= fun _ => exec x m bs) := by
  induction as with
  | nil => rfl
  | cons a as ih =>
    rw [List.cons_append, exec_cons, exec_cons, ih, ImplM.bind_assoc]

theorem exec_singleton_checked (x : Externs) (m : CtranMapper) (c : Call) :
    exec x m [Instr.checked c] = NCCLCHECKGOTO x m c := by
  rw [exec_cons, exec_nil]
  exact ImplM.bind_pure_unit _

theorem exec_singleton_note (x : Externs) (m : CtranMapper) (n : Note) :
    exec x m [Instr.note n] = emit n := by
  rw [exec_cons, exec_nil]
  exact ImplM.bind_pure_unit _

theorem forLoopFrom_exec (x : Externs) (m : CtranMapper) (body : Nat → ImplM Unit)
    (f : Nat → List Instr) (h : ∀ i, body i = exec x m (f i)) (start n : Nat) :
    forLoopFrom body start n = exec x m ((List.range' start n).flatMap f) := by
  induction n generalizing start with
  | zero => rfl
  | succ n ih =>
    rw [forLoopFrom, List.range'_succ, List.flatMap_cons, exec_append, ← h, ih]

theorem forLoop_exec (x : Externs) (m : CtranMapper) (body : Nat → ImplM Unit)
    (f : Nat → List Instr) (h : ∀ i, body i = exec x m (f i)) (n : Nat) :
    forLoop n body = exec x m ((List.range n).flatMap f) := by
  rw [forLoop, forLoopFrom_exec x m body f h, List.range_eq_range']

theorem implBody_eq_exec (x : Externs) (m : CtranMapper) (op : OpElem) :
    implBody x m op = exec x m (implScript x m op) := by
  have hput : ∀ i j : Nat,
      (do
        NCCLCHECKGOTO x m (Call.iput (putArgs x m op i j))
        if j = 0 then emit (Note.putIssued (peers op.comm.rank op.comm.nRanks i))
        else pure PUnit.unit : ImplM Unit) =
      exec x m (Instr.checked (Call.iput (putArgs x m op i j)) ::
        (if j = 0 then [Instr.note (Note.putIssued (peers op.comm.rank op.comm.nRanks i))]
         else [])) := by
    intro i j
    by_cases hj : j = 0 <;>
      simp only [hj, if_true, if_false, exec_cons, exec_nil, step, ImplM.bind_pure_unit]
  have hctrl : ∀ i : Nat,
      (do
        NCCLCHECKGOTO x m (Call.irecvCtrl i (peers op.comm.rank op.comm.nRanks i))
        if (!x.NCCL_CTRAN_AG_RD_RTR) = true then
          NCCLCHECKGOTO x m
            (Call.isendCtrl op.recvbuff m.recvHdl (peers op.comm.rank op.comm.nRanks i) i)
        else pure PUnit.unit : ImplM Unit) = exec x m (ctrlScript x m op i) := by
    intro i
    unfold ctrlScript
    cases x.NCCL_CTRAN_AG_RD_RTR <;>
      simp only [Bool.not_true, Bool.not_false, if_true, if_false, exec_cons, exec_nil, step,
        Bool.false_eq_true, ImplM.bind_pure_unit]
  have hloop : ∀ i : Nat,
      (forLoop (1 <<< i) fun j => do
        NCCLCHECKGOTO x m (Call.iput (putArgs x m op i j))
        if j = 0 then emit (Note.putIssued (peers op.comm.rank op.comm.nRanks i))
        else pure PUnit.unit : ImplM Unit) = exec x m (putScript x m op i) := by
    intro i
    rw [forLoop_exec x m _ _ (hput i)]
    rfl
  have hwait : ∀ i : Nat, NCCLCHECKGOTO x m (Call.wait (Req.isendReq i)) =
      exec x m [Instr.checked (Call.wait (Req.isendReq i))] := by
    intro i
    rw [exec_singleton_checked]
  unfold implBody implScript tailScript
  simp only []
  rw [forLoop_exec x m _ (ctrlScript x m op) hctrl, forLoop_exec x m _ _ hwait]
  have hstep : ∀ i : Nat,
      (do
        let peer := peers op.comm.rank op.comm.nRanks i
        if x.NCCL_CTRAN_AG_RD_RTR then
          NCCLCHECKGOTO x m (Call.isendCtrl op.recvbuff m.recvHdl peer i)
        NCCLCHECKGOTO x m (Call.wait (Req.irecvReq i))
        emit (Note.recvCtrl peer)
        forLoop (1 <<< i) fun j => do
          NCCLCHECKGOTO x m (Call.iput (putArgs x m op i j))
          if j = 0 then
            emit (Note.putIssued peer)
        NCCLCHECKGOTO x m (Call.wait (Req.iputReq i))
        emit (Note.putComplete peer)
        NCCLCHECKGOTO x m (Call.waitNotify peer) : ImplM Unit) =
      exec x m (stepScript x m op i) := fun i => by
    unfold stepScript
    cases x.NCCL_CTRAN_AG_RD_RTR <;>
      simp only [if_true, if_false, Bool.false_eq_true, exec_append, exec_cons, exec_nil, step,
        ImplM.bind_pure_unit, ImplM.pure_bind, ImplM.bind_assoc, List.nil_append,
        List.cons_append, ← hloop i]
  rw [forLoop_exec x m _ (stepScript x m op) hstep]
  cases m.localRegSend <;> cases m.localRegRecv <;>
    simp only [if_true, if_false, Bool.false_eq_true, exec_append, exec_cons, exec_nil, step,
      ImplM.bind_pure_unit, ImplM.pure_bind, ImplM.bind_assoc, List.nil_append,
      List.cons_append, List.append_nil]

/-! ## Events of a run -/

theorem exec_trace (x : Externs) (m : CtranMapper) (is : List Instr) (s : ImplState) :
    (exec x m is s).2.trace = s.trace ++ runEvents x m is s.trace := by
  induction is generalizing s with
  | nil => simp [exec_nil, ImplM.pure_apply, runEvents]
  | cons a as ih =>
    rw [exec_cons, ImplM.bind_apply]
    cases a with
    | checked c =>
      simp only [step, NCCLCHECKGOTO, runEvents]
      by_cases hf : x.checkFails (m.result s.trace c) = true
      · simp [hf]
      · simp only [hf, if_false, Bool.false_eq_true]
        rw [ih]
        simp
    | note n =>
      simp only [step, emit, runEvents]
      rw [ih]
      simp

theorem impl_trace (x : Externs) (m : CtranMapper) (op : OpElem) :
    (impl x m op).2 = runEvents x m (implScript x m op) [] := by
  simp [impl, implBody_eq_exec, exec_trace]

/-- The events of a run, with results erased, are an initial part of the script. -/
theorem runEvents_instr_initial (x : Externs) (m : CtranMapper) (is : List Instr)
    (h : List Event) : (runEvents x m is h).map Event.instr <+: is := by
  induction is generalizing h with
  | nil => simp [runEvents]
  | cons a as ih =>
    cases a with
    | checked c =>
      simp only [runEvents]
      by_cases hf : x.checkFails (m.result h c) = true
      · simp only [hf, if_true, List.map_cons, List.map_nil, Event.instr]
        exact ⟨as, rfl⟩
      · simp only [hf, if_false, Bool.false_eq_true, List.map_cons, Event.instr]
        exact (List.prefix_cons_inj _).2 (ih _)
    | note n =>
      simp only [runEvents, List.map_cons, Event.instr]
      exact (List.prefix_cons_inj _).2 (ih _)

/-- When no result fails the check, the run executes the whole script. -/
theorem runEvents_success (x : Externs) (m : CtranMapper)
    (hok : ∀ h c, x.checkFails (m.result h c) = false) (is : List Instr)
    (h : List Event) : (runEvents x m is h).map Event.instr = is := by
  induction is generalizing h with
  | nil => simp [runEvents]
  | cons a as ih =>
    cases a with
    | checked c => simp [runEvents, hok, Event.instr, ih]
    | note n => simp [runEvents, Event.instr, ih]

/-- A checked call that is not the last event of a run passed the check. -/
theorem runEvents_passed (x : Externs) (m : CtranMapper) (is : List Instr)
    (h : List Event) (pre post : List Event) (c : Call) (r : ncclResult_t)
    (hsplit : runEvents x m is h = pre ++ post) (hpost : post ≠ [])
    (hmem : Event.call c r ∈ pre) : x.checkFails r = false := by
  induction is generalizing h pre with
  | nil =>
    simp only [runEvents] at hsplit
    have := List.append_eq_nil.1 hsplit.symm
    exact absurd this.2 hpost
  | cons a as ih =>
    cases pre with
    | nil => simp at hmem
    | cons e pre =>
      cases a with
      | checked c1 =>
        simp only [runEvents] at hsplit
        by_cases hf : x.checkFails (m.result h c1) = true
        · simp only [hf, if_true, List.cons_append, List.cons.injEq] at hsplit
          have := List.append_eq_nil.1 hsplit.2.symm
          exact absurd this.2 hpost
        · simp only [hf, if_false, Bool.false_eq_true, List.cons_append, List.cons.injEq]
            at hsplit
          rcases List.mem_cons.1 hmem with he | he
          · rw [← hsplit.1] at he
            cases he
            simpa using hf
          · exact ih _ pre hsplit.2 he
      | note n =>
        simp only [runEvents, List.cons_append, List.cons.injEq] at hsplit
        rcases List.mem_cons.1 hmem with he | he
        · rw [← hsplit.1] at he
          cases he
        · exact ih _ pre hsplit.2 he

theorem impl_instr_initial (x : Externs) (m : CtranMapper) (op : OpElem) :
    (impl x m op).2.map Event.instr <+: implScript x m op := by
  rw [impl_trace]
  exact runEvents_instr_initial x m _ _

theorem impl_instr_success (x : Externs) (m : CtranMapper) (op : OpElem)
    (hok : ∀ h c, x.checkFails (m.result h c) = false) :
    (impl x m op).2.map Event.instr = implScript x m op := by
  rw [impl_trace]
  exact runEvents_success x m hok _ _

theorem impl_passed (x : Externs) (m : CtranMapper) (op : OpElem)
    (pre post : List Event) (c : Call) (r : ncclResult_t)
    (hsplit : (impl x m op).2 = pre ++ post) (hpost : post ≠ [])
    (hmem : Event.call c r ∈ pre) : x.checkFails r = false := by
  rw [impl_trace] at hsplit
  exact runEvents_passed x m _ _ pre post c r hsplit hpost hmem

/-! ## Arithmetic of distances, partners and segment indices -/

theorem testBit_succ_of_even (a t : Nat) (h : a % 2 = 0) :
    (a + 1).testBit t = (a.testBit t ^^ decide (t = 0)) := by
  cases t with
  | zero =>
    have h1 : (a + 1) % 2 = 1 := by omega
    simp [Nat.testBit_zero, h, h1]
  | succ t =>
    rw [Nat.testBit_succ, Nat.testBit_succ]
    have : (a + 1) / 2 = a / 2 := by omega
    simp [this]

theorem xor_two_pow_of_even (r e : Nat) (h : (r / 2 ^ e) % 2 = 0) :
    r ^^^ 2 ^ e = r + 2 ^ e := by
  apply Nat.eq_of_testBit_eq
  intro j
  have hb : r % 2 ^ e < 2 ^ e := Nat.mod_lt _ (by positivity)
  have hr : r = 2 ^ e * (r / 2 ^ e) + r % 2 ^ e := (Nat.div_add_mod r (2 ^ e)).symm
  have hr2 : r + 2 ^ e = 2 ^ e * (r / 2 ^ e + 1) + r % 2 ^ e := by
    rw [Nat.mul_add]; omega
  rw [Nat.testBit_xor, Nat.testBit_two_pow, hr2, Nat.testBit_mul_pow_two_add _ hb]
  conv_lhs => rw [hr, Nat.testBit_mul_pow_two_add _ hb]
  by_cases hj : j < e
  · have : e ≠ j := by omega
    simp [hj, this]
  · simp only [hj, if_false]
    rw [testBit_succ_of_even _ _ h]
    congr 1
    simp only [decide_eq_decide]
    omega

theorem xor_two_pow_of_odd (r e : Nat) (h : (r / 2 ^ e) % 2 ≠ 0) :
    r ^^^ 2 ^ e = r - 2 ^ e := by
  have hge : 2 ^ e ≤ r := by
    by_contra hlt
    rw [Nat.div_eq_of_lt (by omega)] at h
    simp at h
  have hdiv : (r - 2 ^ e) / 2 ^ e = r / 2 ^ e - 1 := by
    have := Nat.sub_mul_div r (2 ^ e) 1 (by simpa using hge)
    simpa using this
  have hev : ((r - 2 ^ e) / 2 ^ e) % 2 = 0 := by
    have : 1 ≤ r / 2 ^ e := Nat.div_pos hge (by positivity)
    rw [hdiv]; omega
  have := xor_two_pow_of_even (r - 2 ^ e) e hev
  have h2 : r - 2 ^ e + 2 ^ e = r := by omega
  rw [h2] at this
  conv_lhs => rw [← this]
  rw [Nat.xor_assoc, Nat.xor_self, Nat.xor_zero]

theorem dists_two_pow (k i : Nat) (hi : i < k) : dists (2 ^ k) i = 2 ^ (k - (i + 1)) := by
  unfold dists
  rw [Nat.shiftLeft_eq, ← pow_succ']
  exact Nat.pow_div (by omega) (by decide)

theorem peers_two_pow (k rank i : Nat) (hi : i < k) :
    peers rank (2 ^ k) i = rank ^^^ 2 ^ (k - (i + 1)) := by
  unfold peers
  rw [dists_two_pow k i hi]
  by_cases h : (rank / 2 ^ (k - (i + 1))) % 2 = 0
  · simp only [h, if_true]
    exact (xor_two_pow_of_even _ _ h).symm
  · simp only [h, if_false]
    exact (xor_two_pow_of_odd _ _ h).symm

theorem peers_two_pow_lt (k r i : Nat) (hr : r < 2 ^ k) (hi : i < k) :
    peers r (2 ^ k) i < 2 ^ k := by
  rw [peers_two_pow k r i hi]
  exact Nat.xor_lt_two_pow hr (Nat.pow_lt_pow_right (by decide) (by omega))

theorem peers_two_pow_ne (k r i : Nat) (hi : i < k) : peers r (2 ^ k) i ≠ r := by
  rw [peers_two_pow k r i hi]
  intro h
  have h1 : r ^^^ (r ^^^ 2 ^ (k - (i + 1))) = r ^^^ r := by rw [h]
  rw [← Nat.xor_assoc, Nat.xor_self, Nat.zero_xor] at h1
  have : 0 < 2 ^ (k - (i + 1)) := by positivity
  omega

theorem peers_two_pow_peers (k r i : Nat) (hi : i < k) :
    peers (peers r (2 ^ k) i) (2 ^ k) i = r := by
  rw [peers_two_pow k _ i hi, peers_two_pow k r i hi, Nat.xor_assoc, Nat.xor_self,
    Nat.xor_zero]

theorem putOffset_lt (rank nRanks i j : Nat) (hi : 2 ^ i ≤ nRanks) (hj : j < 2 ^ i) :
    putOffset rank nRanks i j < nRanks := by
  unfold putOffset
  rw [Nat.shiftLeft_eq, one_mul]
  have hM : 0 < nRanks / 2 ^ i := Nat.div_pos hi (by positivity)
  have h1 : rank % (nRanks / 2 ^ i) < nRanks / 2 ^ i := Nat.mod_lt _ hM
  have h2 : (j + 1) * (nRanks / 2 ^ i) ≤ 2 ^ i * (nRanks / 2 ^ i) :=
    Nat.mul_le_mul_right _ hj
  have h3 : 2 ^ i * (nRanks / 2 ^ i) ≤ nRanks := Nat.mul_div_le _ _
  have h4 : (j + 1) * (nRanks / 2 ^ i) = j * (nRanks / 2 ^ i) + nRanks / 2 ^ i := by ring
  omega

/-- C2: for `nRanks = 2 ^ k`, `rank < nRanks` and step `i < k`, the partner is
`peers[i] = rank XOR dists[i]` with `dists[i] = nRanks / 2 ^ (i + 1)`; the distance is
`nRanks / 2` at step 0, halves from each step to the next, and is 1 at step `k - 1`. -/
theorem peers_eq_rank_xor_dists (k rank i : Nat) (hr : rank < 2 ^ k) (hi : i < k) :
    peers rank (2 ^ k) i = rank ^^^ dists (2 ^ k) i ∧
    dists (2 ^ k) i = 2 ^ k / 2 ^ (i + 1) ∧
    dists (2 ^ k) 0 = 2 ^ k / 2 ∧
    (i + 1 < k → dists (2 ^ k) (i + 1) = dists (2 ^ k) i / 2) ∧
    dists (2 ^ k) (k - 1) = 1 := by
  have _ := hr
  refine ⟨?_, ?_, ?_, ?_, ?_⟩
  · rw [dists_two_pow k i hi]
    exact peers_two_pow k rank i hi
  · rw [dists_two_pow k i hi]
    exact (Nat.pow_div (by omega) (by decide)).symm
  · simp [dists]
  · intro h1
    rw [dists_two_pow k i hi, dists_two_pow k (i + 1) h1]
    have : k - (i + 1) = (k - (i + 1 + 1)) + 1 := by omega
    rw [this, pow_succ]
    simp
  · rw [dists_two_pow k (k - 1) (by omega)]
    have : k - (k - 1 + 1) = 0 := by omega
    rw [this, pow_zero]

theorem peers_eq_rank_xor_dists_witness :
    (5 < 2 ^ 3 ∧ 1 < 3) ∧
    (peers 5 (2 ^ 3) 1 = 5 ^^^ dists (2 ^ 3) 1 ∧
     dists (2 ^ 3) 1 = 2 ^ 3 / 2 ^ (1 + 1) ∧
     dists (2 ^ 3) 0 = 2 ^ 3 / 2 ∧
     (1 + 1 < 3 → dists (2 ^ 3) (1 + 1) = dists (2 ^ 3) 1 / 2) ∧
     dists (2 ^ 3) (3 - 1) = 1) :=
  ⟨by decide, peers_eq_rank_xor_dists 3 5 1 (by decide) (by decide)⟩

/-- C3: for `nRanks = 2 ^ k`, `r < nRanks` and step `i < k`, the partner `p = peers[i]` of
rank `r` is a rank of the group, differs from `r`, and the partner rank `p` computes for
step `i` is `r`. -/
theorem peers_mutual_exchange (k r i : Nat) (hr : r < 2 ^ k) (hi : i < k) :
    peers r (2 ^ k) i < 2 ^ k ∧
    peers r (2 ^ k) i ≠ r ∧
    peers (peers r (2 ^ k) i) (2 ^ k) i = r :=
  ⟨peers_two_pow_lt k r i hr hi, peers_two_pow_ne k r i hi, peers_two_pow_peers k r i hi⟩

theorem peers_mutual_exchange_witness :
    (6 < 2 ^ 3 ∧ 0 < 3) ∧
    (peers 6 (2 ^ 3) 0 < 2 ^ 3 ∧ peers 6 (2 ^ 3) 0 ≠ 6 ∧
      peers (peers 6 (2 ^ 3) 0) (2 ^ 3) 0 = 6) :=
  ⟨by decide, peers_mutual_exchange 3 6 0 (by decide) (by decide)⟩

/-! ## Generic facts on lists -/

theorem precedes_of_forall_not {α : Type} (l : List α) (p q : α → Prop)
    (h : ∀ e ∈ l, ¬ q e) : Precedes l p q := by
  intro pre e post hl hq
  exact absurd hq (h e (by rw [hl]; simp))

theorem precedes_append {α : Type} (l1 l2 : List α) (p q : α → Prop)
    (hq : ∀ e ∈ l1, ¬ q e) (hp : ∃ e, e ∈ l1 ∧ p e) : Precedes (l1 ++ l2) p q := by
  intro pre e post hl hqe
  rcases List.append_eq_append_iff.1 hl with ⟨a, ha, _⟩ | ⟨c, hc, hc2⟩
  · obtain ⟨e1, he1, hpe1⟩ := hp
    exact ⟨e1, by rw [ha]; exact List.mem_append_left _ he1, hpe1⟩
  · cases c with
    | nil =>
      obtain ⟨e1, he1, hpe1⟩ := hp
      exact ⟨e1, by rw [hc, List.append_nil] at he1; exact he1, hpe1⟩
    | cons e2 c =>
      simp only [List.cons_append, List.cons.injEq] at hc2
      exact absurd hqe (hq e (by rw [hc, hc2.1]; simp))

theorem precedes_of_initial {α : Type} (l1 l : List α) (p q : α → Prop)
    (hpre : l1 <+: l) (h : Precedes l p q) : Precedes l1 p q := by
  obtain ⟨t, rfl⟩ := hpre
  intro pre e post hl hq
  exact h pre e (post ++ t) (by rw [hl]; simp) hq

/-! ## Where calls sit in the script -/

theorem range_split (n t : Nat) (h : t < n) :
    List.range n = List.range t ++ t :: List.range' (t + 1) (n - (t + 1)) := by
  have h1 : n = (n - (t + 1) + 1) + t := by omega
  conv_lhs => rw [h1, List.range_eq_range', ← List.range'_append 0 t _ 1]
  rw [List.range'_succ, List.range_eq_range']
  simp

theorem put_mem_putScript (x : Externs) (m : CtranMapper) (op : OpElem) (i : Nat)
    (a : PutArgs) :
    Instr.checked (Call.iput a) ∈ putScript x m op i ↔
      ∃ j, j < 2 ^ i ∧ a = putArgs x m op i j := by
  unfold putScript
  rw [Nat.shiftLeft_eq, one_mul]
  simp only [List.mem_flatMap, List.mem_range, List.mem_cons]
  constructor
  · rintro ⟨j, hj, h | h⟩
    · exact ⟨j, hj, by simpa using h⟩
    · split at h <;> simp at h
  · rintro ⟨j, hj, rfl⟩
    exact ⟨j, hj, Or.inl rfl⟩

theorem put_mem_stepScript (x : Externs) (m : CtranMapper) (op : OpElem) (i : Nat)
    (a : PutArgs) :
    Instr.checked (Call.iput a) ∈ stepScript x m op i ↔
      ∃ j, j < 2 ^ i ∧ a = putArgs x m op i j := by
  rw [← put_mem_putScript]
  unfold stepScript
  cases x.NCCL_CTRAN_AG_RD_RTR <;> simp

theorem put_not_mem_ctrlScript (x : Externs) (m : CtranMapper) (op : OpElem) (i : Nat)
    (a : PutArgs) : Instr.checked (Call.iput a) ∉ ctrlScript x m op i := by
  unfold ctrlScript
  cases x.NCCL_CTRAN_AG_RD_RTR <;> simp

theorem put_not_mem_tailScript (x : Externs) (m : CtranMapper) (op : OpElem)
    (a : PutArgs) : Instr.checked (Call.iput a) ∉ tailScript x m op := by
  unfold tailScript
  cases m.localRegSend <;> cases m.localRegRecv <;> simp

theorem put_mem_implScript (x : Externs) (m : CtranMapper) (op : OpElem) (a : PutArgs) :
    Instr.checked (Call.iput a) ∈ implScript x m op ↔
      ∃ i j, i < nSteps x op ∧ j < 2 ^ i ∧ a = putArgs x m op i j := by
  unfold implScript
  simp only [List.mem_append, List.mem_flatMap, List.mem_range, put_mem_stepScript,
    put_not_mem_ctrlScript, put_not_mem_tailScript, and_false, exists_false, or_false,
    false_or]
  constructor
  · rintro (h | ⟨i, hi, j, hj, rfl⟩)
    · simp at h
    · exact ⟨i, j, hi, hj, rfl⟩
  · rintro ⟨i, j, hi, hj, rfl⟩
    exact Or.inr ⟨i, hi, j, hj, rfl⟩

/-- Every event of a run executes an instruction of the script. -/
theorem instr_mem_implScript (x : Externs) (m : CtranMapper) (op : OpElem) (e : Event)
    (he : e ∈ (impl x m op).2) : e.instr ∈ implScript x m op :=
  (impl_instr_initial x m op).subset (List.mem_map_of_mem _ he)

/-- Order in the script carries over to every run. -/
theorem impl_precedes (x : Externs) (m : CtranMapper) (op : OpElem) (c : Call)
    (q : Instr → Prop)
    (h : Precedes (implScript x m op) (fun ins => ins = Instr.checked c) q) :
    Precedes (impl x m op).2 (Event.passed x c) (fun e => q e.instr) := by
  intro pre e post hl hq
  have h1 : Precedes ((impl x m op).2.map Event.instr) (fun ins => ins = Instr.checked c) q :=
    precedes_of_initial _ _ _ _ (impl_instr_initial x m op) h
  obtain ⟨i1, hi1, hp⟩ :=
    h1 (pre.map Event.instr) e.instr (post.map Event.instr) (by rw [hl]; simp) hq
  obtain ⟨e1, he1, rfl⟩ := List.mem_map.1 hi1
  cases e1 with
  | note n => simp [Event.instr] at hp
  | call c1 r =>
    simp only [Event.instr, Instr.checked.injEq] at hp
    subst hp
    exact ⟨_, he1, r, rfl, impl_passed x m op pre (e :: post) c1 r hl (by simp) he1⟩

/-! ## The puts of a run -/

theorem filterMap_flatMap {α β γ : Type} (l : List α) (f : α → List β) (g : β → Option γ) :
    (l.flatMap f).filterMap g = l.flatMap fun a => (f a).filterMap g := by
  induction l with
  | nil => rfl
  | cons a l ih => simp [List.flatMap_cons, List.filterMap_append, ih]

theorem flatMap_singleton_map {α β : Type} (l : List α) (g : α → β) :
    (l.flatMap fun a => [g a]) = l.map g := by
  induction l with
  | nil => rfl
  | cons a l ih => simp [List.flatMap_cons, ih]

theorem putScript_puts (x : Externs) (m : CtranMapper) (op : OpElem) (i : Nat) :
    (putScript x m op i).filterMap Instr.put? =
      (List.range (2 ^ i)).map (putArgs x m op i) := by
  unfold putScript
  rw [Nat.shiftLeft_eq, one_mul, filterMap_flatMap, ← flatMap_singleton_map]
  congr 1
  funext j
  by_cases hj : j = 0 <;> simp [hj, Instr.put?]

theorem stepScript_puts (x : Externs) (m : CtranMapper) (op : OpElem) (i : Nat) :
    (stepScript x m op i).filterMap Instr.put? =
      (List.range (2 ^ i)).map (putArgs x m op i) := by
  unfold stepScript
  cases x.NCCL_CTRAN_AG_RD_RTR <;>
    simp [List.filterMap_append, putScript_puts, Instr.put?]

theorem ctrlScript_puts (x : Externs) (m : CtranMapper) (op : OpElem) (i : Nat) :
    (ctrlScript x m op i).filterMap Instr.put? = [] := by
  unfold ctrlScript
  cases x.NCCL_CTRAN_AG_RD_RTR <;> simp [Instr.put?]

theorem tailScript_puts (x : Externs) (m : CtranMapper) (op : OpElem) :
    (tailScript x m op).filterMap Instr.put? = [] := by
  unfold tailScript
  cases m.localRegSend <;> cases m.localRegRecv <;>
    simp [List.filterMap_append, filterMap_flatMap, Instr.put?]

/-- The puts of the whole script: step by step, `2 ^ i` puts in step `i`. -/
theorem implScript_puts (x : Externs) (m : CtranMapper) (op : OpElem) :
    (implScript x m op).filterMap Instr.put? =
      (List.range (nSteps x op)).flatMap fun i =>
        (List.range (2 ^ i)).map (putArgs x m op i) := by
  unfold implScript
  simp only [List.filterMap_append, filterMap_flatMap, stepScript_puts, ctrlScript_puts,
    tailScript_puts, List.append_nil]
  simp [Instr.put?]

theorem putsOf_eq (tr : List Event) :
    putsOf tr = (tr.map Event.instr).filterMap Instr.put? := by
  simp [putsOf, List.filterMap_map, Function.comp_def]

theorem filter_slot_flatMap (x : Externs) (m : CtranMapper) (op : OpElem) (l : List Nat)
    (i : Nat) (hl : i ∉ l) :
    (l.flatMap fun t => (List.range (2 ^ t)).map (putArgs x m op t)).filter
      (fun a => a.slot = i) = [] := by
  rw [List.filter_eq_nil_iff]
  intro a ha
  simp only [List.mem_flatMap, List.mem_map, List.mem_range] at ha
  obtain ⟨t, ht, j, _, rfl⟩ := ha
  simp only [putArgs, decide_eq_true_eq]
  rintro rfl
  exact hl ht

theorem filter_slot_own (x : Externs) (m : CtranMapper) (op : OpElem) (i : Nat) :
    ((List.range (2 ^ i)).map (putArgs x m op i)).filter (fun a => a.slot = i) =
      (List.range (2 ^ i)).map (putArgs x m op i) := by
  rw [List.filter_eq_self]
  intro a ha
  simp only [List.mem_map, List.mem_range] at ha
  obtain ⟨j, _, rfl⟩ := ha
  simp [putArgs]

theorem implScript_stepPuts (x : Externs) (m : CtranMapper) (op : OpElem) (i : Nat) :
    ((implScript x m op).filterMap Instr.put?).filter (fun a => a.slot = i) =
      if i < nSteps x op then (List.range (2 ^ i)).map (putArgs x m op i) else [] := by
  rw [implScript_puts]
  by_cases hi : i < nSteps x op
  · rw [if_pos hi, range_split _ i hi, List.flatMap_append, List.flatMap_cons,
      List.filter_append, List.filter_append, filter_slot_own,
      filter_slot_flatMap x m op _ i (by simp),
      filter_slot_flatMap x m op _ i (by simp)]
    simp
  · rw [if_neg hi]
    exact filter_slot_flatMap x m op _ i (by simpa using hi)

/-- In every run the puts of step `i` are an initial part of the `2 ^ i` puts the loop of
lines 93-125 issues. -/
theorem stepPuts_initial (x : Externs) (m : CtranMapper) (op : OpElem) (i : Nat) :
    stepPuts (impl x m op).2 i <+: (List.range (2 ^ i)).map (putArgs x m op i) := by
  unfold stepPuts
  rw [putsOf_eq]
  have h := ((impl_instr_initial x m op).filterMap Instr.put?).filter
    (fun a : PutArgs => a.slot = i)
  rw [implScript_stepPuts] at h
  by_cases hi : i < nSteps x op
  · rwa [if_pos hi] at h
  · rw [if_neg hi] at h
    rw [List.prefix_nil.1 h]
    exact List.nil_prefix

theorem stepPuts_success (x : Externs) (m : CtranMapper) (op : OpElem)
    (hok : NoFailure x m) (i : Nat) (hi : i < nSteps x op) :
    stepPuts (impl x m op).2 i = (List.range (2 ^ i)).map (putArgs x m op i) := by
  unfold stepPuts
  rw [putsOf_eq, impl_instr_success x m op hok, implScript_stepPuts, if_pos hi]

theorem putsOf_success (x : Externs) (m : CtranMapper) (op : OpElem)
    (hok : NoFailure x m) :
    putsOf (impl x m op).2 = (List.range (nSteps x op)).flatMap fun i =>
        (List.range (2 ^ i)).map (putArgs x m op i) := by
  rw [putsOf_eq, impl_instr_success x m op hok, implScript_puts]

theorem length_all_puts (x : Externs) (m : CtranMapper) (op : OpElem) (n : Nat) :
    ((List.range n).flatMap fun i =>
        (List.range (2 ^ i)).map (putArgs x m op i)).length = 2 ^ n - 1 := by
  induction n with
  | zero => rfl
  | succ n ih =>
    rw [List.range_succ, List.flatMap_append, List.length_append, ih]
    simp only [List.flatMap_cons, List.flatMap_nil, List.append_nil, List.length_map,
      List.length_range]
    have : 0 < 2 ^ n := by positivity
    rw [pow_succ]
    omega

/-- C4: on a run where no primitive fails, `impl` issues exactly `2 ^ i` puts in step `i`
(for every step `i < nSteps`), each of `sendSize` bytes and each addressed to `peers[i]`;
for `nRanks = 2 ^ k` (with `log2i (2 ^ k) = k`) it issues `nRanks - 1` puts in total. -/
theorem puts_per_step (x : Externs) (m : CtranMapper) (op : OpElem) (hok : NoFailure x m) :
    (∀ i, i < nSteps x op →
      (stepPuts (impl x m op).2 i).length = 2 ^ i ∧
      ∀ a ∈ stepPuts (impl x m op).2 i,
        a.len = sendSize x op ∧ a.peer = peers op.comm.rank op.comm.nRanks i) ∧
    (∀ k, op.comm.nRanks = 2 ^ k → x.log2i (2 ^ k) = k →
      (putsOf (impl x m op).2).length = op.comm.nRanks - 1) := by
  constructor
  · intro i hi
    rw [stepPuts_success x m op hok i hi]
    refine ⟨by simp, ?_⟩
    intro a ha
    simp only [List.mem_map, List.mem_range] at ha
    obtain ⟨j, _, rfl⟩ := ha
    exact ⟨rfl, rfl⟩
  · intro k hk hlog
    rw [putsOf_success x m op hok, length_all_puts, nSteps, hk, hlog]

theorem puts_per_step_witness :
    NoFailure demoExterns demoMapper ∧
    ((∀ i, i < nSteps demoExterns demoOp →
      (stepPuts (impl demoExterns demoMapper demoOp).2 i).length = 2 ^ i ∧
      ∀ a ∈ stepPuts (impl demoExterns demoMapper demoOp).2 i,
        a.len = sendSize demoExterns demoOp ∧
        a.peer = peers demoOp.comm.rank demoOp.comm.nRanks i) ∧
    (∀ k, demoOp.comm.nRanks = 2 ^ k → demoExterns.log2i (2 ^ k) = k →
      (putsOf (impl demoExterns demoMapper demoOp).2).length = demoOp.comm.nRanks - 1)) :=
  ⟨fun _ _ => rfl, puts_per_step demoExterns demoMapper demoOp (fun _ _ => rfl)⟩

/-- A general description of the checked calls of one main-loop iteration. -/
theorem checked_mem_stepScript (x : Externs) (m : CtranMapper) (op : OpElem) (i : Nat)
    (c : Call) :
    Instr.checked c ∈ stepScript x m op i ↔
      (x.NCCL_CTRAN_AG_RD_RTR = true ∧
        c = Call.isendCtrl op.recvbuff m.recvHdl (peers op.comm.rank op.comm.nRanks i) i) ∨
      c = Call.wait (Req.irecvReq i) ∨
      (∃ j, j < 2 ^ i ∧ c = Call.iput (putArgs x m op i j)) ∨
      c = Call.wait (Req.iputReq i) ∨
      c = Call.waitNotify (peers op.comm.rank op.comm.nRanks i) := by
  have hput : Instr.checked c ∈ putScript x m op i ↔
      ∃ j, j < 2 ^ i ∧ c = Call.iput (putArgs x m op i j) := by
    cases c with
    | iput a => simp [put_mem_putScript]
    | _ =>
      unfold putScript
      simp only [List.mem_flatMap, List.mem_cons]
      constructor
      · rintro ⟨j, _, h | h⟩
        · simp at h
        · split at h <;> simp at h
      · rintro ⟨j, _, h⟩
        simp at h
  unfold stepScript
  cases x.NCCL_CTRAN_AG_RD_RTR <;> simp [hput]

theorem checked_mem_ctrlScript (x : Externs) (m : CtranMapper) (op : OpElem) (i : Nat)
    (c : Call) :
    Instr.checked c ∈ ctrlScript x m op i ↔
      c = Call.irecvCtrl i (peers op.comm.rank op.comm.nRanks i) ∨
      (x.NCCL_CTRAN_AG_RD_RTR = false ∧
        c = Call.isendCtrl op.recvbuff m.recvHdl (peers op.comm.rank op.comm.nRanks i) i) := by
  unfold ctrlScript
  cases x.NCCL_CTRAN_AG_RD_RTR <;> simp

theorem checked_mem_tailScript (x : Externs) (m : CtranMapper) (op : OpElem) (c : Call) :
    Instr.checked c ∈ tailScript x m op ↔
      (∃ i, i < nSteps x op ∧ c = Call.wait (Req.isendReq i)) ∨
      (m.localRegSend = true ∧ c = Call.deregMem m.sendHdl) ∨
      (m.localRegRecv = true ∧ c = Call.deregMem m.recvHdl) := by
  unfold tailScript
  cases m.localRegSend <;> cases m.localRegRecv <;> simp

/-- The initial part of the script that ends just before the instruction at `rest` of
main-loop iteration `t`. -/
theorem implScript_split (x : Externs) (m : CtranMapper) (op : OpElem) (t : Nat)
    (ht : t < nSteps x op) :
    implScript x m op =
      ([Instr.checked (Call.searchRegHandle op.sendbuff (sendSize x op)),
        Instr.checked (Call.searchRegHandle op.recvbuff
          (sizeMul op.comm.nRanks (sendSize x op)))] ++
        (List.range (nSteps x op)).flatMap (ctrlScript x m op) ++
        (List.range t).flatMap (stepScript x m op)) ++
      (stepScript x m op t ++
        ((List.range' (t + 1) (nSteps x op - (t + 1))).flatMap (stepScript x m op) ++
          tailScript x m op)) := by
  have h : (List.range (nSteps x op)).flatMap (stepScript x m op) =
      (List.range t).flatMap (stepScript x m op) ++ (stepScript x m op t ++
        (List.range' (t + 1) (nSteps x op - (t + 1))).flatMap (stepScript x m op)) := by
    conv_lhs => rw [range_split _ t ht]
    simp only [List.flatMap_append, List.flatMap_cons]
  unfold implScript
  rw [h]
  simp only [List.append_assoc]

theorem precedes_mono {α : Type} (l : List α) (p q p1 q1 : α → Prop)
    (h : Precedes l p q) (hp : ∀ e, p e → p1 e) (hq : ∀ e, q1 e → q e) :
    Precedes l p1 q1 := by
  intro pre e post hl hqe
  obtain ⟨e1, he1, hpe⟩ := h pre e post hl (hq e hqe)
  exact ⟨e1, he1, hp e1 hpe⟩

theorem getElem?_of_initial {α : Type} (l1 l : List α) (h : l1 <+: l) (j : Nat) (a : α)
    (hj : l1[j]? = some a) : l[j]? = some a := by
  obtain ⟨t, rfl⟩ := h
  have hlt : j < l1.length := by
    by_contra hge
    rw [List.getElem?_eq_none (by omega)] at hj
    cases hj
  rw [List.getElem?_append_left hlt]
  exact hj

theorem putArgs_notify (x : Externs) (m : CtranMapper) (op : OpElem) (i j : Nat) :
    ((putArgs x m op i j).notify = true ↔ j = 2 ^ i - 1) ∧
    (putArgs x m op i j).putReqPtr =
      (if j = 2 ^ i - 1 then some (Req.iputReq i) else none) := by
  simp only [putArgs, Nat.shiftLeft_eq, one_mul, beq_iff_eq, true_and]

theorem filter_range_last (x : Externs) (m : CtranMapper) (op : OpElem) (i : Nat)
    (p : PutArgs → Bool)
    (hp : ∀ j, j < 2 ^ i → (p (putArgs x m op i j) = true ↔ j = 2 ^ i - 1)) :
    (((List.range (2 ^ i)).map (putArgs x m op i)).filter p).length = 1 := by
  have hpos : 0 < 2 ^ i := by positivity
  have h1 : 2 ^ i = (2 ^ i - 1) + 1 := by omega
  have h2 : ((List.range (2 ^ i - 1)).map (putArgs x m op i)).filter p = [] := by
    rw [List.filter_eq_nil_iff]
    intro a ha
    simp only [List.mem_map, List.mem_range] at ha
    obtain ⟨j, hj, rfl⟩ := ha
    rw [hp j (by omega)]
    omega
  have h3 : p (putArgs x m op i (2 ^ i - 1)) = true := (hp _ (by omega)).2 rfl
  conv_lhs => rw [h1, List.range_succ, List.map_append, List.filter_append, h2]
  simp [h3]

theorem wait_iput_preceded (x : Externs) (m : CtranMapper) (op : OpElem) (i : Nat) :
    Precedes (implScript x m op)
      (fun ins => ins = Instr.checked (Call.iput (putArgs x m op i (2 ^ i - 1))))
      (fun ins => ins = Instr.checked (Call.wait (Req.iputReq i))) := by
  by_cases hi : i < nSteps x op
  · have hsplit : implScript x m op =
        (([Instr.checked (Call.searchRegHandle op.sendbuff (sendSize x op)),
          Instr.checked (Call.searchRegHandle op.recvbuff
            (sizeMul op.comm.nRanks (sendSize x op)))] ++
          (List.range (nSteps x op)).flatMap (ctrlScript x m op) ++
          (List.range i).flatMap (stepScript x m op)) ++
          ((if x.NCCL_CTRAN_AG_RD_RTR then
            [Instr.checked (Call.isendCtrl op.recvbuff m.recvHdl
              (peers op.comm.rank op.comm.nRanks i) i)] else []) ++
          [Instr.checked (Call.wait (Req.irecvReq i)),
           Instr.note (Note.recvCtrl (peers op.comm.rank op.comm.nRanks i))] ++
          putScript x m op i)) ++
        ([Instr.checked (Call.wait (Req.iputReq i)),
          Instr.note (Note.putComplete (peers op.comm.rank op.comm.nRanks i)),
          Instr.checked (Call.waitNotify (peers op.comm.rank op.comm.nRanks i))] ++
          ((List.range' (i + 1) (nSteps x op - (i + 1))).flatMap (stepScript x m op) ++
            tailScript x m op)) := by
      rw [implScript_split x m op i hi]
      conv_lhs => rw [stepScript]
      simp only [List.append_assoc]
    rw [hsplit]
    apply precedes_append
    · intro e he hq
      subst hq
      simp only [List.mem_append, List.mem_flatMap, List.mem_range, checked_mem_stepScript,
        checked_mem_ctrlScript] at he
      have hputs : Instr.checked (Call.wait (Req.iputReq i)) ∉ putScript x m op i := by
        unfold putScript
        simp only [List.mem_flatMap, List.mem_cons, not_exists, not_and]
        intro j _ h
        rcases h with h | h
        · simp at h
        · split at h <;> simp at h
      cases hr : x.NCCL_CTRAN_AG_RD_RTR <;> simp [hr, hputs] at he
    · refine ⟨_, ?_, rfl⟩
      have : Instr.checked (Call.iput (putArgs x m op i (2 ^ i - 1))) ∈ putScript x m op i :=
        (put_mem_putScript x m op i _).2 ⟨2 ^ i - 1, by
          have : 0 < 2 ^ i := by positivity
          omega, rfl⟩
      simp [this]
  · apply precedes_of_forall_not
    intro e he hq
    subst hq
    unfold implScript at he
    simp only [List.mem_append, List.mem_flatMap, List.mem_range, checked_mem_stepScript,
      checked_mem_ctrlScript, checked_mem_tailScript] at he
    simp at he
    omega

/-- C5: in every run of `impl` the `j`-th put of step `i` carries `notify = true` exactly
when `j = 2 ^ i - 1`, and it is given the request handle `iputReq[i]` exactly then (all
other puts get none); on a run where no primitive fails step `i` has `2 ^ i` puts, so that
put is the last of the step and the only notified one; and every wait on `iputReq[i]` comes
after that put was issued and returned without failure. -/
theorem notify_on_last_put (x : Externs) (m : CtranMapper) (op : OpElem) :
    (∀ i j a, (stepPuts (impl x m op).2 i)[j]? = some a →
      j < 2 ^ i ∧ (a.notify = true ↔ j = 2 ^ i - 1) ∧
      a.putReqPtr = (if j = 2 ^ i - 1 then some (Req.iputReq i) else none)) ∧
    (NoFailure x m → ∀ i, i < nSteps x op →
      (stepPuts (impl x m op).2 i).length = 2 ^ i ∧
      ((stepPuts (impl x m op).2 i).filter fun a => a.notify).length = 1 ∧
      ((stepPuts (impl x m op).2 i).filter fun a => a.putReqPtr.isSome).length = 1) ∧
    (∀ i, Precedes (impl x m op).2
      (fun e => ∃ a r, e = Event.call (Call.iput a) r ∧ x.checkFails r = false ∧
        a.slot = i ∧ a.notify = true ∧ a.putReqPtr = some (Req.iputReq i))
      (fun e => ∃ r, e = Event.call (Call.wait (Req.iputReq i)) r)) := by
  refine ⟨?_, ?_, ?_⟩
  · intro i j a hja
    have h := getElem?_of_initial _ _ (stepPuts_initial x m op i) j a hja
    simp only [List.getElem?_map, List.getElem?_range, Option.map_eq_some'] at h
    obtain ⟨j1, hj1, rfl⟩ := h
    by_cases hlt : j < 2 ^ i
    · rw [List.getElem?_range hlt] at hj1
      cases hj1
      exact ⟨hlt, putArgs_notify x m op i j⟩
    · rw [List.getElem?_eq_none (by simpa using hlt)] at hj1
      cases hj1
  · intro hok i hi
    rw [stepPuts_success x m op hok i hi]
    refine ⟨by simp, ?_, ?_⟩
    · exact filter_range_last x m op i _ fun j _ => (putArgs_notify x m op i j).1
    · apply filter_range_last x m op i
      intro j _
      rw [(putArgs_notify x m op i j).2]
      by_cases hj : j = 2 ^ i - 1 <;> simp [hj]
  · intro i
    refine precedes_mono _ _ _ _ _
      (impl_precedes x m op _ _ (wait_iput_preceded x m op i)) ?_ ?_
    · rintro e ⟨r, rfl, hr⟩
      refine ⟨_, r, rfl, hr, rfl, ?_, ?_⟩
      · exact (putArgs_notify x m op i _).1.2 rfl
      · rw [(putArgs_notify x m op i _).2, if_pos rfl]
    · rintro e ⟨r, rfl⟩
      rfl

theorem notify_on_last_put_witness :
    NoFailure demoExterns demoMapper ∧ 1 < nSteps demoExterns demoOp ∧
    ((stepPuts (impl demoExterns demoMapper demoOp).2 1).length = 2 ^ 1 ∧
      ((stepPuts (impl demoExterns demoMapper demoOp).2 1).filter
        fun a => a.notify).length = 1 ∧
      ((stepPuts (impl demoExterns demoMapper demoOp).2 1).filter
        fun a => a.putReqPtr.isSome).length = 1) :=
  ⟨fun _ _ => rfl, by decide,
    (notify_on_last_put demoExterns demoMapper demoOp).2.1 (fun _ _ => rfl) 1 (by decide)⟩

/-- C6: every put `impl` issues, in any run, is the `j`-th put of some step `i`; with
`putOffset` its segment index: when `putOffset` equals the local rank the source address is
`sendbuff` and the source handle `sendHdl`, otherwise the source address is
`recvbuff + putOffset * sendSize` and the source handle `recvHdl`; in both cases the remote
destination is `remoteRecvBuffs[i] + putOffset * sendSize`. -/
theorem put_source_and_destination (x : Externs) (m : CtranMapper) (op : OpElem)
    (a : PutArgs) (r : ncclResult_t)
    (ha : Event.call (Call.iput a) r ∈ (impl x m op).2) :
    ∃ i j, i < nSteps x op ∧ j < 2 ^ i ∧ a.slot = i ∧
      (putOffset op.comm.rank op.comm.nRanks i j = op.comm.rank →
        a.putFrom = op.sendbuff ∧ a.putFromHdl = m.sendHdl) ∧
      (putOffset op.comm.rank op.comm.nRanks i j ≠ op.comm.rank →
        a.putFrom = op.recvbuff +
            sizeMul (putOffset op.comm.rank op.comm.nRanks i j) (sendSize x op) ∧
          a.putFromHdl = m.recvHdl) ∧
      a.remoteDst = m.remoteRecvBuffs i +
        sizeMul (putOffset op.comm.rank op.comm.nRanks i j) (sendSize x op) := by
  have h := instr_mem_implScript x m op _ ha
  simp only [Event.instr] at h
  obtain ⟨i, j, hi, hj, rfl⟩ := (put_mem_implScript x m op a).1 h
  refine ⟨i, j, hi, hj, rfl, ?_, ?_, rfl⟩
  · intro h1
    simp [putArgs, h1]
  · intro h1
    simp [putArgs, h1]

theorem put_source_and_destination_witness :
    Event.call (Call.iput
        { slot := 1, putFrom := 1024, remoteDst := 6024, len := 8, peer := 0,
          putFromHdl := 22, remoteAccessKey := 71, notify := true,
          putReqPtr := some (Req.iputReq 1) }) 0 ∈ (impl demoExterns demoMapper demoOp).2 ∧
    ∃ i j, i < nSteps demoExterns demoOp ∧ j < 2 ^ i ∧ 1 = i ∧
      (putOffset demoOp.comm.rank demoOp.comm.nRanks i j = demoOp.comm.rank →
        1024 = demoOp.sendbuff ∧ 22 = demoMapper.sendHdl) ∧
      (putOffset demoOp.comm.rank demoOp.comm.nRanks i j ≠ demoOp.comm.rank →
        1024 = demoOp.recvbuff +
            sizeMul (putOffset demoOp.comm.rank demoOp.comm.nRanks i j)
              (sendSize demoExterns demoOp) ∧
          22 = demoMapper.recvHdl) ∧
      6024 = demoMapper.remoteRecvBuffs i +
        sizeMul (putOffset demoOp.comm.rank demoOp.comm.nRanks i j)
          (sendSize demoExterns demoOp) :=
  have hmem : Event.call (Call.iput
        { slot := 1, putFrom := 1024, remoteDst := 6024, len := 8, peer := 0,
          putFromHdl := 22, remoteAccessKey := 71, notify := true,
          putReqPtr := some (Req.iputReq 1) }) 0 ∈ (impl demoExterns demoMapper demoOp).2 := by
    rw [impl_trace]
    decide
  ⟨hmem, put_source_and_destination demoExterns demoMapper demoOp _ 0 hmem⟩

/-- C7: for `nRanks >= 1`, `rank < nRanks`, step `i < nSteps` (where `log2i` returns at
most the ceiling of the base-2 logarithm) and `j < 2 ^ i`, the segment index
`putOffset = j * (nRanks / 2 ^ i) + rank mod (nRanks / 2 ^ i)` is below `nRanks`; so,
when the `nRanks * sendSize` bytes of the receive buffer are a representable size, the
range of `sendSize` bytes at offset `putOffset * sendSize` that the put reads locally and
writes remotely lies within the `nRanks * sendSize` bytes registered for `recvbuff`. -/
theorem put_within_registered_range (x : Externs) (m : CtranMapper) (op : OpElem)
    (i j : Nat) (hn : 1 ≤ op.comm.nRanks) (hr : op.comm.rank < op.comm.nRanks)
    (hlog : x.log2i op.comm.nRanks ≤ Nat.clog 2 op.comm.nRanks)
    (hi : i < nSteps x op) (hj : j < 2 ^ i) :
    putOffset op.comm.rank op.comm.nRanks i j =
      j * (op.comm.nRanks / 2 ^ i) + op.comm.rank % (op.comm.nRanks / 2 ^ i) ∧
    putOffset op.comm.rank op.comm.nRanks i j < op.comm.nRanks ∧
    (op.comm.nRanks * (op.sendcount * x.ncclTypeSize op.datatype) < SIZE_MOD →
      sizeMul (putOffset op.comm.rank op.comm.nRanks i j) (sendSize x op) +
          (putArgs x m op i j).len ≤ sizeMul op.comm.nRanks (sendSize x op) ∧
      (putArgs x m op i j).remoteDst = m.remoteRecvBuffs i +
          sizeMul (putOffset op.comm.rank op.comm.nRanks i j) (sendSize x op) ∧
      ((putArgs x m op i j).putFrom = op.sendbuff ∨
        (putArgs x m op i j).putFrom = op.recvbuff +
          sizeMul (putOffset op.comm.rank op.comm.nRanks i j) (sendSize x op))) := by
  have _ := hr
  have hpow : 2 ^ i ≤ op.comm.nRanks := by
    have h1 : i < Nat.clog 2 op.comm.nRanks := lt_of_lt_of_le hi hlog
    exact le_of_lt ((Nat.pow_lt_iff_lt_clog (by decide)).2 h1)
  have hlt := putOffset_lt op.comm.rank op.comm.nRanks i j hpow hj
  refine ⟨by simp [putOffset, Nat.shiftLeft_eq], hlt, ?_⟩
  intro hfit
  have hsz : sendSize x op = op.sendcount * x.ncclTypeSize op.datatype := by
    unfold sendSize sizeMul
    apply Nat.mod_eq_of_lt
    calc op.sendcount * x.ncclTypeSize op.datatype
        ≤ op.comm.nRanks * (op.sendcount * x.ncclTypeSize op.datatype) :=
          Nat.le_mul_of_pos_left _ hn
      _ < SIZE_MOD := hfit
  have hle : (putOffset op.comm.rank op.comm.nRanks i j + 1) * sendSize x op ≤
      op.comm.nRanks * sendSize x op := Nat.mul_le_mul_right _ hlt
  rw [← hsz] at hfit
  have h1 : sizeMul op.comm.nRanks (sendSize x op) = op.comm.nRanks * sendSize x op :=
    Nat.mod_eq_of_lt hfit
  have h2 : sizeMul (putOffset op.comm.rank op.comm.nRanks i j) (sendSize x op) =
      putOffset op.comm.rank op.comm.nRanks i j * sendSize x op :=
    Nat.mod_eq_of_lt (by
      have : putOffset op.comm.rank op.comm.nRanks i j * sendSize x op ≤
          (putOffset op.comm.rank op.comm.nRanks i j + 1) * sendSize x op :=
        Nat.mul_le_mul_right _ (by omega)
      omega)
  refine ⟨?_, rfl, ?_⟩
  · rw [h1, h2]
    have : (putArgs x m op i j).len = sendSize x op := rfl
    rw [this]
    have h3 : (putOffset op.comm.rank op.comm.nRanks i j + 1) * sendSize x op =
      putOffset op.comm.rank op.comm.nRanks i j * sendSize x op + sendSize x op := by ring
    omega
  · by_cases h : putOffset op.comm.rank op.comm.nRanks i j = op.comm.rank
    · left; simp [putArgs, h]
    · right; simp [putArgs, h]

theorem put_within_registered_range_witness :
    (1 ≤ demoOp.comm.nRanks ∧ demoOp.comm.rank < demoOp.comm.nRanks ∧
      demoExterns.log2i demoOp.comm.nRanks ≤ Nat.clog 2 demoOp.comm.nRanks ∧
      1 < nSteps demoExterns demoOp ∧ 1 < 2 ^ 1) ∧
    (putOffset demoOp.comm.rank demoOp.comm.nRanks 1 1 =
      1 * (demoOp.comm.nRanks / 2 ^ 1) + demoOp.comm.rank % (demoOp.comm.nRanks / 2 ^ 1) ∧
    putOffset demoOp.comm.rank demoOp.comm.nRanks 1 1 < demoOp.comm.nRanks ∧
    (demoOp.comm.nRanks * (demoOp.sendcount * demoExterns.ncclTypeSize demoOp.datatype)
        < SIZE_MOD →
      sizeMul (putOffset demoOp.comm.rank demoOp.comm.nRanks 1 1)
          (sendSize demoExterns demoOp) +
          (putArgs demoExterns demoMapper demoOp 1 1).len ≤
        sizeMul demoOp.comm.nRanks (sendSize demoExterns demoOp) ∧
      (putArgs demoExterns demoMapper demoOp 1 1).remoteDst =
        demoMapper.remoteRecvBuffs 1 +
          sizeMul (putOffset demoOp.comm.rank demoOp.comm.nRanks 1 1)
            (sendSize demoExterns demoOp) ∧
      ((putArgs demoExterns demoMapper demoOp 1 1).putFrom = demoOp.sendbuff ∨
        (putArgs demoExterns demoMapper demoOp 1 1).putFrom = demoOp.recvbuff +
          sizeMul (putOffset demoOp.comm.rank demoOp.comm.nRanks 1 1)
            (sendSize demoExterns demoOp)))) :=
  have hlog : demoExterns.log2i demoOp.comm.nRanks ≤ Nat.clog 2 demoOp.comm.nRanks := by
    have h : Nat.clog 2 (2 ^ 2) = 2 := Nat.clog_pow 2 2 (by decide)
    show halvings 4 4 ≤ Nat.clog 2 4
    rw [show (4 : Nat) = 2 ^ 2 from rfl, h]
    decide
  ⟨⟨by decide, by decide, hlog, by decide, by decide⟩,
    put_within_registered_range demoExterns demoMapper demoOp 1 1 (by decide) (by decide)
      hlog (by decide) (by decide)⟩

/-! ## Order of the calls -/

theorem checked_mem_implScript (x : Externs) (m : CtranMapper) (op : OpElem) (c : Call) :
    Instr.checked c ∈ implScript x m op ↔
      c = Call.searchRegHandle op.sendbuff (sendSize x op) ∨
      c = Call.searchRegHandle op.recvbuff (sizeMul op.comm.nRanks (sendSize x op)) ∨
      (∃ i, i < nSteps x op ∧ Instr.checked c ∈ ctrlScript x m op i) ∨
      (∃ i, i < nSteps x op ∧ Instr.checked c ∈ stepScript x m op i) ∨
      Instr.checked c ∈ tailScript x m op := by
  unfold implScript
  simp only [List.mem_append, List.mem_flatMap, List.mem_range, List.mem_cons,
    Instr.checked.injEq, List.mem_nil_iff, or_false, or_assoc]

theorem callsOf_eq (tr : List Event) :
    callsOf tr = (tr.map Event.instr).filterMap Instr.call? := by
  simp [callsOf, List.filterMap_map, Function.comp_def]

theorem deregsOf_eq (tr : List Event) :
    deregsOf tr = (tr.map Event.instr).filterMap Instr.dereg? := by
  simp [deregsOf, List.filterMap_map, Function.comp_def]

theorem putScript_calls (x : Externs) (m : CtranMapper) (op : OpElem) (i : Nat) :
    (putScript x m op i).filterMap Instr.call? =
      (List.range (2 ^ i)).map (fun j => Call.iput (putArgs x m op i j)) := by
  unfold putScript
  rw [Nat.shiftLeft_eq, one_mul, filterMap_flatMap, ← flatMap_singleton_map]
  congr 1
  funext j
  by_cases hj : j = 0 <;> simp [hj, Instr.call?]

theorem stepScript_calls (x : Externs) (m : CtranMapper) (op : OpElem) (i : Nat) :
    (stepScript x m op i).filterMap Instr.call? = stepCalls x m op i := by
  unfold stepScript stepCalls
  cases x.NCCL_CTRAN_AG_RD_RTR <;>
    simp [List.filterMap_append, putScript_calls, Instr.call?]

theorem ctrlScript_calls (x : Externs) (m : CtranMapper) (op : OpElem) (i : Nat) :
    (ctrlScript x m op i).filterMap Instr.call? =
      Call.irecvCtrl i (peers op.comm.rank op.comm.nRanks i) ::
        (if !x.NCCL_CTRAN_AG_RD_RTR then
          [Call.isendCtrl op.recvbuff m.recvHdl (peers op.comm.rank op.comm.nRanks i) i]
        else []) := by
  unfold ctrlScript
  cases x.NCCL_CTRAN_AG_RD_RTR <;> simp [Instr.call?]

theorem tailScript_calls (x : Externs) (m : CtranMapper) (op : OpElem) :
    (tailScript x m op).filterMap Instr.call? = wrapUpCalls x m op := by
  unfold tailScript wrapUpCalls
  rw [← flatMap_singleton_map]
  cases m.localRegSend <;> cases m.localRegRecv <;>
    simp [List.filterMap_append, filterMap_flatMap, Instr.call?]

/-- The calls of the script: set-up calls, then the main-loop iterations, then the
wrap-up calls. -/
theorem implScript_calls (x : Externs) (m : CtranMapper) (op : OpElem) :
    (implScript x m op).filterMap Instr.call? =
      setupCalls x m op ++ (List.range (nSteps x op)).flatMap (stepCalls x m op) ++
        wrapUpCalls x m op := by
  unfold implScript setupCalls
  simp only [List.filterMap_append, filterMap_flatMap, stepScript_calls, ctrlScript_calls,
    tailScript_calls]
  simp [Instr.call?]

/-- In the script a put of step `i + 1` comes after `waitNotify(peers[i])`. -/
theorem next_put_preceded (x : Externs) (m : CtranMapper) (op : OpElem) (i : Nat) :
    Precedes (implScript x m op)
      (fun ins => ins = Instr.checked
        (Call.waitNotify (peers op.comm.rank op.comm.nRanks i)))
      (fun ins => ∃ a, ins = Instr.checked (Call.iput a) ∧ a.slot = i + 1) := by
  by_cases hi : i + 1 < nSteps x op
  · rw [implScript_split x m op (i + 1) hi]
    apply precedes_append
    · rintro e he ⟨a, rfl, ha⟩
      simp only [List.mem_append, List.mem_flatMap, List.mem_range, put_mem_stepScript,
        put_not_mem_ctrlScript, and_false, exists_false, or_false] at he
      rcases he with h | ⟨t, ht, j, _, rfl⟩
      · simp at h
      · simp only [putArgs] at ha
        omega
    · refine ⟨_, ?_, rfl⟩
      simp only [List.mem_append, List.mem_flatMap, List.mem_range]
      right
      exact ⟨i, by omega, (checked_mem_stepScript x m op i _).2
        (Or.inr (Or.inr (Or.inr (Or.inr rfl))))⟩
  · apply precedes_of_forall_not
    rintro e he ⟨a, rfl, ha⟩
    obtain ⟨t, j, ht, _, rfl⟩ := (put_mem_implScript x m op a).1 he
    simp only [putArgs] at ha
    omega

/-- C8: the checked calls of a run are, in order, the set-up calls (`searchRegHandle`,
`irecvCtrl`, `isendCtrl`), then for each step `i` in turn the calls `stepCalls`: the wait on
the step-`i` control receive, all step-`i` puts, the wait on the notified put's request,
`waitNotify(peers[i])`; then the wrap-up calls.  A run that stops at a failure is an
initial part of that sequence, a run without failure is all of it.  In every run, a put of
step `i + 1` comes after a `waitNotify(peers[i])` that returned without failure. -/
theorem step_call_order (x : Externs) (m : CtranMapper) (op : OpElem) :
    callsOf (impl x m op).2 <+:
      setupCalls x m op ++ (List.range (nSteps x op)).flatMap (stepCalls x m op) ++
        wrapUpCalls x m op ∧
    (NoFailure x m → callsOf (impl x m op).2 =
      setupCalls x m op ++ (List.range (nSteps x op)).flatMap (stepCalls x m op) ++
        wrapUpCalls x m op) ∧
    (∀ i, Precedes (impl x m op).2
      (Event.passed x (Call.waitNotify (peers op.comm.rank op.comm.nRanks i)))
      (Event.isPutOf (i + 1))) := by
  refine ⟨?_, ?_, ?_⟩
  · rw [callsOf_eq, ← implScript_calls]
    exact (impl_instr_initial x m op).filterMap _
  · intro hok
    rw [callsOf_eq, ← implScript_calls, impl_instr_success x m op hok]
  · intro i
    refine precedes_mono _ _ _ _ _
      (impl_precedes x m op _ _ (next_put_preceded x m op i)) (fun _ h => h) ?_
    rintro e ⟨a, r, rfl, ha⟩
    exact ⟨a, rfl, ha⟩

theorem step_call_order_witness :
    NoFailure demoExterns demoMapper ∧
    callsOf (impl demoExterns demoMapper demoOp).2 =
      setupCalls demoExterns demoMapper demoOp ++
        (List.range (nSteps demoExterns demoOp)).flatMap
          (stepCalls demoExterns demoMapper demoOp) ++
        wrapUpCalls demoExterns demoMapper demoOp :=
  ⟨fun _ _ => rfl, (step_call_order demoExterns demoMapper demoOp).2.1 (fun _ _ => rfl)⟩

theorem ctrl_before_puts (x : Externs) (m : CtranMapper) (op : OpElem) (c : Call) (i : Nat)
    (hi : i < nSteps x op) (hc : Instr.checked c ∈ ctrlScript x m op i) :
    Precedes (implScript x m op) (fun ins => ins = Instr.checked c)
      (fun ins => ∃ a, ins = Instr.checked (Call.iput a)) := by
  unfold implScript
  rw [List.append_assoc]
  apply precedes_append
  · rintro e he ⟨a, rfl⟩
    simp only [List.mem_append, List.mem_flatMap, List.mem_range, put_not_mem_ctrlScript,
      and_false, exists_false, or_false] at he
    simp at he
  · refine ⟨_, ?_, rfl⟩
    simp only [List.mem_append, List.mem_flatMap, List.mem_range]
    exact Or.inr ⟨i, hi, hc⟩

theorem isend_before_step_puts (x : Externs) (m : CtranMapper) (op : OpElem) (i : Nat)
    (hi : i < nSteps x op) (hrtr : x.NCCL_CTRAN_AG_RD_RTR = true) :
    Precedes (implScript x m op)
      (fun ins => ins = Instr.checked
        (Call.isendCtrl op.recvbuff m.recvHdl (peers op.comm.rank op.comm.nRanks i) i))
      (fun ins => ∃ a, ins = Instr.checked (Call.iput a) ∧ a.slot = i) := by
  have hstep : stepScript x m op i =
      [Instr.checked
        (Call.isendCtrl op.recvbuff m.recvHdl (peers op.comm.rank op.comm.nRanks i) i)] ++
      ([Instr.checked (Call.wait (Req.irecvReq i)),
        Instr.note (Note.recvCtrl (peers op.comm.rank op.comm.nRanks i))] ++
        putScript x m op i ++
        [Instr.checked (Call.wait (Req.iputReq i)),
         Instr.note (Note.putComplete (peers op.comm.rank op.comm.nRanks i)),
         Instr.checked (Call.waitNotify (peers op.comm.rank op.comm.nRanks i))]) := by
    unfold stepScript
    simp [hrtr]
  have hsplit : implScript x m op =
      (([Instr.checked (Call.searchRegHandle op.sendbuff (sendSize x op)),
        Instr.checked (Call.searchRegHandle op.recvbuff
          (sizeMul op.comm.nRanks (sendSize x op)))] ++
        (List.range (nSteps x op)).flatMap (ctrlScript x m op) ++
        (List.range i).flatMap (stepScript x m op)) ++
        [Instr.checked
          (Call.isendCtrl op.recvbuff m.recvHdl (peers op.comm.rank op.comm.nRanks i) i)]) ++
      (([Instr.checked (Call.wait (Req.irecvReq i)),
        Instr.note (Note.recvCtrl (peers op.comm.rank op.comm.nRanks i))] ++
        putScript x m op i ++
        [Instr.checked (Call.wait (Req.iputReq i)),
         Instr.note (Note.putComplete (peers op.comm.rank op.comm.nRanks i)),
         Instr.checked (Call.waitNotify (peers op.comm.rank op.comm.nRanks i))]) ++
        ((List.range' (i + 1) (nSteps x op - (i + 1))).flatMap (stepScript x m op) ++
          tailScript x m op)) := by
    rw [implScript_split x m op i hi, hstep]
    simp only [List.append_assoc]
  rw [hsplit]
  apply precedes_append
  · rintro e he ⟨a, rfl, ha⟩
    simp only [List.mem_append, List.mem_flatMap, List.mem_range, put_mem_stepScript,
      put_not_mem_ctrlScript, and_false, exists_false, or_false] at he
    rcases he with (h | ⟨t, ht, j, _, rfl⟩) | h
    · simp at h
    · simp only [putArgs] at ha
      omega
    · simp at h
  · exact ⟨_, by simp, rfl⟩

theorem waits_before_dereg (x : Externs) (m : CtranMapper) (op : OpElem) (i : Nat)
    (hi : i < nSteps x op) :
    Precedes (implScript x m op)
      (fun ins => ins = Instr.checked (Call.wait (Req.isendReq i)))
      (fun ins => ∃ h, ins = Instr.checked (Call.deregMem h)) := by
  unfold implScript tailScript
  simp only [← List.append_assoc]
  rw [List.append_assoc _ (if m.localRegRecv = true then _ else _),
    List.append_assoc _ (if m.localRegSend = true then _ else _)]
  apply precedes_append
  · rintro e he ⟨h, rfl⟩
    simp only [List.mem_append, List.mem_flatMap, List.mem_range, checked_mem_stepScript,
      checked_mem_ctrlScript] at he
    simp at he
  · refine ⟨_, ?_, rfl⟩
    simp only [List.mem_append, List.mem_flatMap, List.mem_range]
    exact Or.inr ⟨i, hi, by simp⟩

/-- C9, as stated, fails: with `NCCL_CTRAN_AG_RD_RTR` set (its default), in the run of rank 1
of 4 the first put is issued before the control send of step 1. -/
theorem control_not_up_front :
    ¬ ControlUpFront (impl demoExterns demoMapper demoOp).2 (nSteps demoExterns demoOp) := by
  intro h
  have hsplit : (impl demoExterns demoMapper demoOp).2 =
      [Event.call (Call.searchRegHandle 100 8) 0, Event.call (Call.searchRegHandle 1000 32) 0,
        Event.call (Call.irecvCtrl 0 3) 0, Event.call (Call.irecvCtrl 1 0) 0,
        Event.call (Call.isendCtrl 1000 22 3 0) 0, Event.call (Call.wait (Req.irecvReq 0)) 0,
        Event.note (Note.recvCtrl 3)] ++
        Event.call (Call.iput (putArgs demoExterns demoMapper demoOp 0 0)) 0 ::
        (impl demoExterns demoMapper demoOp).2.drop 8 := by
    rw [impl_trace]
    decide
  obtain ⟨e1, he1, b, hd, p, r, rfl⟩ :=
    (h 1 (by decide)).2 _ _ _ hsplit ⟨_, _, rfl⟩
  simp at he1

/-- C9, amended: before any put is issued, the `irecvCtrl` of every step has been issued;
when `NCCL_CTRAN_AG_RD_RTR` is false the `isendCtrl` of every step has been issued too
(the whole control exchange is up-front); when it is true, the `isendCtrl` of step `i` has
been issued before any put of step `i`. -/
theorem control_exchange_order (x : Externs) (m : CtranMapper) (op : OpElem) :
    (∀ i, i < nSteps x op → Precedes (impl x m op).2
      (Event.passed x (Call.irecvCtrl i (peers op.comm.rank op.comm.nRanks i)))
      Event.isPut) ∧
    (x.NCCL_CTRAN_AG_RD_RTR = false →
      (∀ i, i < nSteps x op → Precedes (impl x m op).2
        (Event.passed x
          (Call.isendCtrl op.recvbuff m.recvHdl (peers op.comm.rank op.comm.nRanks i) i))
        Event.isPut) ∧
      ControlUpFront (impl x m op).2 (nSteps x op)) ∧
    (x.NCCL_CTRAN_AG_RD_RTR = true → ∀ i, i < nSteps x op →
      Precedes (impl x m op).2
        (Event.passed x
          (Call.isendCtrl op.recvbuff m.recvHdl (peers op.comm.rank op.comm.nRanks i) i))
        (Event.isPutOf i)) := by
  have hput : ∀ e : Event, Event.isPut e → ∃ a, e.instr = Instr.checked (Call.iput a) := by
    rintro e ⟨a, r, rfl⟩
    exact ⟨a, rfl⟩
  have hrecv : ∀ i, i < nSteps x op → Precedes (impl x m op).2
      (Event.passed x (Call.irecvCtrl i (peers op.comm.rank op.comm.nRanks i)))
      Event.isPut := by
    intro i hi
    exact precedes_mono _ _ _ _ _
      (impl_precedes x m op _ _ (ctrl_before_puts x m op _ i hi
        ((checked_mem_ctrlScript x m op i _).2 (Or.inl rfl)))) (fun _ h => h) hput
  have hsend : x.NCCL_CTRAN_AG_RD_RTR = false → ∀ i, i < nSteps x op →
      Precedes (impl x m op).2
        (Event.passed x
          (Call.isendCtrl op.recvbuff m.recvHdl (peers op.comm.rank op.comm.nRanks i) i))
        Event.isPut := by
    intro hrtr i hi
    exact precedes_mono _ _ _ _ _
      (impl_precedes x m op _ _ (ctrl_before_puts x m op _ i hi
        ((checked_mem_ctrlScript x m op i _).2 (Or.inr ⟨hrtr, rfl⟩)))) (fun _ h => h) hput
  refine ⟨hrecv, ?_, ?_⟩
  · intro hrtr
    refine ⟨hsend hrtr, ?_⟩
    intro i hi
    constructor
    · exact precedes_mono _ _ _ _ _ (hrecv i hi)
        (fun e ⟨r, he, _⟩ => ⟨_, r, he⟩) (fun _ h => h)
    · exact precedes_mono _ _ _ _ _ (hsend hrtr i hi)
        (fun e ⟨r, he, _⟩ => ⟨_, _, _, r, he⟩) (fun _ h => h)
  · intro hrtr i hi
    refine precedes_mono _ _ _ _ _
      (impl_precedes x m op _ _ (isend_before_step_puts x m op i hi hrtr)) (fun _ h => h) ?_
    rintro e ⟨a, r, rfl, ha⟩
    exact ⟨a, rfl, ha⟩

theorem control_exchange_order_witness :
    (demoExterns.NCCL_CTRAN_AG_RD_RTR = true ∧ 1 < nSteps demoExterns demoOp) ∧
    Precedes (impl demoExterns demoMapper demoOp).2
      (Event.passed demoExterns
        (Call.isendCtrl demoOp.recvbuff demoMapper.recvHdl
          (peers demoOp.comm.rank demoOp.comm.nRanks 1) 1))
      (Event.isPutOf 1) :=
  ⟨⟨rfl, by decide⟩,
    (control_exchange_order demoExterns demoMapper demoOp).2.2 rfl 1 (by decide)⟩

/-! ## Deregistration -/

theorem flatMap_eq_nil_of_forall {α β : Type} (l : List α) (f : α → List β)
    (h : ∀ a, f a = []) : l.flatMap f = [] := by
  induction l with
  | nil => rfl
  | cons a l ih => simp [List.flatMap_cons, h, ih]

theorem putScript_deregs (x : Externs) (m : CtranMapper) (op : OpElem) (i : Nat) :
    (putScript x m op i).filterMap Instr.dereg? = [] := by
  unfold putScript
  rw [filterMap_flatMap]
  apply flatMap_eq_nil_of_forall
  intro j
  by_cases hj : j = 0 <;> simp [hj, Instr.dereg?]

theorem stepScript_deregs (x : Externs) (m : CtranMapper) (op : OpElem) (i : Nat) :
    (stepScript x m op i).filterMap Instr.dereg? = [] := by
  unfold stepScript
  cases x.NCCL_CTRAN_AG_RD_RTR <;>
    simp [List.filterMap_append, putScript_deregs, Instr.dereg?]

theorem ctrlScript_deregs (x : Externs) (m : CtranMapper) (op : OpElem) (i : Nat) :
    (ctrlScript x m op i).filterMap Instr.dereg? = [] := by
  unfold ctrlScript
  cases x.NCCL_CTRAN_AG_RD_RTR <;> simp [Instr.dereg?]

theorem tailScript_deregs (x : Externs) (m : CtranMapper) (op : OpElem) :
    (tailScript x m op).filterMap Instr.dereg? =
      (if m.localRegSend = true then [m.sendHdl] else []) ++
      (if m.localRegRecv = true then [m.recvHdl] else []) := by
  unfold tailScript
  have h : ((List.range (nSteps x op)).flatMap
      (fun i => [Instr.checked (Call.wait (Req.isendReq i))])).filterMap Instr.dereg? = [] := by
    rw [filterMap_flatMap]
    exact flatMap_eq_nil_of_forall _ _ (fun _ => rfl)
  cases m.localRegSend <;> cases m.localRegRecv <;>
    simp [List.filterMap_append, h, Instr.dereg?]

theorem implScript_deregs (x : Externs) (m : CtranMapper) (op : OpElem) :
    (implScript x m op).filterMap Instr.dereg? =
      (if m.localRegSend = true then [m.sendHdl] else []) ++
      (if m.localRegRecv = true then [m.recvHdl] else []) := by
  unfold implScript
  simp only [List.filterMap_append, filterMap_flatMap, stepScript_deregs, ctrlScript_deregs,
    tailScript_deregs]
  rw [flatMap_eq_nil_of_forall _ _ (fun _ => rfl)]
  simp [Instr.dereg?]

/-- C10: in every run a `deregMem` call comes after the wait on every one of the `nSteps`
control-send requests returned without failure; on a run where no primitive fails the
`deregMem` calls are exactly `deregMem(sendHdl)` if the send registration was reported as
locally created, followed by `deregMem(recvHdl)` if the receive registration was; and in no
run is `deregMem` called on a handle other than `sendHdl` with `localRegSend` set or
`recvHdl` with `localRegRecv` set. -/
theorem deregister_local_only (x : Externs) (m : CtranMapper) (op : OpElem) :
    (∀ i, i < nSteps x op → Precedes (impl x m op).2
      (Event.passed x (Call.wait (Req.isendReq i)))
      (fun e => ∃ h r, e = Event.call (Call.deregMem h) r)) ∧
    (NoFailure x m →
      deregsOf (impl x m op).2 =
        (if m.localRegSend = true then [m.sendHdl] else []) ++
        (if m.localRegRecv = true then [m.recvHdl] else []) ∧
      ∀ i, i < nSteps x op → ∃ r, Event.call (Call.wait (Req.isendReq i)) r ∈ (impl x m op).2) ∧
    deregsOf (impl x m op).2 <+:
        (if m.localRegSend = true then [m.sendHdl] else []) ++
        (if m.localRegRecv = true then [m.recvHdl] else []) ∧
    (∀ h r, Event.call (Call.deregMem h) r ∈ (impl x m op).2 →
      (h = m.sendHdl ∧ m.localRegSend = true) ∨ (h = m.recvHdl ∧ m.localRegRecv = true)) := by
  refine ⟨?_, ?_, ?_, ?_⟩
  · intro i hi
    refine precedes_mono _ _ _ _ _
      (impl_precedes x m op _ _ (waits_before_dereg x m op i hi)) (fun _ h => h) ?_
    rintro e ⟨h, r, rfl⟩
    exact ⟨h, rfl⟩
  · intro hok
    refine ⟨by rw [deregsOf_eq, impl_instr_success x m op hok, implScript_deregs], ?_⟩
    intro i hi
    have hin : Instr.checked (Call.wait (Req.isendReq i)) ∈ implScript x m op :=
      (checked_mem_implScript x m op _).2 (Or.inr (Or.inr (Or.inr (Or.inr
        ((checked_mem_tailScript x m op _).2 (Or.inl ⟨i, hi, rfl⟩))))))
    rw [← impl_instr_success x m op hok] at hin
    obtain ⟨e, he, hins⟩ := List.mem_map.1 hin
    cases e with
    | note n => simp [Event.instr] at hins
    | call c r =>
      simp only [Event.instr, Instr.checked.injEq] at hins
      subst hins
      exact ⟨r, he⟩
  · rw [deregsOf_eq, ← implScript_deregs]
    exact (impl_instr_initial x m op).filterMap _
  · intro h r hmem
    have h1 := instr_mem_implScript x m op _ hmem
    simp only [Event.instr] at h1
    rcases (checked_mem_implScript x m op _).1 h1 with h2 | h2 | ⟨i, _, h2⟩ | ⟨i, _, h2⟩ | h2
    · cases h2
    · cases h2
    · rcases (checked_mem_ctrlScript x m op i _).1 h2 with h3 | ⟨_, h3⟩ <;> cases h3
    · rcases (checked_mem_stepScript x m op i _).1 h2 with
        ⟨_, h3⟩ | h3 | ⟨j, _, h3⟩ | h3 | h3 <;> cases h3
    · rcases (checked_mem_tailScript x m op _).1 h2 with ⟨i, _, h3⟩ | ⟨hl, h3⟩ | ⟨hl, h3⟩
      · cases h3
      · cases h3
        exact Or.inl ⟨rfl, hl⟩
      · cases h3
        exact Or.inr ⟨rfl, hl⟩

theorem deregister_local_only_witness :
    NoFailure demoExterns demoMapper ∧
    (deregsOf (impl demoExterns demoMapper demoOp).2 =
      (if demoMapper.localRegSend = true then [demoMapper.sendHdl] else []) ++
      (if demoMapper.localRegRecv = true then [demoMapper.recvHdl] else []) ∧
      ∀ i, i < nSteps demoExterns demoOp →
        ∃ r, Event.call (Call.wait (Req.isendReq i)) r ∈
          (impl demoExterns demoMapper demoOp).2) :=
  ⟨fun _ _ => rfl,
    (deregister_local_only demoExterns demoMapper demoOp).2.1 (fun _ _ => rfl)⟩

/-! ## Round-trip correctness of the all-gather -/

theorem seg_eq_of_overlap (sz s t b : Nat) (hb : b < sz) (h1 : s * sz ≤ t * sz + b)
    (h2 : t * sz + b < s * sz + sz) : t = s := by
  have h3 : s * sz < (t + 1) * sz := by
    have : (t + 1) * sz = t * sz + sz := by ring
    omega
  have h4 : t * sz < (s + 1) * sz := by
    have : (s + 1) * sz = s * sz + sz := by ring
    omega
  have h5 := Nat.lt_of_mul_lt_mul_right h3
  have h6 := Nat.lt_of_mul_lt_mul_right h4
  omega

theorem seg_le_total (sz n s : Nat) (hs : s < n) : s * sz + sz ≤ n * sz := by
  have h : (s + 1) * sz ≤ n * sz := Nat.mul_le_mul_right _ hs
  have : (s + 1) * sz = s * sz + sz := by ring
  omega

theorem holds_mono (g : Group) (S : Nat → Nat → Nat) (K K1 : Nat → Nat → Prop) (w : World)
    (h : Holds g S K w) (hK : ∀ r, r < g.nRanks → ∀ s, s < g.nRanks → K1 r s → K r s) :
    Holds g S K1 w := by
  intro r hr
  exact ⟨(h r hr).1, fun s hs hk b hb => (h r hr).2 s hs (hK r hr s hs hk) b hb⟩

/-- One put of a step preserves what the ranks hold and adds the written segment. -/
theorem holds_applyPut (g : Group) (S : Nat → Nat → Nat) (K : Nat → Nat → Prop) (w : World)
    (src i j : Nat) (hfit : g.nRanks * g.segSize < SIZE_MOD) (hsep : g.BuffersApart)
    (hctrl : (g.mapper src).remoteRecvBuffs i = g.recvbuff (peers src g.nRanks i))
    (hsrc : src < g.nRanks) (hs : putOffset src g.nRanks i j < g.nRanks)
    (hK : K src (putOffset src g.nRanks i j)) (hw : Holds g S K w) :
    Holds g S
      (fun r s => K r s ∨
        (r = (putArgs g.x (g.mapper src) (g.op src) i j).peer ∧
          (putArgs g.x (g.mapper src) (g.op src) i j).remoteDst =
            g.recvbuff r + s * g.segSize))
      (applyPut src (putArgs g.x (g.mapper src) (g.op src) i j) w) := by
  have hoff : sizeMul (putOffset src g.nRanks i j) g.segSize =
      putOffset src g.nRanks i j * g.segSize := by
    apply Nat.mod_eq_of_lt
    have := seg_le_total g.segSize g.nRanks _ hs
    omega
  have hdst : (putArgs g.x (g.mapper src) (g.op src) i j).remoteDst =
      g.recvbuff (peers src g.nRanks i) + putOffset src g.nRanks i j * g.segSize := by
    show (g.mapper src).remoteRecvBuffs i + sizeMul (putOffset src g.nRanks i j) g.segSize = _
    rw [hctrl, hoff]
  have hlen : (putArgs g.x (g.mapper src) (g.op src) i j).len = g.segSize := rfl
  have hpeer : (putArgs g.x (g.mapper src) (g.op src) i j).peer = peers src g.nRanks i := rfl
  -- the cells the put reads hold the data of the segment
  have hread : ∀ b, b < g.segSize →
      w src ((putArgs g.x (g.mapper src) (g.op src) i j).putFrom + b) =
        S (putOffset src g.nRanks i j) b := by
    intro b hb
    by_cases hown : putOffset src g.nRanks i j = src
    · have : (putArgs g.x (g.mapper src) (g.op src) i j).putFrom = g.sendbuff src := by
        show (if putOffset src g.nRanks i j = src then g.sendbuff src else _) = _
        rw [if_pos hown]
      rw [this, hown]
      exact (hw src hsrc).1 b hb
    · have : (putArgs g.x (g.mapper src) (g.op src) i j).putFrom =
          g.recvbuff src + putOffset src g.nRanks i j * g.segSize := by
        show (if putOffset src g.nRanks i j = src then g.sendbuff src
          else g.recvbuff src + sizeMul (putOffset src g.nRanks i j) g.segSize) = _
        rw [if_neg hown, hoff]
      rw [this]
      exact (hw src hsrc).2 _ hs hK b hb
  -- a written cell holds the data of the segment
  have hwritten : ∀ r addr, r = peers src g.nRanks i →
      g.recvbuff r + putOffset src g.nRanks i j * g.segSize ≤ addr →
      addr < g.recvbuff r + putOffset src g.nRanks i j * g.segSize + g.segSize →
      applyPut src (putArgs g.x (g.mapper src) (g.op src) i j) w r addr =
        S (putOffset src g.nRanks i j)
          (addr - (g.recvbuff r + putOffset src g.nRanks i j * g.segSize)) := by
    intro r addr hr h1 h2
    subst hr
    unfold applyPut
    rw [hdst, hlen, hpeer, if_pos ⟨rfl, h1, h2⟩]
    exact hread _ (by omega)
  -- any other cell is unchanged
  have hkept : ∀ r addr,
      ¬ (r = peers src g.nRanks i ∧
        g.recvbuff r + putOffset src g.nRanks i j * g.segSize ≤ addr ∧
        addr < g.recvbuff r + putOffset src g.nRanks i j * g.segSize + g.segSize) →
      applyPut src (putArgs g.x (g.mapper src) (g.op src) i j) w r addr = w r addr := by
    intro r addr hn
    unfold applyPut
    rw [hdst, hlen, hpeer, if_neg]
    rintro ⟨h0, h1, h2⟩
    subst h0
    exact hn ⟨rfl, h1, h2⟩
  intro r hr
  constructor
  · intro b hb
    by_cases hin : r = peers src g.nRanks i ∧
        g.recvbuff r + putOffset src g.nRanks i j * g.segSize ≤ g.sendbuff r + b ∧
        g.sendbuff r + b < g.recvbuff r + putOffset src g.nRanks i j * g.segSize + g.segSize
    · obtain ⟨h0, h1, h2⟩ := hin
      rw [hwritten r _ h0 h1 h2]
      have htot := seg_le_total g.segSize g.nRanks _ hs
      rcases hsep r hr with hplace | hbelow | habove
      · have heq : r = putOffset src g.nRanks i j :=
          seg_eq_of_overlap g.segSize _ r b hb (by omega) (by omega)
        rw [← heq, hplace]
        congr 1
        omega
      · omega
      · omega
    · rw [hkept r _ hin]
      exact (hw r hr).1 b hb
  · intro s hs1 hk b hb
    by_cases hin : r = peers src g.nRanks i ∧
        g.recvbuff r + putOffset src g.nRanks i j * g.segSize ≤
          g.recvbuff r + s * g.segSize + b ∧
        g.recvbuff r + s * g.segSize + b <
          g.recvbuff r + putOffset src g.nRanks i j * g.segSize + g.segSize
    · obtain ⟨h0, h1, h2⟩ := hin
      rw [hwritten r _ h0 h1 h2]
      have heq : s = putOffset src g.nRanks i j :=
        seg_eq_of_overlap g.segSize _ s b hb (by omega) (by omega)
      rw [← heq]
      congr 1
      omega
    · rw [hkept r _ hin]
      rcases hk with hk | ⟨h0, h1⟩
      · exact (hw r hr).2 s hs1 hk b hb
      · exfalso
        apply hin
        rw [hpeer] at h0
        rw [hdst, ← h0] at h1
        exact ⟨h0, by omega, by omega⟩

/-- A list of puts of step `i`, in any order, preserves what the ranks hold and adds the
written segments. -/
theorem holds_runPuts (g : Group) (S : Nat → Nat → Nat) (i : Nat)
    (hfit : g.nRanks * g.segSize < SIZE_MOD) (hsep : g.BuffersApart)
    (hctrl : ∀ r, r < g.nRanks →
      (g.mapper r).remoteRecvBuffs i = g.recvbuff (peers r g.nRanks i))
    (l : List (Nat × PutArgs)) (K : Nat → Nat → Prop) (w : World)
    (hl : ∀ ra ∈ l, ra.1 < g.nRanks ∧ ∃ j, j < 2 ^ i ∧
      ra.2 = putArgs g.x (g.mapper ra.1) (g.op ra.1) i j ∧
      putOffset ra.1 g.nRanks i j < g.nRanks ∧ K ra.1 (putOffset ra.1 g.nRanks i j))
    (hw : Holds g S K w) :
    Holds g S
      (fun r s => K r s ∨
        ∃ ra ∈ l, r = ra.2.peer ∧ ra.2.remoteDst = g.recvbuff r + s * g.segSize)
      (runPuts l w) := by
  induction l generalizing K w with
  | nil =>
    exact holds_mono g S _ _ _ hw (fun r _ s _ h => by
      rcases h with h | ⟨ra, hra, _⟩
      · exact h
      · cases hra)
  | cons ra rest ih =>
    obtain ⟨hsrc, j, _, hra, hoff, hK⟩ := hl ra (List.mem_cons_self _ _)
    have h1 := holds_applyPut g S K w ra.1 i j hfit hsep (hctrl ra.1 hsrc) hsrc hoff hK hw
    rw [← hra] at h1
    have h2 := ih _ _ (fun rb hrb => by
      obtain ⟨hb1, j1, hj1, hb2, hb3, hb4⟩ := hl rb (List.mem_cons_of_mem _ hrb)
      exact ⟨hb1, j1, hj1, hb2, hb3, Or.inl hb4⟩) h1
    show Holds g S _ (runPuts rest (applyPut ra.1 ra.2 w))
    refine holds_mono g S _ _ _ h2 (fun r _ s _ h => ?_)
    rcases h with h | ⟨rb, hrb, hr1, hr2⟩
    · exact Or.inl (Or.inl h)
    · rcases List.mem_cons.1 hrb with rfl | hrb
      · exact Or.inl (Or.inr ⟨hr1, hr2⟩)
      · exact Or.inr ⟨rb, hrb, hr1, hr2⟩

/-- Residues modulo `2 * d` of numbers with the same residue modulo `d`. -/
theorem mod_double_cases (d r p s : Nat) (hpd : p % d = r % d)
    (hpar : (p / d) % 2 ≠ (r / d) % 2) (hs : s % d = r % d) :
    s % (d * 2) = r % (d * 2) ∨ s % (d * 2) = p % (d * 2) := by
  rw [Nat.mod_mul, Nat.mod_mul, Nat.mod_mul, hs, hpd]
  have h1 : s / d % 2 < 2 := Nat.mod_lt _ (by decide)
  have h2 : r / d % 2 < 2 := Nat.mod_lt _ (by decide)
  have h3 : p / d % 2 < 2 := Nat.mod_lt _ (by decide)
  by_cases h : s / d % 2 = r / d % 2
  · left; rw [h]
  · right
    have : s / d % 2 = p / d % 2 := by omega
    rw [this]

theorem peers_mod_dists (r n i : Nat) (hd : 0 < dists n i) :
    peers r n i % dists n i = r % dists n i ∧
    (peers r n i / dists n i) % 2 ≠ (r / dists n i) % 2 := by
  unfold peers
  generalize dists n i = d at hd
  by_cases h : (r / d) % 2 = 0
  · simp only [h, if_true]
    refine ⟨Nat.add_mod_right _ _, ?_⟩
    rw [Nat.add_div_right _ hd]
    omega
  · simp only [h, if_false]
    have hge : d ≤ r := by
      by_contra hlt
      rw [Nat.div_eq_of_lt (by omega)] at h
      simp at h
    have h1 : (r - d) + d = r := by omega
    have h2 : (r - d) % d = r % d := by
      conv_rhs => rw [← h1, Nat.add_mod_right]
    have h3 : r / d = (r - d) / d + 1 := by
      conv_lhs => rw [← h1, Nat.add_div_right _ hd]
    refine ⟨h2, ?_⟩
    omega

theorem mem_roundPuts (g : Group) (i : Nat) (hok : ∀ r, NoFailure g.x (g.mapper r))
    (hi : i < g.x.log2i g.nRanks) (ra : Nat × PutArgs) :
    ra ∈ g.roundPuts i ↔
      ra.1 < g.nRanks ∧ ∃ j, j < 2 ^ i ∧
        ra.2 = putArgs g.x (g.mapper ra.1) (g.op ra.1) i j := by
  unfold Group.roundPuts Group.run
  simp only [List.mem_flatMap, List.mem_range, List.mem_map]
  constructor
  · rintro ⟨r, hr, a, ha, rfl⟩
    rw [stepPuts_success g.x (g.mapper r) (g.op r) (hok r) i hi] at ha
    simp only [List.mem_map, List.mem_range] at ha
    obtain ⟨j, hj, rfl⟩ := ha
    exact ⟨hr, j, hj, rfl⟩
  · rintro ⟨hr, j, hj, ha⟩
    refine ⟨ra.1, hr, ra.2, ?_, rfl⟩
    rw [stepPuts_success g.x (g.mapper ra.1) (g.op ra.1) (hok ra.1) i hi, ha]
    exact List.mem_map.2 ⟨j, List.mem_range.2 hj, rfl⟩

theorem two_pow_div (k i : Nat) (hi : i ≤ k) : 2 ^ k / 2 ^ i = 2 ^ (k - i) :=
  Nat.pow_div hi (by decide)

/-- One lock-step round: from the segments known before step `i` to those known before
step `i + 1`. -/
theorem holds_round (g : Group) (S : Nat → Nat → Nat) (k i : Nat)
    (l : List (Nat × PutArgs)) (w : World)
    (hN : g.nRanks = 2 ^ k) (hlog : g.x.log2i (2 ^ k) = k)
    (hok : ∀ r, NoFailure g.x (g.mapper r))
    (hctrl : ∀ r, r < g.nRanks →
      (g.mapper r).remoteRecvBuffs i = g.recvbuff (peers r g.nRanks i))
    (hfit : g.nRanks * g.segSize < SIZE_MOD) (hsep : g.BuffersApart) (hi : i < k)
    (hperm : l.Perm (g.roundPuts i))
    (hw : Holds g S (knownBefore g.nRanks i) w) :
    Holds g S (knownBefore g.nRanks (i + 1)) (runPuts l w) := by
  have hsteps : i < g.x.log2i g.nRanks := by rw [hN, hlog]; exact hi
  have hpow : 2 ^ i ≤ g.nRanks := by
    rw [hN]; exact Nat.pow_le_pow_right (by decide) (by omega)
  have hM : g.nRanks / 2 ^ i = dists g.nRanks i * 2 := by
    rw [hN, dists_two_pow k i hi, two_pow_div k i (by omega), ← pow_succ]
    congr 1
    omega
  have hd : g.nRanks / 2 ^ (i + 1) = dists g.nRanks i := by
    rw [hN, dists_two_pow k i hi, two_pow_div k (i + 1) (by omega)]
  have hdpos : 0 < dists g.nRanks i := by
    rw [hN, dists_two_pow k i hi]; positivity
  have hoffset : ∀ r j, putOffset r g.nRanks i j =
      j * (g.nRanks / 2 ^ i) + r % (g.nRanks / 2 ^ i) := by
    intro r j
    simp [putOffset, Nat.shiftLeft_eq]
  have h1 := holds_runPuts g S i hfit hsep hctrl l (knownBefore g.nRanks i) w (fun ra hra => by
    obtain ⟨hr, j, hj, ha⟩ := (mem_roundPuts g i hok hsteps ra).1 (hperm.mem_iff.1 hra)
    refine ⟨hr, j, hj, ha, putOffset_lt _ _ _ _ hpow hj, ?_⟩
    unfold knownBefore
    rw [hoffset, Nat.mul_comm, Nat.mul_add_mod, Nat.mod_mod]) hw
  refine holds_mono g S _ _ _ h1 (fun r hr s hs hk => ?_)
  unfold knownBefore at hk
  rw [hd] at hk
  obtain ⟨hp1, hp2⟩ := peers_mod_dists r g.nRanks i hdpos
  have hplt : peers r g.nRanks i < g.nRanks := by
    rw [hN]; exact peers_two_pow_lt k r i (by rw [← hN]; exact hr) hi
  have hpp : peers (peers r g.nRanks i) g.nRanks i = r := by
    rw [hN]; exact peers_two_pow_peers k r i hi
  rcases mod_double_cases _ r _ s hp1 hp2 hk with h | h
  · left
    unfold knownBefore
    rw [hM]
    exact h
  · right
    rw [← hM] at h
    have hMpos : 0 < g.nRanks / 2 ^ i := Nat.div_pos hpow (by positivity)
    have hj : s / (g.nRanks / 2 ^ i) < 2 ^ i := by
      apply Nat.div_lt_of_lt_mul
      calc s < g.nRanks := hs
        _ = g.nRanks / 2 ^ i * 2 ^ i := by
          rw [hN, two_pow_div k i (by omega), ← pow_add]
          congr 1
          omega
    have hsoff : putOffset (peers r g.nRanks i) g.nRanks i (s / (g.nRanks / 2 ^ i)) = s := by
      rw [hoffset, ← h]
      exact Nat.div_add_mod' s _
    refine ⟨(peers r g.nRanks i,
      putArgs g.x (g.mapper (peers r g.nRanks i)) (g.op (peers r g.nRanks i)) i
        (s / (g.nRanks / 2 ^ i))), ?_, ?_, ?_⟩
    · exact hperm.mem_iff.2 ((mem_roundPuts g i hok hsteps _).2 ⟨hplt, _, hj, rfl⟩)
    · exact hpp.symm
    · show (g.mapper (peers r g.nRanks i)).remoteRecvBuffs i +
        sizeMul (putOffset (peers r g.nRanks i) g.nRanks i (s / (g.nRanks / 2 ^ i)))
          g.segSize = _
      rw [hctrl _ hplt, hpp, hsoff]
      congr 1
      apply Nat.mod_eq_of_lt
      have := seg_le_total g.segSize g.nRanks s hs
      omega

/-- Lock-step execution of the first `n` steps. -/
theorem holds_lockStep (g : Group) (S : Nat → Nat → Nat) (k : Nat)
    (sched : Nat → List (Nat × PutArgs)) (w : World)
    (hN : g.nRanks = 2 ^ k) (hlog : g.x.log2i (2 ^ k) = k)
    (hok : ∀ r, NoFailure g.x (g.mapper r))
    (hctrl : ∀ r, r < g.nRanks → ∀ i, i < k →
      (g.mapper r).remoteRecvBuffs i = g.recvbuff (peers r g.nRanks i))
    (hfit : g.nRanks * g.segSize < SIZE_MOD) (hsep : g.BuffersApart)
    (hsched : ∀ i, i < k → (sched i).Perm (g.roundPuts i))
    (hw : Holds g S (knownBefore g.nRanks 0) w) (n : Nat) (hn : n ≤ k) :
    Holds g S (knownBefore g.nRanks n) (lockStep sched n w) := by
  induction n with
  | zero => exact hw
  | succ n ih =>
    have h1 := ih (by omega)
    unfold lockStep at h1 ⊢
    rw [List.range_succ, List.foldl_append]
    exact holds_round g S k n (sched n) _ hN hlog hok (fun r hr => hctrl r hr n (by omega))
      hfit hsep (by omega) (hsched n (by omega)) h1

/-- C1: for a group of `nRanks = 2 ^ k` ranks (`k >= 0`, `log2i (2 ^ k) = k`) and any
send data `S r` of the ranks: if initially every rank's send buffer holds `S r` and segment
`r` of its receive buffer holds `S r` too, if no primitive fails, the control receive of
step `i` delivers the partner's receive-buffer address, the receive buffer has a
representable size and the send buffer is either in place or apart from it, then after all
ranks have run the puts of steps `0 .. k - 1` of `impl` in lock-step (the puts of a step in
any order, all landing before the next step starts), segment `i` of every rank's receive
buffer holds `S i`, for every `i < nRanks`. -/
theorem allgather_round_trip (g : Group) (k : Nat) (S : Nat → Nat → Nat)
    (sched : Nat → List (Nat × PutArgs)) (w : World)
    (hN : g.nRanks = 2 ^ k) (hlog : g.x.log2i (2 ^ k) = k)
    (hok : ∀ r, NoFailure g.x (g.mapper r))
    (hctrl : ∀ r, r < g.nRanks → ∀ i, i < k →
      (g.mapper r).remoteRecvBuffs i = g.recvbuff (peers r g.nRanks i))
    (hfit : g.nRanks * (g.sendcount * g.x.ncclTypeSize g.datatype) < SIZE_MOD)
    (hsep : g.BuffersApart)
    (hsched : ∀ i, i < k → (sched i).Perm (g.roundPuts i))
    (hsend : ∀ r, r < g.nRanks → ∀ b, b < g.segSize → w r (g.sendbuff r + b) = S r b)
    (hown : ∀ r, r < g.nRanks → ∀ b, b < g.segSize →
      w r (g.recvbuff r + r * g.segSize + b) = S r b) :
    ∀ r, r < g.nRanks → ∀ i, i < g.nRanks → ∀ b, b < g.segSize →
      lockStep sched k w r (g.recvbuff r + i * g.segSize + b) = S i b := by
  have hpos : 0 < g.nRanks := by rw [hN]; positivity
  have hseg : g.segSize = g.sendcount * g.x.ncclTypeSize g.datatype := by
    unfold Group.segSize sizeMul
    apply Nat.mod_eq_of_lt
    calc g.sendcount * g.x.ncclTypeSize g.datatype
        ≤ g.nRanks * (g.sendcount * g.x.ncclTypeSize g.datatype) :=
          Nat.le_mul_of_pos_left _ hpos
      _ < SIZE_MOD := hfit
  have hfit1 : g.nRanks * g.segSize < SIZE_MOD := by rw [hseg]; exact hfit
  have h0 : Holds g S (knownBefore g.nRanks 0) w := by
    intro r hr
    refine ⟨hsend r hr, ?_⟩
    intro s hs hk b hb
    unfold knownBefore at hk
    rw [pow_zero, Nat.div_one, Nat.mod_eq_of_lt hs, Nat.mod_eq_of_lt hr] at hk
    subst hk
    exact hown s hr b hb
  have hk := holds_lockStep g S k sched w hN hlog hok hctrl hfit1 hsep hsched h0 k le_rfl
  intro r hr i hi b hb
  refine (hk r hr).2 i hi ?_ b hb
  unfold knownBefore
  rw [hN, Nat.div_self (by positivity), Nat.mod_one, Nat.mod_one]

theorem allgather_round_trip_witness :
    (demoGroup.nRanks = 2 ^ 2 ∧ demoGroup.x.log2i (2 ^ 2) = 2 ∧
      (∀ r, NoFailure demoGroup.x (demoGroup.mapper r)) ∧
      (∀ r, r < demoGroup.nRanks → ∀ i, i < 2 →
        (demoGroup.mapper r).remoteRecvBuffs i =
          demoGroup.recvbuff (peers r demoGroup.nRanks i)) ∧
      demoGroup.nRanks * (demoGroup.sendcount * demoGroup.x.ncclTypeSize demoGroup.datatype)
        < SIZE_MOD ∧
      demoGroup.BuffersApart ∧
      (∀ r, r < demoGroup.nRanks → ∀ b, b < demoGroup.segSize →
        demoWorld r (demoGroup.sendbuff r + b) = 100 * r + 1) ∧
      (∀ r, r < demoGroup.nRanks → ∀ b, b < demoGroup.segSize →
        demoWorld r (demoGroup.recvbuff r + r * demoGroup.segSize + b) = 100 * r + 1)) ∧
    (∀ r, r < demoGroup.nRanks → ∀ i, i < demoGroup.nRanks → ∀ b, b < demoGroup.segSize →
      lockStep demoGroup.roundPuts 2 demoWorld r
        (demoGroup.recvbuff r + i * demoGroup.segSize + b) = 100 * i + 1) :=
  have hseg : demoGroup.segSize = 8 := by decide
  have hfit : demoGroup.nRanks *
      (demoGroup.sendcount * demoGroup.x.ncclTypeSize demoGroup.datatype) < SIZE_MOD := by
    decide
  have hsep : demoGroup.BuffersApart := by
    intro r _
    rw [hseg]
    right; left
    show 100 + 10 * r + 8 ≤ 1000 * (r + 1)
    omega
  have hsend : ∀ r, r < demoGroup.nRanks → ∀ b, b < demoGroup.segSize →
      demoWorld r (demoGroup.sendbuff r + b) = 100 * r + 1 := by
    intro r _ b hb
    rw [hseg] at hb
    show (if (100 + 10 * r ≤ 100 + 10 * r + b ∧ 100 + 10 * r + b < 100 + 10 * r + 8) ∨ _
      then 100 * r + 1 else 0) = _
    rw [if_pos (Or.inl ⟨by omega, by omega⟩)]
  have hown : ∀ r, r < demoGroup.nRanks → ∀ b, b < demoGroup.segSize →
      demoWorld r (demoGroup.recvbuff r + r * demoGroup.segSize + b) = 100 * r + 1 := by
    intro r _ b hb
    rw [hseg] at hb ⊢
    show (if _ ∨ (1000 * (r + 1) + r * 8 ≤ 1000 * (r + 1) + r * 8 + b ∧
        1000 * (r + 1) + r * 8 + b < 1000 * (r + 1) + r * 8 + 8)
      then 100 * r + 1 else 0) = _
    rw [if_pos (Or.inr ⟨by omega, by omega⟩)]
  ⟨⟨rfl, by decide, fun _ _ _ => rfl, fun _ _ _ _ => rfl, hfit, hsep, hsend, hown⟩,
    allgather_round_trip demoGroup 2 (fun r _ => 100 * r + 1) demoGroup.roundPuts demoWorld
      rfl (by decide) (fun _ _ _ => rfl) (fun _ _ _ _ => rfl) hfit hsep
      (fun _ _ => List.Perm.refl _) hsend hown⟩

/-! ## Failure of a primitive -/

theorem lastResult_append (r0 : ncclResult_t) (a b : List Event) :
    lastResult r0 (a ++ b) = lastResult (lastResult r0 a) b := by
  induction a generalizing r0 with
  | nil => rfl
  | cons e a ih =>
    cases e with
    | call c r => exact ih r
    | note n => exact ih r0

theorem exec_res (x : Externs) (m : CtranMapper) (is : List Instr) (s : ImplState) :
    (exec x m is s).2.res = lastResult s.res (runEvents x m is s.trace) := by
  induction is generalizing s with
  | nil => rfl
  | cons a as ih =>
    rw [exec_cons, ImplM.bind_apply]
    cases a with
    | checked c =>
      simp only [step, NCCLCHECKGOTO, runEvents]
      by_cases hf : x.checkFails (m.result s.trace c) = true
      · simp [hf, lastResult]
      · simp only [hf, if_false, Bool.false_eq_true]
        rw [ih]
        rfl
    | note n =>
      simp only [step, emit, runEvents]
      rw [ih]
      rfl

/-- The value `impl` returns is the result of the last checked call of the run. -/
theorem impl_res (x : Externs) (m : CtranMapper) (op : OpElem) :
    (impl x m op).1 = lastResult ncclSuccess (impl x m op).2 := by
  rw [impl_trace]
  simp only [impl, implBody_eq_exec]
  exact exec_res x m _ _

/-- A checked call that failed the check is the last event of the run. -/
theorem impl_failed_last (x : Externs) (m : CtranMapper) (op : OpElem)
    (pre post : List Event) (c : Call) (r : ncclResult_t)
    (hsplit : (impl x m op).2 = pre ++ Event.call c r :: post)
    (hfail : x.checkFails r = true) : post = [] := by
  by_contra hne
  have h := impl_passed x m op (pre ++ [Event.call c r]) post c r (by rw [hsplit]; simp) hne
    (by simp)
  rw [hfail] at h
  cases h

theorem pushTimestamp_not_mem_stepScript (x : Externs) (m : CtranMapper) (op : OpElem)
    (i : Nat) : Instr.note Note.pushTimestamp ∉ stepScript x m op i := by
  have hput : Instr.note Note.pushTimestamp ∉ putScript x m op i := by
    unfold putScript
    simp only [List.mem_flatMap, List.mem_cons, not_exists, not_and]
    intro j _ h
    rcases h with h | h
    · simp at h
    · split at h <;> simp at h
  unfold stepScript
  cases x.NCCL_CTRAN_AG_RD_RTR <;> simp [hput]

/-- The script ends with the two notes of lines 144-145, and the timestamp record is handed
over nowhere before. -/
theorem implScript_end (x : Externs) (m : CtranMapper) (op : OpElem) :
    ∃ A, implScript x m op =
        A ++ [Instr.note Note.pushTimestamp, Instr.note Note.reportProfiling] ∧
      Instr.note Note.pushTimestamp ∉ A := by
  refine ⟨[Instr.checked (Call.searchRegHandle op.sendbuff (sendSize x op)),
      Instr.checked (Call.searchRegHandle op.recvbuff
        (sizeMul op.comm.nRanks (sendSize x op)))] ++
    (List.range (nSteps x op)).flatMap (ctrlScript x m op) ++
    (List.range (nSteps x op)).flatMap (stepScript x m op) ++
    ((List.range (nSteps x op)).flatMap
        (fun i => [Instr.checked (Call.wait (Req.isendReq i))]) ++
      (if m.localRegSend = true then [Instr.checked (Call.deregMem m.sendHdl)] else []) ++
      (if m.localRegRecv = true then [Instr.checked (Call.deregMem m.recvHdl)] else [])),
    ?_, ?_⟩
  · unfold implScript tailScript
    simp only [List.append_assoc]
  · simp only [List.mem_append, List.mem_flatMap, List.mem_range,
      pushTimestamp_not_mem_stepScript, and_false, exists_false, or_false, false_or]
    unfold ctrlScript
    cases x.NCCL_CTRAN_AG_RD_RTR <;> cases m.localRegSend <;> cases m.localRegRecv <;> simp

theorem mem_of_split_after {α : Type} (P Q A B : List α) (x : α)
    (h : P ++ x :: Q = A ++ x :: B) (hx : x ∉ A) : ∀ y ∈ Q, y ∈ B := by
  rcases List.append_eq_append_iff.1 h with ⟨a, ha, ha2⟩ | ⟨b, _, hb2⟩
  · cases a with
    | nil =>
      simp only [List.nil_append, List.cons.injEq, true_and] at ha2
      rw [ha2]
      exact fun _ hy => hy
    | cons z a =>
      simp only [List.cons_append, List.cons.injEq] at ha2
      exact absurd (by rw [ha, ← ha2.1]; simp) hx
  · cases b with
    | nil =>
      simp only [List.nil_append, List.cons.injEq, true_and] at hb2
      rw [hb2]
      exact fun _ hy => hy
    | cons z b =>
      simp only [List.cons_append, List.cons.injEq] at hb2
      rw [hb2.2]
      intro y hy
      simp [hy]

/-- When the timestamp record was handed to the mapper, every checked call of the run had
passed the check. -/
theorem all_passed_of_pushTimestamp (x : Externs) (m : CtranMapper) (op : OpElem)
    (hpush : Event.note Note.pushTimestamp ∈ (impl x m op).2)
    (c : Call) (r : ncclResult_t) (hc : Event.call c r ∈ (impl x m op).2) :
    x.checkFails r = false := by
  obtain ⟨pre, post, hsplit⟩ := List.append_of_mem hpush
  obtain ⟨A, hA, hnot⟩ := implScript_end x m op
  obtain ⟨t, ht⟩ := impl_instr_initial x m op
  rw [hsplit, hA] at ht
  simp only [List.map_append, List.map_cons, Event.instr, List.append_assoc,
    List.cons_append] at ht
  have hafter := mem_of_split_after _ _ _ _ _ ht hnot
  rw [hsplit] at hc
  rcases List.mem_append.1 hc with h | h
  · exact impl_passed x m op pre _ c r hsplit (by simp) h
  · rcases List.mem_cons.1 h with h | h
    · cases h
    · have := hafter (Instr.checked c)
        (List.mem_append_left _ (List.mem_map.2 ⟨_, h, rfl⟩))
      simp at this

/-- C12: if a primitive invoked by `impl` returns a result that fails the check of
`NCCLCHECKGOTO`, it is the last event of the run (no further primitive, no retry, no later
put), `impl` returns that same result, and the timestamp record is not appended.  If `impl`
returns `ncclSuccess`, every primitive it invoked passed the check (given that `ncclSuccess`
passes it), and returned `ncclSuccess` (given that only `ncclSuccess` passes it). -/
theorem fail_fast (x : Externs) (m : CtranMapper) (op : OpElem) :
    (∀ pre c r post, (impl x m op).2 = pre ++ Event.call c r :: post →
      x.checkFails r = true →
      post = [] ∧ (impl x m op).1 = r ∧
        Event.note Note.pushTimestamp ∉ (impl x m op).2) ∧
    ((impl x m op).1 = ncclSuccess → x.checkFails ncclSuccess = false →
      ∀ c r, Event.call c r ∈ (impl x m op).2 → x.checkFails r = false) ∧
    ((impl x m op).1 = ncclSuccess → (∀ r, x.checkFails r = false → r = ncclSuccess) →
      ∀ c r, Event.call c r ∈ (impl x m op).2 → r = ncclSuccess) := by
  have hlast : ∀ pre c r, (impl x m op).2 = pre ++ [Event.call c r] → (impl x m op).1 = r := by
    intro pre c r h
    rw [impl_res, h, lastResult_append]
    rfl
  have hcases : ∀ c r, Event.call c r ∈ (impl x m op).2 →
      x.checkFails r = false ∨ (impl x m op).1 = r := by
    intro c r hc
    obtain ⟨pre, post, hsplit⟩ := List.append_of_mem hc
    cases post with
    | nil => exact Or.inr (hlast pre c r hsplit)
    | cons e post =>
      left
      exact impl_passed x m op (pre ++ [Event.call c r]) (e :: post) c r
        (by rw [hsplit]; simp) (by simp) (by simp)
  refine ⟨?_, ?_, ?_⟩
  · intro pre c r post hsplit hfail
    have hpost := impl_failed_last x m op pre post c r hsplit hfail
    subst hpost
    refine ⟨rfl, hlast pre c r hsplit, ?_⟩
    intro hpush
    have := all_passed_of_pushTimestamp x m op hpush c r (by rw [hsplit]; simp)
    rw [hfail] at this
    cases this
  · intro hres hsucc c r hc
    rcases hcases c r hc with h | h
    · exact h
    · rw [← h, hres]
      exact hsucc
  · intro hres honly c r hc
    rcases hcases c r hc with h | h
    · exact honly r h
    · rw [← h, hres]

theorem fail_fast_witness :
    ((impl demoExterns leakMapper demoOp).2 =
        (impl demoExterns leakMapper demoOp).2.take 11 ++
          Event.call (Call.waitNotify 3) 5 :: [] ∧
      demoExterns.checkFails 5 = true) ∧
    (([] : List Event) = [] ∧ (impl demoExterns leakMapper demoOp).1 = 5 ∧
      Event.note Note.pushTimestamp ∉ (impl demoExterns leakMapper demoOp).2) :=
  have hsplit : (impl demoExterns leakMapper demoOp).2 =
      (impl demoExterns leakMapper demoOp).2.take 11 ++
        Event.call (Call.waitNotify 3) 5 :: [] := by
    rw [impl_trace]
    decide
  ⟨⟨hsplit, rfl⟩,
    (fail_fast demoExterns leakMapper demoOp).1 _ _ _ _ hsplit rfl⟩

/-- C11: the run of rank 1 of 4 in which both registrations were created locally and the
first `waitNotify` fails: `impl` returns the failure code and has called `deregMem` on
neither handle. -/
theorem local_registration_not_released :
    leakMapper.localRegSend = true ∧ leakMapper.localRegRecv = true ∧
    (impl demoExterns leakMapper demoOp).1 = 5 ∧
    demoExterns.checkFails (impl demoExterns leakMapper demoOp).1 = true ∧
    deregsOf (impl demoExterns leakMapper demoOp).2 = [] := by
  have htrace : (impl demoExterns leakMapper demoOp).2 =
      (impl demoExterns leakMapper demoOp).2.take 11 ++ [Event.call (Call.waitNotify 3) 5] := by
    rw [impl_trace]
    decide
  have hres : (impl demoExterns leakMapper demoOp).1 = 5 := by
    rw [impl_res, htrace, lastResult_append]
    rfl
  refine ⟨rfl, rfl, hres, ?_, ?_⟩
  · rw [hres]
    rfl
  · rw [impl_trace]
    decide

/-! ## The entry point -/

/-- C13: an out-of-place call of `ctranAllGatherRd` in which `icopy` returns the failing
code 5 and `submit` succeeds: the copy was issued, its result fails the check, and
`ctranAllGatherRd` returns `ncclSuccess`.  (A failing `submit`, code 7, is returned.) -/
theorem icopy_failure_not_propagated :
    EntryCall.icopy 1008 100 8 0 ∈
      (ctranAllGatherRd demoExterns entryCopyFails 100 1000 2 0 demoOp.comm 0).2 ∧
    demoExterns.checkFails 5 = true ∧
    (ctranAllGatherRd demoExterns entryCopyFails 100 1000 2 0 demoOp.comm 0).1 = ncclSuccess ∧
    (ctranAllGatherRd demoExterns entrySubmitFails 100 1000 2 0 demoOp.comm 0).1 = 7 := by
  decide

/-- The address of the caller's own segment: `recvbuff + rank * sendcount * typeSize` in
`uintptr_t` arithmetic. -/
theorem ownSegment_eq (x : Externs) (recvbuff sendcount datatype : Nat) (comm : ncclComm) :
    ownSegment x recvbuff sendcount datatype comm =
      (recvbuff + comm.rank * sendcount * x.ncclTypeSize datatype) % 2 ^ 64 := by
  unfold ownSegment sizeMul UINTPTR_MOD SIZE_MOD
  rw [Nat.mod_mul_mod, Nat.add_mod_mod]

/-- C20: `ctranAllGatherRd` schedules the local copy if and only if
`recvbuff + rank * sendcount * typeSize != sendbuff` (the sum and the byte count taken in
64-bit unsigned arithmetic, exact when they do not wrap); when it does, it is one copy of
`sendcount * typeSize` bytes from `sendbuff` to `recvbuff + rank * sendcount * typeSize` on
the caller's stream, issued before the submission; for an in-place call there is none.  In
both cases it submits exactly one operation group, holding one `ALLGATHER` descriptor that
carries `sendbuff`, `recvbuff`, `sendcount`, `datatype` and the communicator unchanged. -/
theorem copy_only_out_of_place (x : Externs) (env : EntryEnv)
    (sendbuff recvbuff sendcount datatype : Nat) (comm : ncclComm) (stream : Nat) :
    ((∃ dst src len st, EntryCall.icopy dst src len st ∈
        (ctranAllGatherRd x env sendbuff recvbuff sendcount datatype comm stream).2) ↔
      (recvbuff + comm.rank * sendcount * x.ncclTypeSize datatype) % 2 ^ 64 ≠ sendbuff) ∧
    ((recvbuff + comm.rank * sendcount * x.ncclTypeSize datatype) % 2 ^ 64 ≠ sendbuff →
      copiesOf (ctranAllGatherRd x env sendbuff recvbuff sendcount datatype comm stream).2 =
        [EntryCall.icopy
          ((recvbuff + comm.rank * sendcount * x.ncclTypeSize datatype) % 2 ^ 64) sendbuff
          (sendcount * x.ncclTypeSize datatype % 2 ^ 64) stream] ∧
      (ctranAllGatherRd x env sendbuff recvbuff sendcount datatype comm stream).2.head? =
        some (EntryCall.icopy
          ((recvbuff + comm.rank * sendcount * x.ncclTypeSize datatype) % 2 ^ 64) sendbuff
          (sendcount * x.ncclTypeSize datatype % 2 ^ 64) stream)) ∧
    ((recvbuff + comm.rank * sendcount * x.ncclTypeSize datatype) % 2 ^ 64 = sendbuff →
      copiesOf (ctranAllGatherRd x env sendbuff recvbuff sendcount datatype comm stream).2 =
        []) ∧
    (recvbuff + comm.rank * sendcount * x.ncclTypeSize datatype < 2 ^ 64 →
      sendcount * x.ncclTypeSize datatype < 2 ^ 64 →
      copiesOf (ctranAllGatherRd x env sendbuff recvbuff sendcount datatype comm stream).2 =
        if recvbuff + comm.rank * sendcount * x.ncclTypeSize datatype ≠ sendbuff then
          [EntryCall.icopy (recvbuff + comm.rank * sendcount * x.ncclTypeSize datatype)
            sendbuff (sendcount * x.ncclTypeSize datatype) stream]
        else []) ∧
    submittedOf (ctranAllGatherRd x env sendbuff recvbuff sendcount datatype comm stream).2 =
      [[{ type := opType.ALLGATHER
          op := { sendbuff := sendbuff, recvbuff := recvbuff, sendcount := sendcount,
                  datatype := datatype, comm := comm } }]] := by
  have hcalls : (ctranAllGatherRd x env sendbuff recvbuff sendcount datatype comm stream).2 =
      (if (recvbuff + comm.rank * sendcount * x.ncclTypeSize datatype) % 2 ^ 64 ≠ sendbuff then
        [EntryCall.icopy
          ((recvbuff + comm.rank * sendcount * x.ncclTypeSize datatype) % 2 ^ 64) sendbuff
          (sendcount * x.ncclTypeSize datatype % 2 ^ 64) stream]
      else []) ++
      [EntryCall.submit
        [{ type := opType.ALLGATHER
           op := { sendbuff := sendbuff, recvbuff := recvbuff, sendcount := sendcount,
                   datatype := datatype, comm := comm } }]
        { type := opType.ALLGATHER, stream := stream, sendbuff := sendbuff,
          recvbuff := recvbuff, nbytes := sendcount * x.ncclTypeSize datatype % 2 ^ 64,
          devState_d := env.devState_d }] := by
    have hseg : ownSegment x recvbuff sendcount datatype comm =
        (recvbuff + comm.rank * sendcount * x.ncclTypeSize datatype) % 2 ^ 64 := by
      unfold ownSegment sizeMul UINTPTR_MOD SIZE_MOD
      rw [Nat.mod_mul_mod, Nat.add_mod_mod]
    unfold ctranAllGatherRd
    simp only [hseg]
    unfold sizeMul SIZE_MOD
    split <;> rfl
  rw [hcalls]
  have hA : recvbuff + comm.rank * sendcount * x.ncclTypeSize datatype < 2 ^ 64 →
      recvbuff + comm.rank * sendcount * x.ncclTypeSize datatype =
        (recvbuff + comm.rank * sendcount * x.ncclTypeSize datatype) % 2 ^ 64 :=
    fun h1 => (Nat.mod_eq_of_lt h1).symm
  have hL : sendcount * x.ncclTypeSize datatype < 2 ^ 64 →
      sendcount * x.ncclTypeSize datatype = sendcount * x.ncclTypeSize datatype % 2 ^ 64 :=
    fun h2 => (Nat.mod_eq_of_lt h2).symm
  generalize (recvbuff + comm.rank * sendcount * x.ncclTypeSize datatype) % 2 ^ 64 = A at hA ⊢
  generalize sendcount * x.ncclTypeSize datatype % 2 ^ 64 = L at hL ⊢
  by_cases h : A = sendbuff
  · refine ⟨?_, ?_, ?_, ?_, ?_⟩
    · simp [h]
    · intro hne
      exact absurd h hne
    · intro _
      simp [h, copiesOf]
    · intro h1 h2
      rw [hA h1, hL h2]
      simp [h, copiesOf]
    · simp [h, submittedOf]
  · refine ⟨?_, ?_, ?_, ?_, ?_⟩
    · simp [h]
    · intro _
      simp [h, copiesOf]
    · intro heq
      exact absurd heq h
    · intro h1 h2
      rw [hA h1, hL h2]
      simp [h, copiesOf]
    · simp [h, submittedOf]

theorem copy_only_out_of_place_witness :
    ((1000 + demoOp.comm.rank * 2 * demoExterns.ncclTypeSize 0) % 2 ^ 64 ≠ 100 ∧
      copiesOf (ctranAllGatherRd demoExterns entryOk 100 1000 2 0 demoOp.comm 9).2 =
        [EntryCall.icopy 1008 100 8 9] ∧
      (ctranAllGatherRd demoExterns entryOk 100 1000 2 0 demoOp.comm 9).2.head? =
        some (EntryCall.icopy 1008 100 8 9)) ∧
    ((1000 + demoOp.comm.rank * 2 * demoExterns.ncclTypeSize 0) % 2 ^ 64 = 1008 ∧
      copiesOf (ctranAllGatherRd demoExterns entryOk 1008 1000 2 0 demoOp.comm 9).2 = []) ∧
    ((1000 + demoOp.comm.rank * 2 * demoExterns.ncclTypeSize 0 < 2 ^ 64 ∧
        2 * demoExterns.ncclTypeSize 0 < 2 ^ 64) ∧
      copiesOf (ctranAllGatherRd demoExterns entryOk 100 1000 2 0 demoOp.comm 9).2 =
        [EntryCall.icopy (1000 + 1 * 2 * 4) 100 (2 * 4) 9]) :=
  ⟨⟨by decide,
      (copy_only_out_of_place demoExterns entryOk 100 1000 2 0 demoOp.comm 9).2.1
        (by decide)⟩,
    ⟨by decide,
      (copy_only_out_of_place demoExterns entryOk 1008 1000 2 0 demoOp.comm 9).2.2.1
        (by decide)⟩,
    ⟨⟨by decide, by decide⟩,
      (copy_only_out_of_place demoExterns entryOk 100 1000 2 0 demoOp.comm 9).2.2.2.1
        (by decide) (by decide)⟩⟩

/-! ## The number of steps -/

theorem countP_stepCalls (x : Externs) (m : CtranMapper) (op : OpElem) (i : Nat) :
    (stepCalls x m op i).countP Call.isWaitNotify = 1 := by
  have hputs : ((List.range (2 ^ i)).map
      (fun j => Call.iput (putArgs x m op i j))).countP Call.isWaitNotify = 0 := by
    rw [List.countP_eq_zero]
    intro c hc
    obtain ⟨j, _, rfl⟩ := List.mem_map.1 hc
    simp [Call.isWaitNotify]
  unfold stepCalls
  cases x.NCCL_CTRAN_AG_RD_RTR <;>
    simp [List.countP_append, hputs, List.countP_cons, Call.isWaitNotify]

theorem countP_flatMap_stepCalls (x : Externs) (m : CtranMapper) (op : OpElem)
    (l : List Nat) :
    (l.flatMap (stepCalls x m op)).countP Call.isWaitNotify = l.length := by
  induction l with
  | nil => rfl
  | cons i l ih =>
    rw [List.flatMap_cons, List.countP_append, countP_stepCalls, ih, List.length_cons]
    omega

theorem countP_setupCalls (x : Externs) (m : CtranMapper) (op : OpElem) :
    (setupCalls x m op).countP Call.isWaitNotify = 0 := by
  rw [List.countP_eq_zero]
  intro c hc
  unfold setupCalls at hc
  simp only [List.mem_append, List.mem_flatMap, List.mem_range, List.mem_cons] at hc
  rcases hc with (rfl | rfl | h) | ⟨i, _, rfl | h⟩
  · simp [Call.isWaitNotify]
  · simp [Call.isWaitNotify]
  · cases h
  · simp [Call.isWaitNotify]
  · split at h
    · simp only [List.mem_singleton] at h
      subst h
      simp [Call.isWaitNotify]
    · cases h

theorem countP_wrapUpCalls (x : Externs) (m : CtranMapper) (op : OpElem) :
    (wrapUpCalls x m op).countP Call.isWaitNotify = 0 := by
  rw [List.countP_eq_zero]
  intro c hc
  unfold wrapUpCalls at hc
  simp only [List.mem_append, List.mem_map, List.mem_range] at hc
  rcases hc with (⟨i, _, rfl⟩ | h) | h
  · simp [Call.isWaitNotify]
  · split at h
    · simp only [List.mem_singleton] at h
      subst h
      simp [Call.isWaitNotify]
    · cases h
  · split at h
    · simp only [List.mem_singleton] at h
      subst h
      simp [Call.isWaitNotify]
    · cases h

/-- A run without failure completes `nSteps` steps. -/
theorem stepsPerformed_success (x : Externs) (m : CtranMapper) (op : OpElem)
    (hok : NoFailure x m) : stepsPerformed (impl x m op).2 = nSteps x op := by
  unfold stepsPerformed
  rw [callsOf_eq, impl_instr_success x m op hok, implScript_calls, List.countP_append,
    List.countP_append, countP_setupCalls, countP_wrapUpCalls, countP_flatMap_stepCalls,
    List.length_range]
  omega

theorem clog_two_three : Nat.clog 2 3 = 2 := by
  have h1 : Nat.clog 2 3 ≤ 2 := (Nat.le_pow_iff_clog_le (by decide)).1 (by decide)
  have h2 : 1 < Nat.clog 2 3 := (Nat.pow_lt_iff_lt_clog (by decide)).1 (by decide)
  omega

/-- C14 as stated fails for a group of 3 ranks, whatever `log2i` returns:
`ceil(log2(3)) = 2`, and with `nSteps = 2` the distance of step 1 is
`dists[1] = 3 / (2 << 1) = 0`, by which line 48 divides. -/
theorem steps_not_ceil_at_three :
    1 ≤ threeOp.comm.nRanks ∧ ¬ ∃ x m, StepsAreCeilLog2 x m threeOp := by
  refine ⟨by decide, ?_⟩
  rintro ⟨x, m, hsteps, hdef, _⟩
  have h2 : nSteps x threeOp = 2 := by
    rw [hsteps]
    exact clog_two_three
  unfold partnersDefined at hdef
  rw [h2, List.all_eq_true] at hdef
  have h1 := hdef 1 (by decide)
  revert h1
  decide

/-- C14, amended: for a power-of-two group size `nRanks = 2 ^ k` and a `log2i` that is
exact at powers of two (as the ceiling of the spec and the integer logarithm both are),
`nSteps = k = ceil(log2(nRanks))`, every divisor of lines 48 and 94 is at least 1 at every
step, and a run of `impl` without failure performs exactly `k` exchange steps. -/
theorem steps_ceil_log2_pow_two (x : Externs) (m : CtranMapper) (op : OpElem) (k : Nat)
    (hn : op.comm.nRanks = 2 ^ k) (hlog : x.log2i (2 ^ k) = k) :
    log2iSpec (2 ^ k) = k ∧ Nat.log 2 (2 ^ k) = k ∧
    Nat.clog 2 op.comm.nRanks = k ∧
    StepsAreCeilLog2 x m op ∧
    (∀ i, i < nSteps x op →
      1 ≤ dists op.comm.nRanks i ∧ 1 ≤ op.comm.nRanks / (1 <<< i)) ∧
    (NoFailure x m → stepsPerformed (impl x m op).2 = k) := by
  have hclog : Nat.clog 2 (2 ^ k) = k := Nat.clog_pow 2 k (by decide)
  have hsteps : nSteps x op = k := by
    unfold nSteps
    rw [hn, hlog]
  have hdiv : ∀ i, i < nSteps x op →
      1 ≤ dists op.comm.nRanks i ∧ 1 ≤ op.comm.nRanks / (1 <<< i) := by
    intro i hi
    rw [hsteps] at hi
    rw [hn, dists_two_pow k i hi, Nat.shiftLeft_eq, one_mul, two_pow_div k i (by omega)]
    exact ⟨Nat.one_le_two_pow, Nat.one_le_two_pow⟩
  refine ⟨hclog, Nat.log_pow (by decide) k, by rw [hn]; exact hclog, ⟨?_, ?_, ?_⟩, hdiv, ?_⟩
  · rw [hsteps, hn, hclog]
  · unfold partnersDefined
    rw [List.all_eq_true]
    intro i hi
    have h1 := (hdiv i (List.mem_range.1 hi)).1
    exact decide_eq_true (by omega)
  · intro hok
    rw [stepsPerformed_success x m op hok, hsteps, hn, hclog]
  · intro hok
    rw [stepsPerformed_success x m op hok, hsteps]

theorem steps_ceil_log2_pow_two_witness :
    (demoOp.comm.nRanks = 2 ^ 2 ∧ specExterns.log2i (2 ^ 2) = 2) ∧
    (log2iSpec (2 ^ 2) = 2 ∧ Nat.log 2 (2 ^ 2) = 2 ∧
    Nat.clog 2 demoOp.comm.nRanks = 2 ∧
    StepsAreCeilLog2 specExterns demoMapper demoOp ∧
    (∀ i, i < nSteps specExterns demoOp →
      1 ≤ dists demoOp.comm.nRanks i ∧ 1 ≤ demoOp.comm.nRanks / (1 <<< i)) ∧
    (NoFailure specExterns demoMapper →
      stepsPerformed (impl specExterns demoMapper demoOp).2 = 2)) :=
  ⟨⟨rfl, Nat.clog_pow 2 2 (by decide)⟩,
    steps_ceil_log2_pow_two specExterns demoMapper demoOp 2 rfl
      (Nat.clog_pow 2 2 (by decide))⟩

/-! ## Bit distance of the partner -/

/-- C15, as stated, fails: in a group of 4 the step-0 partner of rank 0 is rank 2, not
`0 XOR 2 ^ 0 = 1`. -/
theorem partner_not_at_two_pow_step :
    ¬ (peers 0 (2 ^ 2) 0 = 0 ^^^ 2 ^ 0) := by
  decide

/-- C15, amended: for `nRanks = 2 ^ k`, `rank < nRanks` and `i < k`, the partner of step
`i` is at bit-distance `2 ^ (k - 1 - i)`: `peers[i] = rank XOR 2 ^ (k - 1 - i)`; the partner
at bit-distance `2 ^ i` is the one of step `k - 1 - i`. -/
theorem partner_bit_distance (k rank i : Nat) (hr : rank < 2 ^ k) (hi : i < k) :
    peers rank (2 ^ k) i = rank ^^^ 2 ^ (k - 1 - i) ∧
    peers rank (2 ^ k) (k - 1 - i) = rank ^^^ 2 ^ i := by
  have _ := hr
  constructor
  · rw [peers_two_pow k rank i hi]
    congr 2
    omega
  · rw [peers_two_pow k rank (k - 1 - i) (by omega)]
    congr 2
    omega

theorem partner_bit_distance_witness :
    (5 < 2 ^ 3 ∧ 0 < 3) ∧
    (peers 5 (2 ^ 3) 0 = 5 ^^^ 2 ^ (3 - 1 - 0) ∧
      peers 5 (2 ^ 3) (3 - 1 - 0) = 5 ^^^ 2 ^ 0) :=
  ⟨by decide, partner_bit_distance 3 5 0 (by decide) (by decide)⟩

/-! ## Effect of `NCCL_CTRAN_AG_RD_RTR` -/

theorem irecvCtrlsOf_eq (tr : List Event) :
    irecvCtrlsOf tr = (tr.map Event.instr).filterMap Instr.irecv? := by
  simp [irecvCtrlsOf, List.filterMap_map, Function.comp_def]

theorem isendCtrlsOf_eq (tr : List Event) :
    isendCtrlsOf tr = (tr.map Event.instr).filterMap Instr.isend? := by
  simp [isendCtrlsOf, List.filterMap_map, Function.comp_def]

theorem putScript_ctrls (x : Externs) (m : CtranMapper) (op : OpElem) (i : Nat) :
    (putScript x m op i).filterMap Instr.irecv? = [] ∧
    (putScript x m op i).filterMap Instr.isend? = [] := by
  unfold putScript
  rw [filterMap_flatMap, filterMap_flatMap]
  constructor <;>
  · apply flatMap_eq_nil_of_forall
    intro j
    by_cases hj : j = 0 <;> simp [hj, Instr.irecv?, Instr.isend?]

theorem implScript_irecvs (x : Externs) (m : CtranMapper) (op : OpElem) :
    (implScript x m op).filterMap Instr.irecv? =
      (List.range (nSteps x op)).map
        (fun i => Call.irecvCtrl i (peers op.comm.rank op.comm.nRanks i)) := by
  have hstep : ∀ i, (stepScript x m op i).filterMap Instr.irecv? = [] := by
    intro i
    unfold stepScript
    cases x.NCCL_CTRAN_AG_RD_RTR <;>
      simp [List.filterMap_append, (putScript_ctrls x m op i).1, Instr.irecv?]
  have hctrl : ∀ i, (ctrlScript x m op i).filterMap Instr.irecv? =
      [Call.irecvCtrl i (peers op.comm.rank op.comm.nRanks i)] := by
    intro i
    unfold ctrlScript
    cases x.NCCL_CTRAN_AG_RD_RTR <;> simp [Instr.irecv?]
  have htail : (tailScript x m op).filterMap Instr.irecv? = [] := by
    unfold tailScript
    have h : ((List.range (nSteps x op)).flatMap
        (fun i => [Instr.checked (Call.wait (Req.isendReq i))])).filterMap Instr.irecv? = [] := by
      rw [filterMap_flatMap]
      exact flatMap_eq_nil_of_forall _ _ (fun _ => rfl)
    cases m.localRegSend <;> cases m.localRegRecv <;>
      simp [List.filterMap_append, h, Instr.irecv?]
  unfold implScript
  simp only [List.filterMap_append, filterMap_flatMap, hstep, hctrl, htail, List.append_nil]
  rw [flatMap_eq_nil_of_forall _ _ (fun _ => rfl), List.append_nil, flatMap_singleton_map]
  simp [Instr.irecv?]

theorem implScript_isends (x : Externs) (m : CtranMapper) (op : OpElem) :
    (implScript x m op).filterMap Instr.isend? =
      (List.range (nSteps x op)).map
        (fun i => Call.isendCtrl op.recvbuff m.recvHdl
          (peers op.comm.rank op.comm.nRanks i) i) := by
  have hstep : ∀ i, (stepScript x m op i).filterMap Instr.isend? =
      if x.NCCL_CTRAN_AG_RD_RTR = true then
        [Call.isendCtrl op.recvbuff m.recvHdl (peers op.comm.rank op.comm.nRanks i) i]
      else [] := by
    intro i
    unfold stepScript
    cases x.NCCL_CTRAN_AG_RD_RTR <;>
      simp [List.filterMap_append, (putScript_ctrls x m op i).2, Instr.isend?]
  have hctrl : ∀ i, (ctrlScript x m op i).filterMap Instr.isend? =
      if x.NCCL_CTRAN_AG_RD_RTR = true then []
      else [Call.isendCtrl op.recvbuff m.recvHdl
        (peers op.comm.rank op.comm.nRanks i) i] := by
    intro i
    unfold ctrlScript
    cases x.NCCL_CTRAN_AG_RD_RTR <;> simp [Instr.isend?]
  have htail : (tailScript x m op).filterMap Instr.isend? = [] := by
    unfold tailScript
    have h : ((List.range (nSteps x op)).flatMap
        (fun i => [Instr.checked (Call.wait (Req.isendReq i))])).filterMap Instr.isend? = [] := by
      rw [filterMap_flatMap]
      exact flatMap_eq_nil_of_forall _ _ (fun _ => rfl)
    cases m.localRegSend <;> cases m.localRegRecv <;>
      simp [List.filterMap_append, h, Instr.isend?]
  unfold implScript
  simp only [List.filterMap_append, filterMap_flatMap, hstep, hctrl, htail, List.append_nil]
  cases x.NCCL_CTRAN_AG_RD_RTR
  · simp only [Bool.false_eq_true, if_false]
    rw [flatMap_eq_nil_of_forall _ _ (fun _ => rfl), List.append_nil, flatMap_singleton_map]
    simp [Instr.isend?]
  · simp only [if_true]
    rw [flatMap_eq_nil_of_forall _ _ (fun _ => rfl), List.append_nil, flatMap_singleton_map]
    simp [Instr.isend?]

/-- With the configuration variable set, the control send of step `i + 1` comes after
`waitNotify(peers[i])`. -/
theorem next_isend_preceded (x : Externs) (m : CtranMapper) (op : OpElem) (i : Nat)
    (hrtr : x.NCCL_CTRAN_AG_RD_RTR = true) :
    Precedes (implScript x m op)
      (fun ins => ins = Instr.checked
        (Call.waitNotify (peers op.comm.rank op.comm.nRanks i)))
      (fun ins => ∃ b h p, ins = Instr.checked (Call.isendCtrl b h p (i + 1))) := by
  by_cases hi : i + 1 < nSteps x op
  · rw [implScript_split x m op (i + 1) hi]
    apply precedes_append
    · rintro e he ⟨b, h, p, rfl⟩
      simp only [List.mem_append, List.mem_flatMap, List.mem_range, checked_mem_stepScript,
        checked_mem_ctrlScript, hrtr] at he
      simp at he
      omega
    · refine ⟨_, ?_, rfl⟩
      simp only [List.mem_append, List.mem_flatMap, List.mem_range]
      right
      exact ⟨i, by omega, (checked_mem_stepScript x m op i _).2
        (Or.inr (Or.inr (Or.inr (Or.inr rfl))))⟩
  · apply precedes_of_forall_not
    rintro e he ⟨b, h, p, rfl⟩
    rcases (checked_mem_implScript x m op _).1 he with h2 | h2 | ⟨t, ht, h2⟩ | ⟨t, ht, h2⟩ | h2
    · cases h2
    · cases h2
    · rcases (checked_mem_ctrlScript x m op t _).1 h2 with h3 | ⟨h3, _⟩
      · cases h3
      · rw [hrtr] at h3
        cases h3
    · rcases (checked_mem_stepScript x m op t _).1 h2 with
        ⟨_, h3⟩ | h3 | ⟨j, _, h3⟩ | h3 | h3
      · cases h3
        omega
      · cases h3
      · cases h3
      · cases h3
      · cases h3
    · rcases (checked_mem_tailScript x m op _).1 h2 with ⟨t, _, h3⟩ | ⟨_, h3⟩ | ⟨_, h3⟩ <;>
        cases h3

/-- With the configuration variable set, every control receive of the handle-exchange loop
comes before any control send. -/
theorem irecv_before_isend (x : Externs) (m : CtranMapper) (op : OpElem) (j : Nat)
    (hj : j < nSteps x op) (hrtr : x.NCCL_CTRAN_AG_RD_RTR = true) :
    Precedes (implScript x m op)
      (fun ins => ins = Instr.checked
        (Call.irecvCtrl j (peers op.comm.rank op.comm.nRanks j)))
      (fun ins => ∃ b h p i, ins = Instr.checked (Call.isendCtrl b h p i)) := by
  unfold implScript
  rw [List.append_assoc]
  apply precedes_append
  · rintro e he ⟨b, h, p, i, rfl⟩
    simp only [List.mem_append, List.mem_flatMap, List.mem_range, checked_mem_ctrlScript,
      hrtr] at he
    simp at he
  · refine ⟨_, ?_, rfl⟩
    simp only [List.mem_append, List.mem_flatMap, List.mem_range]
    exact Or.inr ⟨j, hj, (checked_mem_ctrlScript x m op j _).2 (Or.inl rfl)⟩

theorem putsOf_withRTR (x : Externs) (m : CtranMapper) (op : OpElem) (hok : NoFailure x m)
    (b : Bool) :
    putsOf (impl (x.withRTR b) m op).2 =
      (List.range (nSteps x op)).flatMap fun i =>
        (List.range (2 ^ i)).map (putArgs x m op i) :=
  putsOf_success (x.withRTR b) m op (fun h c => hok h c)

/-- C19: when `NCCL_CTRAN_AG_RD_RTR` is true, the control send of step `i` is issued in
iteration `i` of the main loop: after every control receive, after `waitNotify` of step
`i - 1` and before any put of step `i`; when it is false, the control sends of all steps
are issued before any put.  In both settings the control receives of a run are, in order,
one `irecvCtrl` per step from `peers[i]`, and the control sends one `isendCtrl` per step to
`peers[i]` advertising `recvbuff` with `recvHdl` (an initial part of these lists when the
run stops at a failure), and the puts of a run without failure are the same. -/
theorem rtr_effect (x : Externs) (m : CtranMapper) (op : OpElem) :
    (x.NCCL_CTRAN_AG_RD_RTR = true →
      (∀ i j, j < nSteps x op → Precedes (impl x m op).2
        (Event.passed x (Call.irecvCtrl j (peers op.comm.rank op.comm.nRanks j)))
        (Event.isSendCtrlOf i)) ∧
      (∀ i, Precedes (impl x m op).2
        (Event.passed x (Call.waitNotify (peers op.comm.rank op.comm.nRanks i)))
        (Event.isSendCtrlOf (i + 1))) ∧
      (∀ i, i < nSteps x op → Precedes (impl x m op).2
        (Event.passed x
          (Call.isendCtrl op.recvbuff m.recvHdl (peers op.comm.rank op.comm.nRanks i) i))
        (Event.isPutOf i))) ∧
    (x.NCCL_CTRAN_AG_RD_RTR = false →
      ∀ i, i < nSteps x op → Precedes (impl x m op).2
        (Event.passed x
          (Call.isendCtrl op.recvbuff m.recvHdl (peers op.comm.rank op.comm.nRanks i) i))
        Event.isPut) ∧
    (irecvCtrlsOf (impl x m op).2 <+:
        (List.range (nSteps x op)).map
          (fun i => Call.irecvCtrl i (peers op.comm.rank op.comm.nRanks i)) ∧
      isendCtrlsOf (impl x m op).2 <+:
        (List.range (nSteps x op)).map
          (fun i => Call.isendCtrl op.recvbuff m.recvHdl
            (peers op.comm.rank op.comm.nRanks i) i)) ∧
    (NoFailure x m →
      irecvCtrlsOf (impl x m op).2 =
        (List.range (nSteps x op)).map
          (fun i => Call.irecvCtrl i (peers op.comm.rank op.comm.nRanks i)) ∧
      isendCtrlsOf (impl x m op).2 =
        (List.range (nSteps x op)).map
          (fun i => Call.isendCtrl op.recvbuff m.recvHdl
            (peers op.comm.rank op.comm.nRanks i) i) ∧
      putsOf (impl (x.withRTR true) m op).2 = putsOf (impl (x.withRTR false) m op).2) := by
  refine ⟨?_, ?_, ?_, ?_⟩
  · intro hrtr
    refine ⟨?_, ?_, ?_⟩
    · intro i j hj
      refine precedes_mono _ _ _ _ _
        (impl_precedes x m op _ _ (irecv_before_isend x m op j hj hrtr)) (fun _ h => h) ?_
      rintro e ⟨b, h, p, r, rfl⟩
      exact ⟨b, h, p, i, rfl⟩
    · intro i
      refine precedes_mono _ _ _ _ _
        (impl_precedes x m op _ _ (next_isend_preceded x m op i hrtr)) (fun _ h => h) ?_
      rintro e ⟨b, h, p, r, rfl⟩
      exact ⟨b, h, p, rfl⟩
    · intro i hi
      refine precedes_mono _ _ _ _ _
        (impl_precedes x m op _ _ (isend_before_step_puts x m op i hi hrtr))
        (fun _ h => h) ?_
      rintro e ⟨a, r, rfl, ha⟩
      exact ⟨a, rfl, ha⟩
  · intro hrtr i hi
    refine precedes_mono _ _ _ _ _
      (impl_precedes x m op _ _ (ctrl_before_puts x m op _ i hi
        ((checked_mem_ctrlScript x m op i _).2 (Or.inr ⟨hrtr, rfl⟩)))) (fun _ h => h) ?_
    rintro e ⟨a, r, rfl⟩
    exact ⟨a, rfl⟩
  · constructor
    · rw [irecvCtrlsOf_eq, ← implScript_irecvs]
      exact (impl_instr_initial x m op).filterMap _
    · rw [isendCtrlsOf_eq, ← implScript_isends]
      exact (impl_instr_initial x m op).filterMap _
  · intro hok
    refine ⟨?_, ?_, ?_⟩
    · rw [irecvCtrlsOf_eq, impl_instr_success x m op hok, implScript_irecvs]
    · rw [isendCtrlsOf_eq, impl_instr_success x m op hok, implScript_isends]
    · rw [putsOf_withRTR x m op hok true, putsOf_withRTR x m op hok false]

theorem rtr_effect_witness :
    NoFailure demoExterns demoMapper ∧
    (irecvCtrlsOf (impl demoExterns demoMapper demoOp).2 =
        (List.range (nSteps demoExterns demoOp)).map
          (fun i => Call.irecvCtrl i (peers demoOp.comm.rank demoOp.comm.nRanks i)) ∧
      isendCtrlsOf (impl demoExterns demoMapper demoOp).2 =
        (List.range (nSteps demoExterns demoOp)).map
          (fun i => Call.isendCtrl demoOp.recvbuff demoMapper.recvHdl
            (peers demoOp.comm.rank demoOp.comm.nRanks i) i) ∧
      putsOf (impl (demoExterns.withRTR true) demoMapper demoOp).2 =
        putsOf (impl (demoExterns.withRTR false) demoMapper demoOp).2) :=
  ⟨fun _ _ => rfl, (rtr_effect demoExterns demoMapper demoOp).2.2.2 (fun _ _ => rfl)⟩

/-! ## FIFO order of the engine -/

theorem pendingOf_append (q1 q2 : List CtranGpeCmd) :
    pendingOf (q1 ++ q2) = pendingOf q1 ++ pendingOf q2 := by
  simp [pendingOf, List.filter_append]

theorem pendingOf_unit_cons (u : Nat) (q : List CtranGpeCmd) :
    pendingOf (unitCmd u :: q) = u :: pendingOf q := by
  simp [pendingOf, unitCmd, List.filter_cons]

theorem pendingOf_terminate_cons (q : List CtranGpeCmd) :
    pendingOf (terminateCmd :: q) = pendingOf q := by
  simp [pendingOf, terminateCmd, List.filter_cons]

theorem sound_init : GpeState.init.Sound := by
  refine ⟨rfl, ?_, 0, rfl, fun _ => rfl⟩
  intro h
  cases h

theorem sound_submit (s : GpeState) (u : Nat) (h : s.Sound) : (s.submit u).2.Sound := by
  obtain ⟨h1, h2, k, h3, h4⟩ := h
  cases ht : s.terminating with
  | true =>
    have : (s.submit u).2 = s := by
      simp [GpeState.submit, GpeState.implSubmit, ht]
    rw [this]
    exact ⟨h1, h2, k, h3, h4⟩
  | false =>
    have hk : k = 0 := h4 ht
    subst hk
    have hst : (s.submit u).2 =
        { s with queue := s.queue ++ [unitCmd u], accepted := s.accepted ++ [u] } := by
      simp [GpeState.submit, GpeState.implSubmit, ht, unitCmd]
    rw [hst]
    have hp : pendingOf (s.queue ++ [unitCmd u]) = s.pending ++ [u] := by
      rw [pendingOf_append, pendingOf_unit_cons]
      rfl
    refine ⟨?_, ?_, 0, ?_, fun _ => rfl⟩
    · show s.ran ++ pendingOf (s.queue ++ [unitCmd u]) = s.accepted ++ [u]
      rw [hp, ← List.append_assoc, h1]
    · intro hs
      have := (h2 hs).2
      rw [ht] at this
      cases this
    · show s.queue ++ [unitCmd u] =
        (pendingOf (s.queue ++ [unitCmd u])).map unitCmd ++ List.replicate 0 terminateCmd
      rw [hp, h3]
      simp

theorem sound_terminate (s : GpeState) (h : s.Sound) : s.terminate.Sound := by
  obtain ⟨h1, h2, k, h3, _⟩ := h
  have hp : pendingOf (s.queue ++ [terminateCmd]) = s.pending := by
    rw [pendingOf_append, pendingOf_terminate_cons]
    simp [pendingOf, GpeState.pending]
  refine ⟨?_, ?_, k + 1, ?_, ?_⟩
  · show s.ran ++ pendingOf (s.queue ++ [terminateCmd]) = s.accepted
    rw [hp]
    exact h1
  · intro hs
    exact ⟨by
      show pendingOf (s.queue ++ [terminateCmd]) = []
      rw [hp]
      exact (h2 hs).1, rfl⟩
  · show s.queue ++ [terminateCmd] =
      (pendingOf (s.queue ++ [terminateCmd])).map unitCmd ++ List.replicate (k + 1) terminateCmd
    rw [hp, h3, List.append_assoc, List.replicate_succ']
  · intro hf
    cases hf

theorem sound_workerStep (s : GpeState) (h : s.Sound) : s.workerStep.Sound := by
  obtain ⟨h1, h2, k, h3, h4⟩ := h
  cases hs : s.stopped with
  | true =>
    have : s.workerStep = s := by simp [GpeState.workerStep, hs]
    rw [this]
    exact ⟨h1, h2, k, h3, h4⟩
  | false =>
    cases hpl : s.pending with
    | cons u l =>
      -- a unit of work is at the front
      have hq : s.queue = unitCmd u :: (l.map unitCmd ++ List.replicate k terminateCmd) := by
        rw [h3, hpl]
        rfl
      have hst : s.workerStep =
          { s with queue := l.map unitCmd ++ List.replicate k terminateCmd,
                   ran := s.ran ++ [u] } := by
        simp [GpeState.workerStep, hs, hq, unitCmd]
      have hl : pendingOf (l.map unitCmd ++ List.replicate k terminateCmd) = l := by
        have h5 : s.pending = pendingOf s.queue := rfl
        rw [hq, pendingOf_unit_cons, hpl] at h5
        simp only [List.cons.injEq, true_and] at h5
        exact h5.symm
      rw [hst]
      refine ⟨?_, ?_, k, ?_, h4⟩
      · show (s.ran ++ [u]) ++ pendingOf (l.map unitCmd ++ List.replicate k terminateCmd) =
          s.accepted
        rw [hl, ← h1, hpl]
        simp
      · intro hst1
        rw [hs] at hst1
        cases hst1
      · show l.map unitCmd ++ List.replicate k terminateCmd =
          (pendingOf (l.map unitCmd ++ List.replicate k terminateCmd)).map unitCmd ++ _
        rw [hl]
    | nil =>
      rw [hpl] at h3
      simp only [List.map_nil, List.nil_append] at h3
      cases k with
      | zero =>
        have : s.workerStep = s := by
          simp [GpeState.workerStep, hs, h3]
        rw [this]
        exact ⟨h1, h2, 0, by rw [hpl]; simpa using h3, h4⟩
      | succ k =>
        have hq : s.queue = terminateCmd :: List.replicate k terminateCmd := by
          rw [h3, List.replicate_succ]
        have hterm : s.terminating = true := by
          cases ht : s.terminating with
          | true => rfl
          | false =>
            have := h4 ht
            cases this
        have hst : s.workerStep =
            { s with queue := List.replicate k terminateCmd, stopped := true } := by
          simp [GpeState.workerStep, hs, hq, terminateCmd]
        have hl : pendingOf (List.replicate k terminateCmd) = [] := by
          have h5 : s.pending = pendingOf s.queue := rfl
          rw [hq, pendingOf_terminate_cons, hpl] at h5
          exact h5.symm
        rw [hst]
        refine ⟨?_, ?_, k, ?_, ?_⟩
        · show s.ran ++ pendingOf (List.replicate k terminateCmd) = s.accepted
          rw [hl, ← h1, hpl]
        · intro _
          exact ⟨hl, hterm⟩
        · show List.replicate k terminateCmd =
            (pendingOf (List.replicate k terminateCmd)).map unitCmd ++ _
          rw [hl]
          rfl
        · intro hf
          rw [hterm] at hf
          cases hf

theorem sound_act (s : GpeState) (a : GpeAction) (h : s.Sound) : (s.act a).Sound := by
  cases a with
  | submit t u => exact sound_submit s u h
  | worker => exact sound_workerStep s h
  | terminate => exact sound_terminate s h

theorem sound_run (s : GpeState) (acts : List GpeAction) (h : s.Sound) :
    (s.run acts).Sound := by
  induction acts generalizing s with
  | nil => exact h
  | cons a acts ih => exact ih (s.act a) (sound_act s a h)

theorem run_append (s : GpeState) (a b : List GpeAction) :
    s.run (a ++ b) = (s.run a).run b := by
  simp [GpeState.run, List.foldl_append]

/-- Letting the worker take as many steps as units wait runs all accepted units. -/
theorem drain (n : Nat) (s : GpeState) (h : s.Sound) (hn : s.pending.length = n) :
    (s.run (List.replicate n GpeAction.worker)).ran = s.accepted ∧
    (s.run (List.replicate n GpeAction.worker)).accepted = s.accepted := by
  induction n generalizing s with
  | zero =>
    have hp : s.pending = [] := List.length_eq_zero.1 hn
    have h1 := h.1
    rw [hp, List.append_nil] at h1
    exact ⟨h1, rfl⟩
  | succ n ih =>
    obtain ⟨h1, h2, k, h3, h4⟩ := h
    cases hpl : s.pending with
    | nil => rw [hpl] at hn; cases hn
    | cons u l =>
      have hs : s.stopped = false := by
        cases hst : s.stopped with
        | false => rfl
        | true =>
          have := (h2 hst).1
          rw [hpl] at this
          cases this
      have hq : s.queue = unitCmd u :: (l.map unitCmd ++ List.replicate k terminateCmd) := by
        rw [h3, hpl]
        rfl
      have hst : s.workerStep =
          { s with queue := l.map unitCmd ++ List.replicate k terminateCmd,
                   ran := s.ran ++ [u] } := by
        simp [GpeState.workerStep, hs, hq, unitCmd]
      have hsound := sound_workerStep s ⟨h1, h2, k, h3, h4⟩
      have hl : s.workerStep.pending = l := by
        have h5 : s.pending = pendingOf s.queue := rfl
        rw [hq, pendingOf_unit_cons, hpl] at h5
        simp only [List.cons.injEq, true_and] at h5
        rw [hst]
        exact h5.symm
      have hrec := ih s.workerStep hsound (by
        rw [hl]
        rw [hpl] at hn
        simpa using hn)
      have hacc : s.workerStep.accepted = s.accepted := by rw [hst]
      rw [hacc] at hrec
      exact hrec

/-- C18: for every interleaving of steps of the engine of one context (submissions by any
threads, iterations of the worker, the termination request), the units whose host
orchestration function the worker has run are, in order, an initial part of the units
`submit` accepted; and once the worker has taken one more step per waiting unit, it has run
exactly the accepted units in the order of acceptance.  `submit` accepts a unit exactly
when it returns `ncclSuccess`. -/
theorem engine_fifo (acts : List GpeAction) :
    (GpeState.init.run acts).ran <+: (GpeState.init.run acts).accepted ∧
    (GpeState.init.run (acts ++
        List.replicate (GpeState.init.run acts).pending.length GpeAction.worker)).ran =
      (GpeState.init.run acts).accepted ∧
    (∀ (s : GpeState) (u : Nat),
      ((s.submit u).1 = ncclSuccess ∧ (s.submit u).2.accepted = s.accepted ++ [u]) ∨
      ((s.submit u).1 = ncclEngineShutdown ∧ (s.submit u).2 = s)) := by
  have hsound := sound_run GpeState.init acts sound_init
  refine ⟨?_, ?_, ?_⟩
  · exact ⟨_, hsound.1⟩
  · rw [run_append]
    exact (drain _ _ hsound rfl).1
  · intro s u
    cases ht : s.terminating with
    | true =>
      right
      simp [GpeState.submit, GpeState.implSubmit, ht]
    | false =>
      left
      simp [GpeState.submit, GpeState.implSubmit, ht]

/-! ## All-to-all -/

theorem chunk_div_mod (count r e : Nat) (he : e < count) :
    (r * count + e) / count = r ∧ (r * count + e) % count = e := by
  have hpos : 0 < count := by omega
  constructor
  · rw [Nat.mul_comm, Nat.mul_add_div hpos, Nat.div_eq_of_lt he, Nat.add_zero]
  · rw [Nat.mul_comm, Nat.mul_add_mod, Nat.mod_eq_of_lt he]

theorem chunk_lt_total (n count r e : Nat) (hr : r < n) (he : e < count) :
    r * count + e < n * count := by
  have := seg_le_total count n r hr
  omega

/-- One exchange: the receive chunks hold the transposed send chunks, the send buffers are
unchanged. -/
theorem allToAllExchange_spec (n count : Nat) (sendbuff recvbuff : Nat → Nat)
    (mem : ElemMem)
    (hsep : ∀ g, g < n → sendbuff g + n * count ≤ recvbuff g ∨
      recvbuff g + n * count ≤ sendbuff g) :
    (∀ g r e, g < n → r < n → e < count →
      allToAllExchange n count sendbuff recvbuff mem g (recvbuff g + r * count + e) =
        mem r (sendbuff r + g * count + e)) ∧
    (∀ g r e, g < n → r < n → e < count →
      allToAllExchange n count sendbuff recvbuff mem g (sendbuff g + r * count + e) =
        mem g (sendbuff g + r * count + e)) := by
  constructor
  · intro g r e _ hr he
    have h1 := chunk_lt_total n count r e hr he
    have h2 : recvbuff g + r * count + e - recvbuff g = r * count + e := by omega
    unfold allToAllExchange
    rw [if_pos ⟨by omega, by omega⟩, h2, (chunk_div_mod count r e he).1,
      (chunk_div_mod count r e he).2]
  · intro g r e hg hr he
    have h1 := chunk_lt_total n count r e hr he
    unfold allToAllExchange
    rw [if_neg]
    rintro ⟨h3, h4⟩
    rcases hsep g hg with h | h <;> omega

theorem allToAllRepeat_spec (n count datatype : Nat) (ctran : Bool)
    (sendbuff recvbuff : Nat → Nat) (mem : ElemMem)
    (hvalid : ∀ g, g < n → allToAllArgCheck (sendbuff g) (recvbuff g) = ncclSuccess)
    (hsep : ∀ g, g < n → sendbuff g + n * count ≤ recvbuff g ∨
      recvbuff g + n * count ≤ sendbuff g) (k : Nat) :
    (∀ g r e, g < n → r < n → e < count →
      allToAllRepeat n sendbuff recvbuff count datatype ctran k mem g
          (sendbuff g + r * count + e) = mem g (sendbuff g + r * count + e)) ∧
    (0 < k → ∀ g r e, g < n → r < n → e < count →
      allToAllRepeat n sendbuff recvbuff count datatype ctran k mem g
          (recvbuff g + r * count + e) = mem r (sendbuff r + g * count + e)) := by
  have hall : ((List.range n).all fun g =>
      allToAllArgCheck (sendbuff g) (recvbuff g) = ncclSuccess) = true := by
    simp only [List.all_eq_true, List.mem_range, decide_eq_true_eq]
    exact hvalid
  have hcall : ∀ mm, (ncclAllToAll n sendbuff recvbuff count datatype ctran mm).2 =
      allToAllExchange n count sendbuff recvbuff mm := by
    intro mm
    simp only [ncclAllToAll, hall, if_true]
  induction k generalizing mem with
  | zero =>
    exact ⟨fun _ _ _ _ _ _ => rfl, fun h => absurd h (by decide)⟩
  | succ k ih =>
    obtain ⟨hx1, hx2⟩ := allToAllExchange_spec n count sendbuff recvbuff mem hsep
    obtain ⟨ih1, ih2⟩ := ih (allToAllExchange n count sendbuff recvbuff mem)
    constructor
    · intro g r e hg hr he
      show allToAllRepeat n sendbuff recvbuff count datatype ctran k
        (ncclAllToAll n sendbuff recvbuff count datatype ctran mem).2 g _ = _
      rw [hcall, ih1 g r e hg hr he, hx2 g r e hg hr he]
    · intro _ g r e hg hr he
      show allToAllRepeat n sendbuff recvbuff count datatype ctran k
        (ncclAllToAll n sendbuff recvbuff count datatype ctran mem).2 g _ = _
      rw [hcall]
      cases k with
      | zero => exact hx1 g r e hg hr he
      | succ k =>
        rw [ih2 (by omega) g r e hg hr he, hx2 r g e hr hg he]

theorem assignChunkValue_inside (m : Nat → Int) (buf count : Nat) (val : Int) (a : Nat)
    (h1 : buf ≤ a) (h2 : a < buf + count) : assignChunkValue m buf count val a = val := by
  unfold assignChunkValue
  rw [if_pos ⟨h1, h2⟩]

theorem assignChunkValue_outside (m : Nat → Int) (buf count : Nat) (val : Int) (a : Nat)
    (h : a < buf ∨ buf + count ≤ a) : assignChunkValue m buf count val a = m a := by
  unfold assignChunkValue
  rw [if_neg]
  rintro ⟨h1, h2⟩
  omega

/-- After lines 86-90 chunk `r` of the send buffer of rank `g` holds `g * 100 + r + 1`. -/
theorem fillBuffers_send (n count g sendBuf recvBuf : Nat) (m : Nat → Int)
    (hsep : sendBuf + n * count ≤ recvBuf ∨ recvBuf + n * count ≤ sendBuf)
    (r e : Nat) (hr : r < n) (he : e < count) :
    fillBuffers n count g sendBuf recvBuf m (sendBuf + r * count + e) =
      (g : Int) * 100 + r + 1 := by
  have key : ∀ t, t ≤ n → r < t →
      (List.range t).foldl
        (fun m1 r1 =>
          assignChunkValue
            (assignChunkValue m1 (sendBuf + r1 * count) count ((g : Int) * 100 + r1 + 1))
            (recvBuf + r1 * count) count (-1))
        m (sendBuf + r * count + e) = (g : Int) * 100 + r + 1 := by
    intro t
    induction t with
    | zero => intro _ h; cases h
    | succ t ih =>
      intro ht hrt
      rw [List.range_succ, List.foldl_append]
      simp only [List.foldl_cons, List.foldl_nil]
      have htn : t < n := by omega
      have h1 := chunk_lt_total n count r e hr he
      have h2 := seg_le_total count n t htn
      rw [assignChunkValue_outside _ _ _ _ _ (by rcases hsep with h | h <;> omega)]
      by_cases hrt1 : r = t
      · subst hrt1
        exact assignChunkValue_inside _ _ _ _ _ (by omega) (by omega)
      · rw [assignChunkValue_outside _ _ _ _ _ (by
          by_contra hcon
          apply hrt1
          exact seg_eq_of_overlap count t r e he (by omega) (by omega))]
        exact ih (by omega) (by omega)
  exact key n le_rfl hr

/-- C16: for every number of ranks `n`, per-peer count, datatype and choice of algorithm,
after one or more calls of `ncclAllToAll` on out-of-place buffers (non-null, not
overlapping) every rank got `ncclSuccess`, and chunk `r` of the receive buffer of rank `g`
equals chunk `g` of the send buffer of rank `r`, for all `r, g < n`; the send buffers are
unchanged.  So the test `AllToAllTest::run`, which fills send chunk `r` of rank `g` with
`100 * g + r + 1`, makes five calls and expects `100 * r + g + 1` in receive chunk `r` of
rank `g`, passes on every rank. -/
theorem alltoall_transposes (n count datatype : Nat) (ctran : Bool)
    (sendbuff recvbuff : Nat → Nat) (mem : ElemMem) (k : Nat)
    (hout : ∀ g, g < n → sendbuff g ≠ 0 ∧ recvbuff g ≠ 0 ∧ sendbuff g ≠ recvbuff g ∧
      (sendbuff g + n * count ≤ recvbuff g ∨ recvbuff g + n * count ≤ sendbuff g))
    (hk : 0 < k) :
    (∀ g, g < n →
      (ncclAllToAll n sendbuff recvbuff count datatype ctran mem).1 g = ncclSuccess) ∧
    (∀ g r e, g < n → r < n → e < count →
      allToAllRepeat n sendbuff recvbuff count datatype ctran k mem g
          (recvbuff g + r * count + e) =
        allToAllRepeat n sendbuff recvbuff count datatype ctran k mem r
          (sendbuff r + g * count + e) ∧
      allToAllRepeat n sendbuff recvbuff count datatype ctran k mem r
          (sendbuff r + g * count + e) = mem r (sendbuff r + g * count + e)) ∧
    (∀ g, g < n → allToAllTestRun n count ctran sendbuff recvbuff mem g = true) := by
  have hvalid : ∀ g, g < n → allToAllArgCheck (sendbuff g) (recvbuff g) = ncclSuccess := by
    intro g hg
    obtain ⟨h1, h2, h3, _⟩ := hout g hg
    simp [allToAllArgCheck, h1, h2, h3]
  have hsep : ∀ g, g < n → sendbuff g + n * count ≤ recvbuff g ∨
      recvbuff g + n * count ≤ sendbuff g := fun g hg => (hout g hg).2.2.2
  refine ⟨fun g hg => hvalid g hg, ?_, ?_⟩
  · intro g r e hg hr he
    obtain ⟨h1, h2⟩ := allToAllRepeat_spec n count datatype ctran sendbuff recvbuff mem
      hvalid hsep k
    rw [h2 hk g r e hg hr he, h1 r g e hr hg he]
    exact ⟨rfl, rfl⟩
  · intro g hg
    obtain ⟨_, h2⟩ := allToAllRepeat_spec n count ncclInt ctran sendbuff recvbuff
      (fun g1 => fillBuffers n count g1 (sendbuff g1) (recvbuff g1) (mem g1)) hvalid hsep 5
    unfold allToAllTestRun
    simp only [Bool.and_eq_true, beq_iff_eq]
    refine ⟨hvalid g hg, ?_⟩
    unfold checkBuffers
    simp only [List.all_eq_true, List.mem_range, beq_iff_eq]
    intro r hr
    unfold checkChunkValue
    rw [List.length_eq_zero, List.filter_eq_nil_iff]
    intro e he
    have he1 : e < count := List.mem_range.1 he
    simp only [ne_eq, decide_not, Bool.not_eq_true', decide_eq_false_iff_not, not_not]
    rw [h2 (by decide) g r e hg hr he1,
      fillBuffers_send n count r (sendbuff r) (recvbuff r) (mem r) (hsep r hr) g e hg he1]

theorem alltoall_transposes_witness :
    ((∀ g, g < 3 → (100 : Nat) ≠ 0 ∧ (200 : Nat) ≠ 0 ∧ (100 : Nat) ≠ 200 ∧
      (100 + 3 * 4 ≤ 200 ∨ 200 + 3 * 4 ≤ 100)) ∧ 0 < 5) ∧
    ((∀ g, g < 3 →
      (ncclAllToAll 3 (fun _ => 100) (fun _ => 200) 4 ncclInt true (fun _ _ => 0)).1 g =
        ncclSuccess) ∧
    (∀ g r e, g < 3 → r < 3 → e < 4 →
      allToAllRepeat 3 (fun _ => 100) (fun _ => 200) 4 ncclInt true 5 (fun _ _ => 0) g
          (200 + r * 4 + e) =
        allToAllRepeat 3 (fun _ => 100) (fun _ => 200) 4 ncclInt true 5 (fun _ _ => 0) r
          (100 + g * 4 + e) ∧
      allToAllRepeat 3 (fun _ => 100) (fun _ => 200) 4 ncclInt true 5 (fun _ _ => 0) r
          (100 + g * 4 + e) = (fun _ _ => 0 : ElemMem) r (100 + g * 4 + e)) ∧
    (∀ g, g < 3 →
      allToAllTestRun 3 4 true (fun _ => 100) (fun _ => 200) (fun _ _ => 0) g = true)) :=
  have hout : ∀ g, g < 3 → (100 : Nat) ≠ 0 ∧ (200 : Nat) ≠ 0 ∧ (100 : Nat) ≠ 200 ∧
      (100 + 3 * 4 ≤ 200 ∨ 200 + 3 * 4 ≤ 100) :=
    fun _ _ => ⟨by decide, by decide, by decide, Or.inl (by decide)⟩
  ⟨⟨hout, by decide⟩,
    alltoall_transposes 3 4 ncclInt true (fun _ => 100) (fun _ => 200) (fun _ _ => 0) 5
      hout (by decide)⟩

/-- C17: `ncclAllToAll` returns `ncclInvalidArgument` to a rank that passes a null send
buffer, a null receive buffer, or the same pointer for both, for every count, datatype,
choice of algorithm, group and memory; in particular the calls of the tests
`InvalidSendbuf`, `InvalidRecvbuf` and `InvalidInPlace` do. -/
theorem alltoall_rejects_bad_buffers (n count datatype : Nat) (ctran : Bool)
    (sendbuff recvbuff : Nat → Nat) (mem : ElemMem) (g : Nat) :
    (sendbuff g = 0 →
      (ncclAllToAll n sendbuff recvbuff count datatype ctran mem).1 g = ncclInvalidArgument) ∧
    (recvbuff g = 0 →
      (ncclAllToAll n sendbuff recvbuff count datatype ctran mem).1 g = ncclInvalidArgument) ∧
    (sendbuff g = recvbuff g →
      (ncclAllToAll n sendbuff recvbuff count datatype ctran mem).1 g = ncclInvalidArgument) ∧
    ncclInvalidArgument ≠ ncclSuccess := by
  refine ⟨?_, ?_, ?_, by decide⟩
  · intro h
    simp [ncclAllToAll, allToAllArgCheck, h]
  · intro h
    simp [ncclAllToAll, allToAllArgCheck, h]
  · intro h
    simp [ncclAllToAll, allToAllArgCheck, h]

theorem alltoall_rejects_bad_buffers_witness :
    (ncclAllToAll 2 (fun _ => 0) (fun _ => 4096) 1048576 ncclInt false (fun _ _ => 0)).1 1 =
      ncclInvalidArgument ∧
    (ncclAllToAll 2 (fun _ => 4096) (fun _ => 0) 1048576 ncclInt false (fun _ _ => 0)).1 1 =
      ncclInvalidArgument ∧
    (ncclAllToAll 2 (fun _ => 4096) (fun _ => 4096) 1048576 ncclInt false
      (fun _ _ => 0)).1 1 = ncclInvalidArgument :=
  ⟨(alltoall_rejects_bad_buffers 2 1048576 ncclInt false (fun _ => 0) (fun _ => 4096)
      (fun _ _ => 0) 1).1 rfl,
    (alltoall_rejects_bad_buffers 2 1048576 ncclInt false (fun _ => 4096) (fun _ => 0)
      (fun _ _ => 0) 1).2.1 rfl,
    (alltoall_rejects_bad_buffers 2 1048576 ncclInt false (fun _ => 4096) (fun _ => 4096)
      (fun _ _ => 0) 1).2.2.1 rfl⟩

/-! ## Disjointness of the segments exchanged in one step -/

theorem putOffset_eq (r n i j : Nat) :
    putOffset r n i j = j * (n / 2 ^ i) + r % (n / 2 ^ i) := by
  unfold putOffset
  rw [Nat.shiftLeft_eq, one_mul]

theorem putOffset_mod (r n i j : Nat) :
    putOffset r n i j % (n / 2 ^ i) = r % (n / 2 ^ i) := by
  rw [putOffset_eq, Nat.mul_comm, Nat.mul_add_mod, Nat.mod_mod]

theorem mem_putOffsets (r n i s : Nat) (hi : 2 ^ i ∣ n) (hn : 0 < n) :
    s ∈ (List.range (2 ^ i)).map (putOffset r n i) ↔
      s < n ∧ s % (n / 2 ^ i) = r % (n / 2 ^ i) := by
  have hle : 2 ^ i ≤ n := Nat.le_of_dvd hn hi
  have hM : 0 < n / 2 ^ i := Nat.div_pos hle (by positivity)
  simp only [List.mem_map, List.mem_range]
  constructor
  · rintro ⟨j, hj, rfl⟩
    exact ⟨putOffset_lt r n i j hle hj, putOffset_mod r n i j⟩
  · rintro ⟨hs, hmod⟩
    refine ⟨s / (n / 2 ^ i), ?_, ?_⟩
    · rw [Nat.div_lt_iff_lt_mul hM, Nat.mul_div_cancel' hi]
      exact hs
    · rw [putOffset_eq, ← hmod, Nat.mul_comm]
      exact Nat.div_add_mod s (n / 2 ^ i)

theorem nodup_putOffsets (r n i : Nat) (hM : 0 < n / 2 ^ i) :
    ((List.range (2 ^ i)).map (putOffset r n i)).Nodup := by
  refine List.Nodup.map_on ?_ (List.nodup_range _)
  intro a _ b _ hab
  rw [putOffset_eq, putOffset_eq] at hab
  have h := Nat.add_right_cancel hab
  exact Nat.eq_of_mul_eq_mul_right hM h

/-- The partner's residue modulo twice the distance differs from the rank's. -/
theorem peers_mod_double (r n i : Nat) (hd : 0 < dists n i) :
    peers r n i % (dists n i * 2) ≠ r % (dists n i * 2) := by
  obtain ⟨h1, h2⟩ := peers_mod_dists r n i hd
  rw [Nat.mod_mul, Nat.mod_mul, h1]
  intro h
  have h3 := Nat.add_left_cancel h
  exact h2 (Nat.eq_of_mul_eq_mul_left hd h3)

theorem two_pow_div_double (k i : Nat) (hi : i < k) :
    2 ^ k / 2 ^ i = dists (2 ^ k) i * 2 := by
  rw [dists_two_pow k i hi, two_pow_div k i (by omega), ← pow_succ]
  congr 1
  omega

/-- C21: for `nRanks = 2 ^ k`, `r < nRanks` and step `i < k`, with `M = nRanks / 2 ^ i`,
the `2 ^ i` segment indices that `r` puts are pairwise distinct and are exactly the
indices below `nRanks` congruent to `r` modulo `M`; none is congruent to `peers[i]`
modulo `M`, so they contain neither the partner's own slot nor any segment index the
partner puts in step `i`. -/
theorem put_segments_race_free (k r i : Nat) (hr : r < 2 ^ k) (hi : i < k) :
    ((List.range (2 ^ i)).map (putOffset r (2 ^ k) i)).Nodup ∧
    ((List.range (2 ^ i)).map (putOffset r (2 ^ k) i)).length = 2 ^ i ∧
    (∀ s, s ∈ (List.range (2 ^ i)).map (putOffset r (2 ^ k) i) ↔
      s < 2 ^ k ∧ s % (2 ^ k / 2 ^ i) = r % (2 ^ k / 2 ^ i)) ∧
    (∀ s, s ∈ (List.range (2 ^ i)).map (putOffset r (2 ^ k) i) →
      s % (2 ^ k / 2 ^ i) ≠ peers r (2 ^ k) i % (2 ^ k / 2 ^ i)) ∧
    peers r (2 ^ k) i ∉ (List.range (2 ^ i)).map (putOffset r (2 ^ k) i) ∧
    (∀ j, j < 2 ^ i → putOffset (peers r (2 ^ k) i) (2 ^ k) i j ∉
      (List.range (2 ^ i)).map (putOffset r (2 ^ k) i)) := by
  have hdvd : 2 ^ i ∣ 2 ^ k := pow_dvd_pow 2 (by omega)
  have hn : 0 < 2 ^ k := by positivity
  have hM : 0 < 2 ^ k / 2 ^ i := Nat.div_pos (Nat.le_of_dvd hn hdvd) (by positivity)
  have hd : 0 < dists (2 ^ k) i := by
    rw [dists_two_pow k i hi]
    positivity
  have hne : peers r (2 ^ k) i % (2 ^ k / 2 ^ i) ≠ r % (2 ^ k / 2 ^ i) := by
    rw [two_pow_div_double k i hi]
    exact peers_mod_double r (2 ^ k) i hd
  have hmem := fun s => mem_putOffsets r (2 ^ k) i s hdvd hn
  refine ⟨nodup_putOffsets r (2 ^ k) i hM, by simp, hmem, ?_, ?_, ?_⟩
  · intro s hs h
    exact hne (h.symm.trans ((hmem s).1 hs).2)
  · intro h
    exact hne ((hmem _).1 h).2
  · intro j _ h
    have h1 := ((hmem _).1 h).2
    rw [putOffset_mod] at h1
    exact hne h1

theorem put_segments_race_free_witness :
    (1 < 2 ^ 2 ∧ 1 < 2) ∧
    (((List.range (2 ^ 1)).map (putOffset 1 (2 ^ 2) 1)).Nodup ∧
    ((List.range (2 ^ 1)).map (putOffset 1 (2 ^ 2) 1)).length = 2 ^ 1 ∧
    (∀ s, s ∈ (List.range (2 ^ 1)).map (putOffset 1 (2 ^ 2) 1) ↔
      s < 2 ^ 2 ∧ s % (2 ^ 2 / 2 ^ 1) = 1 % (2 ^ 2 / 2 ^ 1)) ∧
    (∀ s, s ∈ (List.range (2 ^ 1)).map (putOffset 1 (2 ^ 2) 1) →
      s % (2 ^ 2 / 2 ^ 1) ≠ peers 1 (2 ^ 2) 1 % (2 ^ 2 / 2 ^ 1)) ∧
    peers 1 (2 ^ 2) 1 ∉ (List.range (2 ^ 1)).map (putOffset 1 (2 ^ 2) 1) ∧
    (∀ j, j < 2 ^ 1 → putOffset (peers 1 (2 ^ 2) 1) (2 ^ 2) 1 j ∉
      (List.range (2 ^ 1)).map (putOffset 1 (2 ^ 2) 1))) :=
  ⟨⟨by decide, by decide⟩, put_segments_race_free 2 1 1 (by decide) (by decide)⟩

/-! ## Divisors and the subtraction in the partner computation -/

theorem halvings_eq_log (fuel n : Nat) (h : n ≤ fuel) : halvings fuel n = Nat.log 2 n := by
  induction fuel generalizing n with
  | zero =>
    have h0 : n = 0 := by omega
    subst h0
    simp [halvings]
  | succ f ih =>
    unfold halvings
    by_cases h2 : n / 2 = 0
    · rw [if_pos h2]
      have hlt : n < 2 := by omega
      exact (Nat.log_of_lt hlt).symm
    · rw [if_neg h2]
      have hge : 2 ≤ n := by omega
      rw [ih (n / 2) (by omega), Nat.log_of_one_lt_of_le (by decide) hge]

theorem demoExterns_log2i (n : Nat) : demoExterns.log2i n = Nat.log 2 n :=
  halvings_eq_log n n (Nat.le_refl n)

/-- A run touches no more of a kind of call than the script holds. -/
theorem filterMap_nil_of_initial {α β : Type} (f : α → Option β) (l s : List α)
    (h : l <+: s) (hs : s.filterMap f = []) : l.filterMap f = [] := by
  have h1 := List.IsPrefix.filterMap f h
  rw [hs] at h1
  exact List.prefix_nil.1 h1

theorem two_pow_succ_le_of_lt_log (n i : Nat) (hn : 1 ≤ n) (hi : i < Nat.log 2 n) :
    2 ^ (i + 1) ≤ n :=
  le_trans (Nat.pow_le_pow_right (by decide) hi) (Nat.pow_log_le_self 2 (by omega))

/-- C22: with `log2i` the integer base-2 logarithm, for every `nRanks >= 1` and every
step `i < nSteps` the divisors of lines 47, 48 and 94 are not zero:
`dists[i] = nRanks / 2 ^ (i + 1) >= 1` and `nRanks / 2 ^ i >= 1`; when the partner is
`rank - dists[i]` then `rank >= dists[i]`.  For `nRanks = 1` there is no step, and a run
of `impl` holds no control call and no put. -/
theorem no_division_by_zero (x : Externs) (m : CtranMapper) (op : OpElem)
    (hn : 1 ≤ op.comm.nRanks) (hlog : ∀ n, x.log2i n = Nat.log 2 n) :
    (∀ i, i < nSteps x op →
      2 <<< i ≠ 0 ∧ 1 <<< i ≠ 0 ∧
      dists op.comm.nRanks i = op.comm.nRanks / 2 ^ (i + 1) ∧
      1 ≤ dists op.comm.nRanks i ∧
      op.comm.nRanks / (1 <<< i) = op.comm.nRanks / 2 ^ i ∧
      1 ≤ op.comm.nRanks / 2 ^ i ∧
      ((op.comm.rank / dists op.comm.nRanks i) % 2 ≠ 0 →
        peers op.comm.rank op.comm.nRanks i = op.comm.rank - dists op.comm.nRanks i ∧
        dists op.comm.nRanks i ≤ op.comm.rank)) ∧
    (op.comm.nRanks = 1 →
      nSteps x op = 0 ∧ irecvCtrlsOf (impl x m op).2 = [] ∧
      isendCtrlsOf (impl x m op).2 = [] ∧ putsOf (impl x m op).2 = []) := by
  constructor
  · intro i hi
    unfold nSteps at hi
    rw [hlog] at hi
    have hpow := two_pow_succ_le_of_lt_log op.comm.nRanks i hn hi
    have hd : dists op.comm.nRanks i = op.comm.nRanks / 2 ^ (i + 1) := by
      unfold dists
      rw [Nat.shiftLeft_eq, ← pow_succ']
    have hd1 : 1 ≤ dists op.comm.nRanks i := by
      rw [hd]
      exact Nat.div_pos hpow (by positivity)
    have hpow2 : 2 ^ i ≤ op.comm.nRanks :=
      le_trans (Nat.pow_le_pow_right (by decide) (Nat.le_succ i)) hpow
    refine ⟨?_, ?_, hd, hd1, ?_, Nat.div_pos hpow2 (by positivity), ?_⟩
    · rw [Nat.shiftLeft_eq]
      positivity
    · rw [Nat.shiftLeft_eq]
      positivity
    · rw [Nat.shiftLeft_eq, one_mul]
    · intro hpos
      refine ⟨?_, ?_⟩
      · unfold peers
        simp only [hpos, if_false]
      · by_contra hlt
        rw [Nat.div_eq_of_lt (by omega)] at hpos
        exact hpos rfl
  · intro h1
    have hs : nSteps x op = 0 := by
      unfold nSteps
      rw [hlog, h1]
      simp
    have hini := impl_instr_initial x m op
    refine ⟨hs, ?_, ?_, ?_⟩
    · rw [irecvCtrlsOf_eq]
      refine filterMap_nil_of_initial _ _ _ hini ?_
      rw [implScript_irecvs, hs]
      rfl
    · rw [isendCtrlsOf_eq]
      refine filterMap_nil_of_initial _ _ _ hini ?_
      rw [implScript_isends, hs]
      rfl
    · rw [putsOf_eq]
      refine filterMap_nil_of_initial _ _ _ hini ?_
      rw [implScript_puts, hs]
      rfl

theorem no_division_by_zero_witness :
    ((1 ≤ demoOp.comm.nRanks ∧ ∀ n, demoExterns.log2i n = Nat.log 2 n) ∧
      ∀ i, i < nSteps demoExterns demoOp →
      2 <<< i ≠ 0 ∧ 1 <<< i ≠ 0 ∧
      dists demoOp.comm.nRanks i = demoOp.comm.nRanks / 2 ^ (i + 1) ∧
      1 ≤ dists demoOp.comm.nRanks i ∧
      demoOp.comm.nRanks / (1 <<< i) = demoOp.comm.nRanks / 2 ^ i ∧
      1 ≤ demoOp.comm.nRanks / 2 ^ i ∧
      ((demoOp.comm.rank / dists demoOp.comm.nRanks i) % 2 ≠ 0 →
        peers demoOp.comm.rank demoOp.comm.nRanks i =
          demoOp.comm.rank - dists demoOp.comm.nRanks i ∧
        dists demoOp.comm.nRanks i ≤ demoOp.comm.rank)) ∧
    ((1 ≤ soloOp.comm.nRanks ∧ soloOp.comm.nRanks = 1) ∧
      nSteps demoExterns soloOp = 0 ∧ irecvCtrlsOf (impl demoExterns demoMapper soloOp).2 = [] ∧
      isendCtrlsOf (impl demoExterns demoMapper soloOp).2 = [] ∧
      putsOf (impl demoExterns demoMapper soloOp).2 = []) :=
  ⟨⟨⟨by decide, demoExterns_log2i⟩,
      (no_division_by_zero demoExterns demoMapper demoOp (by decide) demoExterns_log2i).1⟩,
    ⟨by decide, rfl⟩,
      (no_division_by_zero demoExterns demoMapper soloOp (by decide) demoExterns_log2i).2 rfl⟩

/-- With the ceiling logarithm of the specification in place of the integer logarithm, a
group of 3 ranks has 2 steps and the distance of step 1 is `3 / 4 = 0`. -/
theorem dists_zero_with_ceiling :
    nSteps specExterns threeOp = 2 ∧ dists threeOp.comm.nRanks 1 = 0 := by
  exact ⟨clog_two_three, by decide⟩

/-! ## A group size that is not a power of two -/

/-- C23: `impl` has no check of the group size: for `nRanks = 3` and `rank = 2` the
step-0 partner is `peers[0] = 3`, which is not below `nRanks`; when no primitive fails,
the run goes through all of its calls, among them the control receive and the put of
step 0, both addressed to that partner. -/
theorem partner_out_of_range (x : Externs) (m : CtranMapper) (op : OpElem)
    (hr : op.comm.rank = 2) (hn : op.comm.nRanks = 3) (hs : 0 < x.log2i 3)
    (hok : NoFailure x m) :
    peers 2 3 0 = 3 ∧ op.comm.nRanks ≤ peers op.comm.rank op.comm.nRanks 0 ∧
    (impl x m op).2.map Event.instr = implScript x m op ∧
    Call.irecvCtrl 0 3 ∈ irecvCtrlsOf (impl x m op).2 ∧
    putArgs x m op 0 0 ∈ putsOf (impl x m op).2 ∧
    (putArgs x m op 0 0).peer = 3 := by
  have hp : peers 2 3 0 = 3 := by decide
  have hst : 0 < nSteps x op := by
    unfold nSteps
    rw [hn]
    exact hs
  refine ⟨hp, ?_, impl_instr_success x m op hok, ?_, ?_, ?_⟩
  · rw [hr, hn, hp]
  · rw [irecvCtrlsOf_eq, impl_instr_success x m op hok, implScript_irecvs]
    refine List.mem_map.2 ⟨0, List.mem_range.2 hst, ?_⟩
    rw [hr, hn, hp]
  · rw [putsOf_success x m op hok]
    refine List.mem_flatMap.2 ⟨0, List.mem_range.2 hst, ?_⟩
    exact List.mem_map.2 ⟨0, List.mem_range.2 (by decide), rfl⟩
  · show peers op.comm.rank op.comm.nRanks 0 = 3
    rw [hr, hn, hp]

theorem partner_out_of_range_witness :
    (threeOp.comm.rank = 2 ∧ threeOp.comm.nRanks = 3 ∧ 0 < demoExterns.log2i 3 ∧
      NoFailure demoExterns demoMapper) ∧
    (peers 2 3 0 = 3 ∧ threeOp.comm.nRanks ≤ peers threeOp.comm.rank threeOp.comm.nRanks 0 ∧
    (impl demoExterns demoMapper threeOp).2.map Event.instr =
      implScript demoExterns demoMapper threeOp ∧
    Call.irecvCtrl 0 3 ∈ irecvCtrlsOf (impl demoExterns demoMapper threeOp).2 ∧
    putArgs demoExterns demoMapper threeOp 0 0 ∈
      putsOf (impl demoExterns demoMapper threeOp).2 ∧
    (putArgs demoExterns demoMapper threeOp 0 0).peer = 3) :=
  ⟨⟨rfl, rfl, by decide, fun _ _ => rfl⟩,
    partner_out_of_range demoExterns demoMapper threeOp rfl rfl (by decide)
      (fun _ _ => rfl)⟩

/-! ## Reading one line of a configuration file -/

theorem scanName_cases (l : List Nat) :
    (∀ b ∈ l.take (scanName l), b ≠ 0 ∧ b ≠ 61) ∧
    ((l.getD (scanName l) 0 = 0 ∧ ∀ r, l.drop (scanName l) ≠ 61 :: r) ∨
      (l.getD (scanName l) 0 = 61 ∧ ∃ r, l.drop (scanName l) = 61 :: r)) := by
  induction l with
  | nil =>
    refine ⟨by simp [scanName], Or.inl ⟨rfl, by simp [scanName]⟩⟩
  | cons b rest ih =>
    unfold scanName
    by_cases hb : b ≠ 0 ∧ b ≠ 61
    · rw [if_pos hb]
      refine ⟨?_, ?_⟩
      · intro c hc
        rw [List.take_succ_cons] at hc
        rcases List.mem_cons.1 hc with rfl | hc
        · exact hb
        · exact ih.1 c hc
      · simpa only [List.getD_cons_succ, List.drop_succ_cons] using ih.2
    · rw [if_neg hb]
      refine ⟨by simp, ?_⟩
      by_cases h0 : b = 0
      · left
        subst h0
        exact ⟨rfl, by simp⟩
      · right
        have h61 : b = 61 := by
          by_contra h
          exact hb ⟨h0, h⟩
        subst h61
        exact ⟨rfl, rest, rfl⟩

theorem scanName_le_length (l : List Nat) : scanName l ≤ l.length := by
  induction l with
  | nil => simp [scanName]
  | cons b rest ih =>
    unfold scanName
    split
    · simp only [List.length_cons]
      omega
    · omega

theorem scanName_append (N r : List Nat) (hN : ∀ b ∈ N, b ≠ 0 ∧ b ≠ 61) :
    scanName (N ++ 61 :: r) = N.length := by
  induction N with
  | nil => simp [scanName]
  | cons b N ih =>
    rw [List.cons_append, scanName, if_pos (hN b (List.mem_cons_self _ _)),
      ih (fun c hc => hN c (List.mem_cons_of_mem _ hc)), List.length_cons]

theorem cstr_take_scanName (l : List Nat) :
    (cstr l).take (scanName l) = l.take (scanName l) := by
  induction l with
  | nil => simp [scanName, cstr]
  | cons b rest ih =>
    unfold scanName
    by_cases hb : b ≠ 0 ∧ b ≠ 61
    · rw [if_pos hb]
      have h1 : cstr (b :: rest) = b :: cstr rest := by
        unfold cstr
        rw [List.takeWhile_cons_of_pos (by simpa using hb.1)]
      rw [h1, List.take_succ_cons, List.take_succ_cons, ih]
    · rw [if_neg hb]
      simp

theorem cstr_append_zero (a r : List Nat) (ha : ∀ b ∈ a, b ≠ 0) : cstr (a ++ 0 :: r) = a := by
  unfold cstr
  rw [List.takeWhile_append_of_pos (by simpa using ha)]
  simp

theorem cstr_ne_zero (l : List Nat) : ∀ b ∈ cstr l, b ≠ 0 := by
  intro b hb
  have := List.mem_takeWhile_imp hb
  simpa using this

theorem length_strncpy (dst src : List Nat) (n : Nat) (hn : n ≤ dst.length) :
    (strncpy dst src n).length = dst.length := by
  unfold strncpy
  simp only [List.length_append, List.length_replicate, List.length_drop]
  have : ((cstr src).take n).length ≤ n := by
    rw [List.length_take]
    exact Nat.min_le_left _ _
  omega

/-- The name handed to `setenv`: the bytes of the line before index `s`. -/
theorem envVar_cstr (dst line : List Nat) (hs : scanName line ≤ 1023)
    (hd : dst.length = 1024) :
    cstr ((strncpy dst line (min 1023 (scanName line))).set (scanName line) 0) =
      line.take (scanName line) := by
  rw [Nat.min_eq_right hs]
  unfold strncpy
  rw [cstr_take_scanName]
  have hlen : (line.take (scanName line)).length = scanName line := by
    rw [List.length_take]
    exact Nat.min_eq_left (scanName_le_length line)
  rw [hlen, Nat.sub_self, List.replicate_zero, List.append_nil]
  have hdrop : dst.drop (scanName line) =
      dst.getD (scanName line) 0 :: dst.drop (scanName line + 1) := by
    rw [List.getD_eq_getElem _ _ (by omega : scanName line < dst.length)]
    exact List.drop_eq_getElem_cons (by omega)
  rw [hdrop, List.set_append_right _ _ (by rw [hlen]), hlen, Nat.sub_self, List.set_cons_zero]
  exact cstr_append_zero _ _ (fun b hb => ((scanName_cases line).1 b hb).1)

/-- The value handed to `setenv`: the C string after the `'='`, cut at 1023 bytes. -/
theorem envValue_cstr (dst v : List Nat) (hd : dst.length = 1024) :
    cstr ((strncpy dst v 1023).set 1023 0) = (cstr v).take 1023 := by
  unfold strncpy
  have hle : ((cstr v).take 1023).length ≤ 1023 := by
    rw [List.length_take]
    exact Nat.min_le_left _ _
  have hdrop : dst.drop 1023 = [dst.getD 1023 0] := by
    have h1 : 1023 < dst.length := by omega
    rw [List.getD_eq_getElem _ _ h1, List.drop_eq_getElem_cons h1,
      List.drop_eq_nil_iff.2 (by omega)]
  have hlen2 : ((cstr v).take 1023 ++
      List.replicate (1023 - ((cstr v).take 1023).length) 0).length ≤ 1023 := by
    simp only [List.length_append, List.length_replicate]
    omega
  rw [hdrop, List.set_append_right _ _ hlen2]
  have hidx : 1023 - ((cstr v).take 1023 ++
      List.replicate (1023 - ((cstr v).take 1023).length) 0).length = 0 := by
    simp only [List.length_append, List.length_replicate]
    omega
  rw [hidx, List.set_cons_zero, List.append_assoc]
  have hz : List.replicate (1023 - ((cstr v).take 1023).length) 0 ++ [0] =
      0 :: List.replicate (1023 - ((cstr v).take 1023).length) 0 := by
    rw [← List.replicate_succ, List.replicate_succ']
  rw [hz]
  exact cstr_append_zero _ _ (fun b hb => cstr_ne_zero v b (List.mem_of_mem_take hb))

theorem chomp_cases (l : List Nat) : l = chomp l ∨ l = chomp l ++ [10] := by
  unfold chomp
  by_cases h : l.getLast? = some 10
  · rw [if_pos h]
    right
    exact (List.dropLast_append_getLast? 10 h).symm
  · rw [if_neg h]
    left
    rfl

theorem chomp_append_cons (l a r : List Nat) (h : l = a ++ 61 :: r) :
    ∃ r1, chomp l = a ++ 61 :: r1 := by
  subst h
  unfold chomp
  by_cases hl : (a ++ 61 :: r).getLast? = some 10
  · rw [if_pos hl, List.dropLast_append_cons]
    cases r with
    | nil =>
      rw [List.getLast?_append_cons] at hl
      simp at hl
    | cons c r2 => exact ⟨(c :: r2).dropLast, by rw [List.dropLast_cons₂]⟩
  · rw [if_neg hl]
    exact ⟨r, rfl⟩

theorem lineName_ne (l : List Nat) : ∀ b ∈ lineName l, b ≠ 61 := by
  intro b hb
  have := List.mem_takeWhile_imp hb
  simpa using this

theorem lineName_split (l : List Nat) (h : 61 ∈ l) : ∃ r, l = lineName l ++ 61 :: r := by
  induction l with
  | nil => cases h
  | cons b rest ih =>
    by_cases hb : b = 61
    · subst hb
      exact ⟨rest, by simp [lineName]⟩
    · have hrest : 61 ∈ rest := by
        rcases List.mem_cons.1 h with h1 | h1
        · exact absurd h1.symm hb
        · exact h1
      obtain ⟨r, hr⟩ := ih hrest
      refine ⟨r, ?_⟩
      have h1 : lineName (b :: rest) = b :: lineName rest := by
        unfold lineName
        rw [List.takeWhile_cons_of_pos (by simpa using hb)]
      rw [h1, List.cons_append, ← hr]

theorem lineName_append (n r : List Nat) (hn : ∀ b ∈ n, b ≠ 61) :
    lineName (n ++ 61 :: r) = n := by
  unfold lineName
  rw [List.takeWhile_append_of_pos (by simpa using hn)]
  simp

/-- A line the loop body does not skip has `'='`, and the name and value handed to
`setenv` are its text before the first `'='` and its C string after it. -/
theorem lineSetting_some (l n v : List Nat) (h : lineSetting l = some (n, v)) :
    61 ∈ l ∧ lineName l = n ∧ v = lineValueC l ∧ ∀ b ∈ n, b ≠ 0 ∧ b ≠ 61 := by
  unfold lineSetting at h
  by_cases h0 : (chomp l).getD (scanName (chomp l)) 0 = 0
  · rw [if_pos h0] at h
    cases h
  · rw [if_neg h0] at h
    simp only [Option.some.injEq, Prod.mk.injEq] at h
    obtain ⟨hn, hv⟩ := h
    obtain ⟨hgood, hstop⟩ := scanName_cases (chomp l)
    rcases hstop with ⟨hz, _⟩ | ⟨_, r, hr⟩
    · exact absurd hz h0
    · have hc : chomp l = n ++ 61 :: r := by
        rw [← hn, ← hr]
        exact (List.take_append_drop _ _).symm
      have hnlen : n.length = scanName (chomp l) := by
        rw [← hn, List.length_take]
        exact Nat.min_eq_left (scanName_le_length _)
      have hgood1 : ∀ b ∈ n, b ≠ 0 ∧ b ≠ 61 := by
        rw [← hn]
        exact hgood
      have hl : ∃ r1, l = n ++ 61 :: r1 := by
        rcases chomp_cases l with h1 | h1
        · exact ⟨r, by rw [← hc]; exact h1⟩
        · exact ⟨r ++ [10], by rw [h1, hc]; simp⟩
      obtain ⟨r1, hr1⟩ := hl
      have hname : lineName l = n := by
        rw [hr1]
        exact lineName_append n r1 (fun b hb => (hgood1 b hb).2)
      refine ⟨by rw [hr1]; simp, hname, ?_, hgood1⟩
      unfold lineValueC
      rw [hname, hnlen]
      exact hv.symm

/-- A line with `'='` and no NUL before it is not skipped. -/
theorem lineSetting_of_defines (l : List Nat) (h61 : 61 ∈ l) (h0 : 0 ∉ lineName l) :
    lineSetting l = some (lineName l, lineValueC l) := by
  obtain ⟨r, hr⟩ := lineName_split l h61
  obtain ⟨r1, hc⟩ := chomp_append_cons l (lineName l) r hr
  have hgood : ∀ b ∈ lineName l, b ≠ 0 ∧ b ≠ 61 := fun b hb =>
    ⟨fun hb0 => h0 (hb0 ▸ hb), lineName_ne l b hb⟩
  have hs : scanName (chomp l) = (lineName l).length := by
    rw [hc]
    exact scanName_append _ _ hgood
  have hget : (chomp l).getD (scanName (chomp l)) 0 = 61 := by
    rw [hs, hc, List.getD_append_right _ _ _ _ (Nat.le_refl _), Nat.sub_self]
    rfl
  have htake : (chomp l).take (scanName (chomp l)) = lineName l := by
    rw [hs, hc, List.take_left']
    rfl
  unfold lineSetting
  rw [if_neg (by rw [hget]; decide), htake, hs]
  rfl

theorem definesName_iff (N l : List Nat) (h0 : 0 ∉ N) :
    definesName N l = true ↔ lineSetting l = some (N, lineValueC l) := by
  unfold definesName
  rw [decide_eq_true_iff]
  constructor
  · rintro ⟨h61, hN⟩
    rw [← hN]
    exact lineSetting_of_defines l h61 (by rw [hN]; exact h0)
  · intro h
    obtain ⟨h1, h2, _, _⟩ := lineSetting_some l N _ h
    exact ⟨h1, h2⟩

/-- One iteration of the loop on a line it has a meaning for. -/
theorem setEnvLine_eq (l : List Nat) (st : EnvFileState) (hok : LineOk l)
    (hv : st.envVar.length = 1024) (hw : st.envValue.length = 1024) :
    ∃ st1, setEnvLine l st = some st1 ∧ st1.envVar.length = 1024 ∧
      st1.envValue.length = 1024 ∧
      st1.env = match lineSetting l with
        | none => st.env
        | some nv => setenv nv.1 nv.2 false st.env := by
  obtain ⟨hint, hname⟩ := hok
  unfold setEnvLine lineSetting
  simp only []
  rw [if_neg (by omega)]
  by_cases h0 : (chomp l).getD (scanName (chomp l)) 0 = 0
  · rw [if_pos h0, if_pos h0]
    exact ⟨st, rfl, hv, hw, rfl⟩
  · have hs := hname h0
    rw [if_neg h0, if_neg h0, if_neg (by omega)]
    refine ⟨_, rfl, ?_, ?_, ?_⟩
    · rw [List.length_set, length_strncpy _ _ _ (by omega), hv]
    · rw [List.length_set, length_strncpy _ _ _ (by omega), hw]
    · simp only []
      rw [envVar_cstr _ _ hs hv, envValue_cstr _ _ hw]

/-! ## The environment after `setEnvFile` -/

theorem setenv_keeps (name value : List Nat) (env : Environ) (N v : List Nat)
    (h : env N = some v) : setenv name value false env N = some v := by
  unfold setenv
  split
  · exact h
  · split
    · exact h
    · rename_i hset
      by_cases hN : N = name
      · subst hN
        exact absurd ⟨by rw [h]; rfl, rfl⟩ hset
      · show (if N = name then some value else env N) = some v
        rw [if_neg hN]
        exact h

theorem setenv_new (name value : List Nat) (env : Environ) (N : List Nat)
    (hname : name ≠ []) (h61 : 61 ∉ name) (h : env N = none) :
    setenv name value false env N = if N = name then some value else none := by
  unfold setenv
  rw [if_neg (by simp [hname, h61])]
  by_cases hN : N = name
  · subst hN
    rw [if_neg (by simp [h])]
    show (if N = N then some value else env N) = if N = N then some value else none
    rw [if_pos rfl, if_pos rfl]
  · rw [if_neg hN]
    split
    · exact h
    · show (if N = name then some value else env N) = none
      rw [if_neg hN]
      exact h

theorem setenv_empty (value : List Nat) (env : Environ) : setenv [] value false env = env := by
  unfold setenv
  rw [if_pos (Or.inl rfl)]

/-- What one line does to the variables. -/
theorem setEnvLine_env (l : List Nat) (st : EnvFileState) (hok : LineOk l)
    (hv : st.envVar.length = 1024) (hw : st.envValue.length = 1024) :
    ∃ st1, setEnvLine l st = some st1 ∧ st1.envVar.length = 1024 ∧
      st1.envValue.length = 1024 ∧
      (∀ N v, st.env N = some v → st1.env N = some v) ∧
      (∀ N, N ≠ [] → 0 ∉ N → st.env N = none →
        st1.env N = if definesName N l = true then some (lineValueC l) else none) := by
  obtain ⟨st1, hst1, hv1, hw1, henv⟩ := setEnvLine_eq l st hok hv hw
  refine ⟨st1, hst1, hv1, hw1, ?_, ?_⟩
  · intro N v hN
    rw [henv]
    cases lineSetting l with
    | none => exact hN
    | some nv => exact setenv_keeps _ _ _ _ _ hN
  · intro N hne h0 hN
    rw [henv]
    cases hset : lineSetting l with
    | none =>
      have hdef : ¬ definesName N l = true := by
        rw [definesName_iff N l h0, hset]
        simp
      rw [if_neg hdef]
      exact hN
    | some nv =>
      obtain ⟨n, v⟩ := nv
      obtain ⟨_, _, hval, hgood⟩ := lineSetting_some l n v hset
      show setenv n v false st.env N = _
      have hiff : definesName N l = true ↔ N = n := by
        rw [definesName_iff N l h0, hset, ← hval]
        simp [eq_comm]
      by_cases hn : n = []
      · subst hn
        rw [setenv_empty, if_neg (by rw [hiff]; exact hne)]
        exact hN
      · rw [setenv_new n v st.env N hn (fun h => (hgood 61 h).2 rfl) hN, hval]
        by_cases hNn : N = n
        · rw [if_pos hNn, if_pos (hiff.2 hNn)]
        · rw [if_neg hNn, if_neg (by rw [hiff]; exact hNn)]

theorem setEnvLines_env (ls : List (List Nat)) (st : EnvFileState)
    (hok : ∀ l ∈ ls, LineOk l)
    (hv : st.envVar.length = 1024) (hw : st.envValue.length = 1024) :
    ∃ st1, setEnvLines ls st = some st1 ∧
      (∀ N v, st.env N = some v → st1.env N = some v) ∧
      (∀ N, N ≠ [] → 0 ∉ N → st.env N = none →
        st1.env N = (ls.find? (definesName N)).map lineValueC) := by
  induction ls generalizing st with
  | nil => exact ⟨st, rfl, fun _ _ h => h, fun N _ _ h => by simpa using h⟩
  | cons l ls ih =>
    obtain ⟨st1, hst1, hv1, hw1, hkeep1, hnew1⟩ :=
      setEnvLine_env l st (hok l (List.mem_cons_self _ _)) hv hw
    obtain ⟨st2, hst2, hkeep2, hnew2⟩ :=
      ih st1 (fun l1 h1 => hok l1 (List.mem_cons_of_mem _ h1)) hv1 hw1
    refine ⟨st2, ?_, fun N v h => hkeep2 N v (hkeep1 N v h), ?_⟩
    · rw [setEnvLines, hst1]
      exact hst2
    · intro N hne h0 hN
      have h1 := hnew1 N hne h0 hN
      by_cases hdef : definesName N l = true
      · rw [if_pos hdef] at h1
        rw [hkeep2 N _ h1, List.find?_cons_of_pos _ hdef]
        rfl
      · rw [if_neg hdef] at h1
        rw [hnew2 N hne h0 h1, List.find?_cons_of_neg _ hdef]

/-- A line without `'='` is skipped. -/
theorem setEnvLine_skip (l : List Nat) (st : EnvFileState) (h61 : 61 ∉ l)
    (hint : scanName (chomp l) ≤ INT_MAX) : setEnvLine l st = some st := by
  have h0 : (chomp l).getD (scanName (chomp l)) 0 = 0 := by
    by_contra hne
    have hset : lineSetting l = some ((chomp l).take (scanName (chomp l)),
        (cstr ((chomp l).drop (scanName (chomp l) + 1))).take 1023) := by
      unfold lineSetting
      rw [if_neg hne]
    exact h61 (lineSetting_some l _ _ hset).1
  unfold setEnvLine
  simp only []
  rw [if_neg (by omega), if_pos h0]

/-- C24, as the code has it: on a file in which every line keeps `s` an `int` and has at
most 1023 bytes before the `'='` its scan stops at, `setEnvFile` ends; every variable set
before keeps its value; every non-empty name `N` without NUL (of at most 1023 bytes) that
was not set is bound to the text after the first `'='`, up to the first NUL, one trailing
newline removed, cut at 1023 bytes, of the first line whose text before its first `'='`
is `N`, and stays unset when there is no such line; a line without `'='` changes
nothing. -/
theorem first_definition_wins (junk : Nat → Nat) (content : List Nat) (env : Environ)
    (hok : ∀ l ∈ fileLines content, LineOk l) :
    ∃ env1, setEnvFile junk (some content) env = some env1 ∧
      (∀ N v, env N = some v → env1 N = some v) ∧
      (∀ N, N ≠ [] → N.length ≤ 1023 → 0 ∉ N → env N = none →
        env1 N = ((fileLines content).find? (definesName N)).map lineValueC) ∧
      (∀ l st, 61 ∉ l → scanName (chomp l) ≤ INT_MAX → setEnvLine l st = some st) := by
  obtain ⟨st1, hst1, hkeep, hnew⟩ := setEnvLines_env (fileLines content)
    { envVar := (List.range 1024).map junk
      envValue := (List.range 1024).map (fun i => junk (1024 + i))
      env := env } hok (by simp) (by simp)
  refine ⟨st1.env, ?_, hkeep, fun N hne _ h0 hN => hnew N hne h0 hN, setEnvLine_skip⟩
  unfold setEnvFile
  simp only []
  rw [hst1]
  rfl

theorem lineOk_demoFile : ∀ l ∈ fileLines demoFile, LineOk l := by
  intro l hl
  have h : fileLines demoFile = [[65, 61, 49, 10], [66, 61, 120, 61, 121, 10], [65, 61, 50, 10]] := by
    decide
  rw [h] at hl
  simp only [List.mem_cons, List.mem_singleton, List.not_mem_nil, or_false] at hl
  rcases hl with rfl | rfl | rfl <;> exact ⟨by decide, fun _ => by decide⟩

theorem first_definition_wins_witness :
    (∀ l ∈ fileLines demoFile, LineOk l) ∧
    ∃ env1, setEnvFile zeroJunk (some demoFile) noEnv = some env1 ∧
      (∀ N v, noEnv N = some v → env1 N = some v) ∧
      (∀ N, N ≠ [] → N.length ≤ 1023 → 0 ∉ N → noEnv N = none →
        env1 N = ((fileLines demoFile).find? (definesName N)).map lineValueC) ∧
      (∀ l st, 61 ∉ l → scanName (chomp l) ≤ INT_MAX → setEnvLine l st = some st) :=
  ⟨lineOk_demoFile, first_definition_wins zeroJunk demoFile noEnv lineOk_demoFile⟩

theorem lineOk_nulFile : ∀ l ∈ fileLines nulFile, LineOk l := by
  intro l hl
  have h : fileLines nulFile = [[78, 61, 97, 0, 98, 10]] := by decide
  rw [h] at hl
  rw [List.mem_singleton.1 hl]
  exact ⟨by decide, fun _ => by decide⟩

/-- C24 as stated fails on the file `N=a\0b\n` with nothing set before: the claim binds
`N` to the text after the `'='`, the three bytes `a\0b`; `setEnvFile` binds it to `a`. -/
theorem value_stops_at_nul : ¬ FirstDefinitionWins zeroJunk nulFile noEnv := by
  rintro ⟨env1, hset, _, hnew, _⟩
  obtain ⟨st1, hst1, _, hcode⟩ := setEnvLines_env (fileLines nulFile)
    { envVar := (List.range 1024).map zeroJunk
      envValue := (List.range 1024).map (fun i => zeroJunk (1024 + i))
      env := noEnv } lineOk_nulFile (by simp) (by simp)
  have henv : env1 = st1.env := by
    unfold setEnvFile at hset
    simp only [] at hset
    rw [hst1] at hset
    exact (Option.some.inj hset).symm
  have hfind : (fileLines nulFile).find? (definesName [78]) = some [78, 61, 97, 0, 98, 10] := by
    decide
  have h1 := hnew [78] [78, 61, 97, 0, 98, 10] (by decide) (by decide) rfl hfind
  have h2 := hcode [78] (by decide) (by decide) rfl
  rw [henv, h2, hfind] at h1
  revert h1
  decide

/-! ## The end of the name in `envVar` -/

theorem fileLines_single (a : List Nat) (ha : 10 ∉ a) : fileLines (a ++ [10]) = [a ++ [10]] := by
  induction a with
  | nil => rfl
  | cons b a ih =>
    have hb : b ≠ 10 := fun h => ha (h ▸ List.mem_cons_self _ _)
    have ha1 : 10 ∉ a := fun h => ha (List.mem_cons_of_mem _ h)
    rw [List.cons_append, fileLines, if_neg hb, ih ha1]

theorem chomp_newline (a : List Nat) : chomp (a ++ [10]) = a := by
  unfold chomp
  rw [if_pos (List.getLast?_concat a), List.dropLast_concat]

/-- C25 fails on a line of 1024 bytes `A` followed by `=1`: the line contains `'='`, the
index `s` of the write `envVar[s] = '\0'` is 1024, past the last index 1023 of `envVar`,
and the run of `setEnvFile` on the file made of that line has no meaning. -/
theorem name_end_outside_envVar :
    61 ∈ longNameLine ∧ nameEnd longNameLine = some 1024 ∧ ¬ (1024 ≤ 1023) ∧
    setEnvLine longNameLine
      { envVar := (List.range 1024).map zeroJunk
        envValue := (List.range 1024).map (fun i => zeroJunk (1024 + i))
        env := noEnv } = none ∧
    setEnvFile zeroJunk (some longNameLine) noEnv = none := by
  have hc : chomp longNameLine = List.replicate 1024 65 ++ 61 :: [49] := by
    unfold longNameLine
    rw [chomp_newline]
  have hs : scanName (chomp longNameLine) = 1024 := by
    rw [hc, scanName_append _ _ (fun b hb => by rw [List.eq_of_mem_replicate hb]; decide)]
    exact List.length_replicate _ _
  have hget1 : (chomp longNameLine).getD 1024 0 = 61 := by
    rw [hc, List.getD_append_right _ _ _ _ (by rw [List.length_replicate]),
      List.length_replicate]
    rfl
  have hget : (chomp longNameLine).getD (scanName (chomp longNameLine)) 0 = 61 := by
    rw [hs]
    exact hget1
  have hline : ∀ st, setEnvLine longNameLine st = none := by
    intro st
    unfold setEnvLine
    simp only []
    rw [hs, hget1, if_neg (by decide), if_neg (by decide), if_pos (by decide)]
  have hlines : fileLines longNameLine = [longNameLine] := by
    unfold longNameLine
    refine fileLines_single _ ?_
    intro h
    rcases List.mem_append.1 h with h1 | h1
    · exact absurd (List.eq_of_mem_replicate h1) (by decide)
    · revert h1
      decide
  refine ⟨?_, ?_, by decide, hline _, ?_⟩
  · exact List.mem_append_left _ (List.mem_append_right _ (by decide))
  · unfold nameEnd
    rw [hget, if_neg (by decide), hs]
  · unfold setEnvFile
    simp only []
    rw [hlines, setEnvLines, hline]
    rfl

/-! ## Loading a parameter -/

/-- After `ncclGetEnv` the `pthread_once` has run, and the answer is the variable's value
in the environment it leaves. -/
theorem ncclGetEnv_after (h : Host) (name : List Nat) (st st1 : ProcState)
    (str : Option (List Nat)) (hget : ncclGetEnv h name st = some (str, st1)) :
    st1.once = true ∧ str = st1.env name := by
  unfold ncclGetEnv at hget
  by_cases ho : st.once = true
  · rw [if_pos ho] at hget
    simp only [Option.some.injEq, Prod.mk.injEq] at hget
    obtain ⟨h1, h2⟩ := hget
    subst h2
    exact ⟨ho, h1.symm⟩
  · rw [if_neg ho] at hget
    cases hinit : initEnv h st with
    | none =>
      rw [hinit] at hget
      cases hget
    | some st2 =>
      rw [hinit] at hget
      simp only [Option.map_some', Option.some.injEq, Prod.mk.injEq] at hget
      obtain ⟨h1, h2⟩ := hget
      subst h2
      exact ⟨rfl, h1.symm⟩

theorem ncclGetEnv_ready (h : Host) (name : List Nat) (st : ProcState)
    (ho : st.once = true) : ncclGetEnv h name st = some (st.env name, st) := by
  unfold ncclGetEnv
  rw [if_pos ho]

theorem ncclLoadParam_cached (h : Host) (env : List Nat) (deftVal uninitialized cache : Int)
    (st : ProcState) (hc : cache ≠ uninitialized) :
    ncclLoadParam h env deftVal uninitialized cache st = some (cache, st) := by
  unfold ncclLoadParam
  rw [if_neg hc]

theorem ncclLoadParam_resolve (h : Host) (env : List Nat) (deftVal uninitialized : Int)
    (st st1 : ProcState) (str : Option (List Nat))
    (hget : ncclGetEnv h env st = some (str, st1)) :
    ncclLoadParam h env deftVal uninitialized uninitialized st =
      some (paramValue h deftVal str, st1) := by
  unfold ncclLoadParam
  rw [if_pos rfl, hget]
  rfl

theorem paramValue_some (h : Host) (deftVal : Int) (s : List Nat) :
    paramValue h deftVal (some s) =
      if 0 < strlen s then
        if (h.strtoll s).2 ≠ 0 then deftVal else (h.strtoll s).1
      else deftVal := rfl

/-- C26: a cache that holds a value other than the sentinel is left as it is; a cache that
holds the sentinel becomes `deftVal` when the variable, as `ncclGetEnv` reads it, is unset,
is the empty string, or `strtoll` leaves `errno` set, and otherwise becomes the integer
`strtoll` returns; once `ncclGetEnv` has run, it reads the environment as it is; a second
call in the state the first one left leaves the cache at the value the first one gave. -/
theorem load_param_once (h : Host) (env : List Nat) (deftVal uninitialized cache : Int)
    (st : ProcState) :
    (cache ≠ uninitialized →
      ncclLoadParam h env deftVal uninitialized cache st = some (cache, st)) ∧
    (∀ str st1, ncclGetEnv h env st = some (str, st1) →
      (str = none →
        ncclLoadParam h env deftVal uninitialized uninitialized st = some (deftVal, st1)) ∧
      (∀ s, str = some s → strlen s = 0 →
        ncclLoadParam h env deftVal uninitialized uninitialized st = some (deftVal, st1)) ∧
      (∀ s, str = some s → 0 < strlen s → (h.strtoll s).2 ≠ 0 →
        ncclLoadParam h env deftVal uninitialized uninitialized st = some (deftVal, st1)) ∧
      (∀ s, str = some s → 0 < strlen s → (h.strtoll s).2 = 0 →
        ncclLoadParam h env deftVal uninitialized uninitialized st =
          some ((h.strtoll s).1, st1))) ∧
    (st.once = true → ncclGetEnv h env st = some (st.env env, st)) ∧
    (∀ c1 st1, ncclLoadParam h env deftVal uninitialized cache st = some (c1, st1) →
      ncclLoadParam h env deftVal uninitialized c1 st1 = some (c1, st1)) := by
  refine ⟨ncclLoadParam_cached h env deftVal uninitialized cache st, ?_,
    ncclGetEnv_ready h env st, ?_⟩
  · intro str st1 hget
    have hres := ncclLoadParam_resolve h env deftVal uninitialized st st1 str hget
    refine ⟨?_, ?_, ?_, ?_⟩
    · intro hs
      rw [hres, hs]
      rfl
    · intro s hs hlen
      rw [hres, hs, paramValue_some, if_neg (by rw [hlen]; decide)]
    · intro s hs hlen herr
      rw [hres, hs, paramValue_some, if_pos hlen, if_pos herr]
    · intro s hs hlen herr
      rw [hres, hs, paramValue_some, if_pos hlen,
        if_neg (by rw [herr]; exact fun hne => hne rfl)]
  · intro c1 st1 hfirst
    by_cases hc : cache = uninitialized
    · subst hc
      by_cases hc1 : c1 = cache
      · cases hget : ncclGetEnv h env st with
        | none =>
          unfold ncclLoadParam at hfirst
          rw [if_pos rfl, hget] at hfirst
          cases hfirst
        | some r =>
          obtain ⟨str, st2⟩ := r
          have hres := ncclLoadParam_resolve h env deftVal cache st st2 str hget
          rw [hres] at hfirst
          simp only [Option.some.injEq, Prod.mk.injEq] at hfirst
          obtain ⟨hval, hst⟩ := hfirst
          subst hst
          obtain ⟨ho, hstr⟩ := ncclGetEnv_after h env st st2 str hget
          have hget2 : ncclGetEnv h env st2 = some (str, st2) := by
            rw [ncclGetEnv_ready h env st2 ho, hstr]
          rw [hc1, ncclLoadParam_resolve h env deftVal cache st2 st2 str hget2, hval, hc1]
      · exact ncclLoadParam_cached h env deftVal cache c1 st1 hc1
    · rw [ncclLoadParam_cached h env deftVal uninitialized cache st hc] at hfirst
      simp only [Option.some.injEq, Prod.mk.injEq] at hfirst
      obtain ⟨h1, h2⟩ := hfirst
      subst h1
      subst h2
      exact ncclLoadParam_cached h env deftVal uninitialized cache st hc

theorem load_param_once_witness :
    (((7 : Int) ≠ -1) ∧
      ncclLoadParam demoHost [80] 5 (-1) 7 readyState = some (7, readyState)) ∧
    ((ncclGetEnv demoHost [80] readyState = some (some [52, 50], readyState) ∧
        0 < strlen [52, 50] ∧ (demoHost.strtoll [52, 50]).2 = 0) ∧
      (demoHost.strtoll [52, 50]).1 = 42 ∧
      ncclLoadParam demoHost [80] 5 (-1) (-1) readyState =
        some ((demoHost.strtoll [52, 50]).1, readyState)) ∧
    ((ncclGetEnv demoHost [81] readyState = some (none, readyState)) ∧
      ncclLoadParam demoHost [81] 5 (-1) (-1) readyState = some (5, readyState)) ∧
    (readyState.once = true ∧
      ncclGetEnv demoHost [80] readyState = some (readyState.env [80], readyState)) ∧
    ncclLoadParam demoHost [80] 5 (-1) (demoHost.strtoll [52, 50]).1 readyState =
      some ((demoHost.strtoll [52, 50]).1, readyState) :=
  ⟨⟨by decide, (load_param_once demoHost [80] 5 (-1) 7 readyState).1 (by decide)⟩,
    ⟨⟨rfl, by decide, by decide⟩, by decide,
      ((load_param_once demoHost [80] 5 (-1) (-1) readyState).2.1 (some [52, 50])
        readyState rfl).2.2.2 [52, 50] rfl (by decide) (by decide)⟩,
    ⟨rfl, ((load_param_once demoHost [81] 5 (-1) (-1) readyState).2.1 none
        readyState rfl).1 rfl⟩,
    ⟨rfl, (load_param_once demoHost [80] 5 (-1) (-1) readyState).2.2.1 rfl⟩,
    (load_param_once demoHost [80] 5 (-1) (-1) readyState).2.2.2
      (demoHost.strtoll [52, 50]).1 readyState
      (((load_param_once demoHost [80] 5 (-1) (-1) readyState).2.1 (some [52, 50])
        readyState rfl).2.2.2 [52, 50] rfl (by decide) (by decide))⟩

set_option maxRecDepth 100000 in
/-- On a process that has not read its configuration yet, the first `ncclLoadParam` does
so: with `A=1` in `/etc/nccl.conf` and `A` not set, the parameter `A` becomes 1. -/
theorem load_param_reads_conf :
    (ncclLoadParam demoHost [65] 5 (-1) (-1) freshState).map Prod.fst = some 1 := by
  decide

end Ctran
